import Mathlib

/-!
# juliet: escape-time fractal renderer

A shallow embedding of `include/juliet/{sets,render,rgb_renderer,renderer_thread_pool}.hpp`
and of the pan sequence of `viewer.hpp`.

Conventions of the embedding.

* `juliet::coord` (`decltype(0z)`, a signed 64-bit integer) is `Int`.  Every coordinate and
  index that occurs is bounded by the length of an allocated pixel buffer, so no operation
  wraps; `/` and `%` on coordinates are the truncating `Int.tdiv` and `Int.tmod` of C++.
* `juliet::scalar` (`std::float64_t`) is a type parameter `S` on which the definitions use
  only `+`, `-`, `*`, the conversion from integers and the comparison `<`.  No law of
  arithmetic is assumed by a definition; a theorem that needs one says so in its statement,
  and a theorem that assumes none holds for every interpretation of the operations, the
  rounding arithmetic `binary64` below among them.
* Ranges (`std::views::iota`, `cartesian_product`, `reverse`, `counted`) are lists.
* A `std::vector` is a `List`; an access outside the vector (undefined behaviour in C++)
  reads `default` and writes nothing.
* The tasks handed to the thread pool are run in the order in which they are detached,
  followed by the chunk of the calling thread.
-/

namespace juliet

/-! ## type_aliases.hpp -/

/-- The type `std::complex<juliet::scalar>`. -/
structure complex (S : Type) where
  real : S
  imag : S
deriving DecidableEq, Repr

section scalar_ops

variable {S : Type}

/-- Sum of two complex numbers (`operator+`, `operator+=` of `std::complex`). -/
def complex.add [Add S] (a b : complex S) : complex S :=
  ⟨a.real + b.real, a.imag + b.imag⟩

/-- Product of a scalar with a complex number (`operator*(const T&, const complex<T>&)`), which
multiplies each component by the scalar. -/
def complex.scale [Mul S] (s : S) (a : complex S) : complex S :=
  ⟨s * a.real, s * a.imag⟩

/-- The value-initialised `juliet::complex{}`. -/
def complex.zero [IntCast S] : complex S :=
  ⟨((0 : Int) : S), ((0 : Int) : S)⟩

/-! ## sets.hpp -/

/-- The constant `EscapeMagnitudeSquared = 2.0_scalar * 2.0_scalar`. -/
def EscapeMagnitudeSquared [Mul S] [IntCast S] : S :=
  ((2 : Int) : S) * ((2 : Int) : S)

/-- The concept `iterative_set`: `iterations_before_escape<MaxIterations>(num)`. -/
structure iterative_set (S : Type) where
  iterations_before_escape : Nat → complex S → Nat

/-- The loop `for (const auto i : std::views::iota(0uz, MaxIterations))` of both evaluators,
entered at index `i` with `remaining` indices left; `num` is the constant that is added. -/
def escape_loop [Add S] [Sub S] [Mul S] [IntCast S] [LT S]
    [DecidableRel (fun a b : S => a < b)] (MaxIterations : Nat) (num : complex S) :
    Nat → Nat → complex S → S → S → Nat
  | 0, _, _, _, _ => MaxIterations
  | remaining + 1, i, z, real_sq, imag_sq =>
    let z_imag := ((2 : Int) : S) * z.real * z.imag + num.imag
    let z_real := real_sq - imag_sq + num.real
    let real_sq1 := z_real * z_real
    let imag_sq1 := z_imag * z_imag
    if EscapeMagnitudeSquared < real_sq1 + imag_sq1 then i
    else escape_loop MaxIterations num remaining (i + 1) ⟨z_real, z_imag⟩ real_sq1 imag_sq1

/-- The function `mandelbrot_set_t::iterations_before_escape<MaxIterations>(num)`. -/
def mandelbrot_set_t.iterations_before_escape [Add S] [Sub S] [Mul S] [IntCast S] [LT S]
    [DecidableRel (fun a b : S => a < b)] (MaxIterations : Nat) (num : complex S) : Nat :=
  escape_loop MaxIterations num MaxIterations 0 complex.zero ((0 : Int) : S) ((0 : Int) : S)

/-- The set `juliet::mandelbrot_set`. -/
def mandelbrot_set [Add S] [Sub S] [Mul S] [IntCast S] [LT S]
    [DecidableRel (fun a b : S => a < b)] : iterative_set S :=
  ⟨mandelbrot_set_t.iterations_before_escape⟩

/-- The function `quadratic_julia_set::iterations_before_escape<MaxIterations>(num)` of the set
with constant `constant`. -/
def quadratic_julia_set.iterations_before_escape [Add S] [Sub S] [Mul S] [IntCast S] [LT S]
    [DecidableRel (fun a b : S => a < b)] (constant : complex S) (MaxIterations : Nat)
    (num : complex S) : Nat :=
  escape_loop MaxIterations constant MaxIterations 0 num (num.real * num.real)
    (num.imag * num.imag)

/-- The set `juliet::quadratic_julia_set{constant}`. -/
def quadratic_julia_set [Add S] [Sub S] [Mul S] [IntCast S] [LT S]
    [DecidableRel (fun a b : S => a < b)] (constant : complex S) : iterative_set S :=
  ⟨quadratic_julia_set.iterations_before_escape constant⟩

/-! ## The orbit of the quadratic map, for the statements about the evaluators -/

/-- Square of a complex number, `(a + b i)² = (a² - b²) + (2 a b) i`, recomputed from the
components. -/
def complex.sq [Sub S] [Mul S] [IntCast S] (z : complex S) : complex S :=
  ⟨z.real * z.real - z.imag * z.imag, ((2 : Int) : S) * z.real * z.imag⟩

/-- Squared magnitude of a complex number. -/
def complex.norm_sq [Add S] [Mul S] (z : complex S) : S :=
  z.real * z.real + z.imag * z.imag

/-- The orbit `z_0 = start`, `z_(n+1) = z_n² + c`. -/
def orbit [Add S] [Sub S] [Mul S] [IntCast S] (c start : complex S) : Nat → complex S
  | 0 => start
  | n + 1 => (orbit c start n).sq.add c

/-- The escape test: the squared magnitude exceeds `EscapeMagnitudeSquared`. -/
def escaped [Add S] [Mul S] [IntCast S] [LT S] (z : complex S) : Prop :=
  (EscapeMagnitudeSquared : S) < z.norm_sq

instance [Add S] [Mul S] [IntCast S] [LT S] [DecidableRel (fun a b : S => a < b)]
    (z : complex S) : Decidable (escaped z) := by
  unfold escaped
  infer_instance

end scalar_ops

/-! ## render.hpp -/

/-- The struct `juliet::coords`. -/
structure coords where
  x : Int
  y : Int
deriving DecidableEq, Repr

/-- The range `std::views::iota(a, b)` over `juliet::coord`. -/
def iota (a b : Int) : List Int :=
  (List.range (b - a).toNat).map fun (k : Nat) => a + (k : Int)

/-- The range `coords::rectangle(top_left, bottom_right)`: the cartesian product of the rows
and the columns, rows outermost. -/
def coords.rectangle (top_left bottom_right : coords) : List coords :=
  (iota top_left.y bottom_right.y).flatMap fun y =>
    (iota top_left.x bottom_right.x).map fun x => (⟨x, y⟩ : coords)

/-- The struct `juliet::resolution`. -/
structure resolution where
  width : Int
  height : Int
deriving DecidableEq, Repr

/-- The member `resolution::area`. -/
def resolution.area (self : resolution) : Int :=
  self.width * self.height

/-- The member `resolution::min_length`. -/
def resolution.min_length (self : resolution) : Int :=
  min self.width self.height

/-- The member `resolution::x_coords`. -/
def resolution.x_coords (self : resolution) : List Int :=
  iota 0 self.width

/-- The member `resolution::y_coords`. -/
def resolution.y_coords (self : resolution) : List Int :=
  iota 0 self.height

/-- The member `resolution::screen_coords`. -/
def resolution.screen_coords (self : resolution) : List coords :=
  coords.rectangle ⟨0, 0⟩ ⟨self.width, self.height⟩

/-- The member `resolution::to_graphwise_coord`. -/
def resolution.to_graphwise_coord (self : resolution) (c : coords) : coords :=
  ⟨c.x - Int.tdiv self.width 2, c.y - Int.tdiv self.height 2⟩

/-- Pixel positions of the data model: `0 ≤ x < width` and `0 ≤ y < height`. -/
def resolution.in_bounds (self : resolution) (c : coords) : Prop :=
  0 ≤ c.x ∧ c.x < self.width ∧ 0 ≤ c.y ∧ c.y < self.height

instance (self : resolution) (c : coords) : Decidable (self.in_bounds c) := by
  unfold resolution.in_bounds
  infer_instance

/-- The struct `juliet::frame`. -/
structure frame (S : Type) where
  center : complex S
  pixel_scale : S
deriving DecidableEq, Repr

/-- The static members a renderer type supplies to the generic render code: `max_iterations`
and `color_for_iterations<MaxIterations>(iterations)`.  The colour table of the RGB renderers
is computed by the float32 colour pipeline of `color.hpp` and is a parameter here. -/
structure renderer_statics (α : Type) where
  max_iterations : Nat
  color_for_iterations : Nat → Nat → α

/-- The state of `impl::rgb_based_renderer<Color>` (`rgb_renderer.hpp`). -/
structure rgb_based_renderer (S α : Type) where
  _resolution : resolution
  _frame : frame S
  _pixels : List α
deriving DecidableEq, Repr

/-- The struct `renderer_thread_pool`; `thread_count` is `_threads.get_thread_count()`. -/
structure renderer_thread_pool where
  thread_count : Nat

/-- The constructor `renderer_thread_pool(num_threads)`, which starts `num_threads - 1`
workers. -/
def renderer_thread_pool.make (num_threads : Nat) : renderer_thread_pool :=
  ⟨num_threads - 1⟩

/-- The function `std::abs` on `juliet::coord`. -/
def coord_abs (a : Int) : Int :=
  if a < 0 then -a else a

/-- Reading `v[index]` of a vector with the index computed in `juliet::coord`. -/
def buffer_get {α : Type} [Inhabited α] (pixels : List α) (index : Int) : α :=
  if 0 ≤ index then pixels.getD index.toNat default else default

/-- Writing `v[index] = color` of a vector with the index computed in `juliet::coord`. -/
def buffer_set {α : Type} (pixels : List α) (index : Int) (color : α) : List α :=
  if 0 ≤ index then pixels.set index.toNat color else pixels

section renderer

variable {S : Type} {α : Type}

/-- The member `frame::number_at_screen_coords`. -/
def frame.number_at_screen_coords [Add S] [Mul S] [IntCast S] (self : frame S)
    (res : resolution) (c : coords) : complex S :=
  let graph := res.to_graphwise_coord c
  self.center.add (complex.scale self.pixel_scale ⟨(graph.x : S), (graph.y : S)⟩)

/-- The static member `frame::complete`. -/
def frame.complete [Div S] [IntCast S] (res : resolution) : frame S :=
  ⟨complex.zero, ((4 : Int) : S) / ((res.min_length : Int) : S)⟩

/-! ## rgb_renderer.hpp -/

/-- The member `rgb_based_renderer::resolution`. -/
def rgb_based_renderer.resolution (self : rgb_based_renderer S α) : resolution :=
  self._resolution

/-- The member `rgb_based_renderer::resize`; `_pixels.resize(n)` keeps the first `n` pixels and
appends pixels `color{}` up to the length `n`. -/
def rgb_based_renderer.resize [Inhabited α] (self : rgb_based_renderer S α)
    (res : juliet.resolution) : rgb_based_renderer S α :=
  { self with
    _resolution := res
    _pixels := self._pixels.take res.area.toNat ++
      List.replicate (res.area.toNat - self._pixels.length) default }

/-- The member `rgb_based_renderer::frame`. -/
def rgb_based_renderer.frame (self : rgb_based_renderer S α) : frame S :=
  self._frame

/-- The member `rgb_based_renderer::get_pixel`. -/
def rgb_based_renderer.get_pixel [Inhabited α] (self : rgb_based_renderer S α) (c : coords) :
    α :=
  buffer_get self._pixels (c.y * self._resolution.width + c.x)

/-- The member `rgb_based_renderer::set_pixel`. -/
def rgb_based_renderer.set_pixel (self : rgb_based_renderer S α) (c : coords) (color : α) :
    rgb_based_renderer S α :=
  { self with _pixels := buffer_set self._pixels (c.y * self._resolution.width + c.x) color }

/-- The member `rgb_based_renderer::set_complete_frame`. -/
def rgb_based_renderer.set_complete_frame [Div S] [IntCast S] (self : rgb_based_renderer S α) :
    rgb_based_renderer S α :=
  { self with _frame := juliet.frame.complete self._resolution }

/-- The member `rgb_based_renderer::scale_pixel_width`. -/
def rgb_based_renderer.scale_pixel_width [Mul S] (self : rgb_based_renderer S α) (amount : S) :
    rgb_based_renderer S α :=
  { self with _frame := { self._frame with pixel_scale := self._frame.pixel_scale * amount } }

/-- The member `rgb_based_renderer::unscale_pixel_width`. -/
def rgb_based_renderer.unscale_pixel_width [Div S] (self : rgb_based_renderer S α)
    (amount : S) : rgb_based_renderer S α :=
  { self with _frame := { self._frame with pixel_scale := self._frame.pixel_scale / amount } }

/-- The member `rgb_based_renderer::translate_frame_by_coords`. -/
def rgb_based_renderer.translate_frame_by_coords [Add S] [Mul S] [IntCast S]
    (self : rgb_based_renderer S α)
    (offset_x offset_y : Int) : rgb_based_renderer S α :=
  { self with
    _frame :=
      { self._frame with
        center := self._frame.center.add
          (complex.scale self._frame.pixel_scale ⟨(offset_x : S), (offset_y : S)⟩) } }

/-- The body of the loop of the lambda `set_pixels` in `translate_pixels_by_coords`,
at the element `[y, x]` of the cartesian product. -/
def rgb_based_renderer.translate_step [Inhabited α] (offset_x offset_y : Int)
    (self : rgb_based_renderer S α) (yx : Int × Int) : rgb_based_renderer S α :=
  let new_coords : coords := ⟨yx.2 + offset_x, yx.1 + offset_y⟩
  if new_coords.x < 0 ∨ new_coords.x ≥ self._resolution.width then self
  else if new_coords.y < 0 ∨ new_coords.y ≥ self._resolution.height then self
  else self.set_pixel new_coords (self.get_pixel ⟨yx.2, yx.1⟩)

/-- The lambda `set_pixels(x_coords, y_coords)` of `translate_pixels_by_coords`. -/
def rgb_based_renderer.set_pixels [Inhabited α] (offset_x offset_y : Int)
    (self : rgb_based_renderer S α) (x_coords y_coords : List Int) : rgb_based_renderer S α :=
  (y_coords.flatMap fun y => x_coords.map fun x => (y, x)).foldl
    (rgb_based_renderer.translate_step offset_x offset_y) self

/-- The member `rgb_based_renderer::translate_pixels_by_coords`. -/
def rgb_based_renderer.translate_pixels_by_coords [Inhabited α] (self : rgb_based_renderer S α)
    (offset_x offset_y : Int) : rgb_based_renderer S α :=
  if coord_abs offset_x ≥ self._resolution.width then self
  else if coord_abs offset_y ≥ self._resolution.height then self
  else if offset_x ≤ 0 ∧ offset_y ≤ 0 then
    self.set_pixels offset_x offset_y self._resolution.x_coords self._resolution.y_coords
  else if offset_x ≤ 0 ∧ offset_y > 0 then
    self.set_pixels offset_x offset_y self._resolution.x_coords
      self._resolution.y_coords.reverse
  else if offset_x > 0 ∧ offset_y ≤ 0 then
    self.set_pixels offset_x offset_y self._resolution.x_coords.reverse
      self._resolution.y_coords
  else
    self.set_pixels offset_x offset_y self._resolution.x_coords.reverse
      self._resolution.y_coords.reverse

/-! ## render.hpp: frame_renderer_interface -/

/-- The member `frame_renderer_interface::render_by_iteration_at`. -/
def render_by_iteration_at [Add S] [Mul S] [IntCast S] (K : renderer_statics α)
    (self : rgb_based_renderer S α) (c : coords) (set : iterative_set S) :
    rgb_based_renderer S α :=
  let frame := self.frame
  let resolution := self.resolution
  let num := frame.number_at_screen_coords resolution c
  let iterations := set.iterations_before_escape K.max_iterations num
  self.set_pixel c (K.color_for_iterations K.max_iterations iterations)

/-- The member `frame_renderer_interface::render_region_by_iteration`. -/
def render_region_by_iteration [Add S] [Mul S] [IntCast S] (K : renderer_statics α)
    (self : rgb_based_renderer S α) (region : List coords) (set : iterative_set S) :
    rgb_based_renderer S α :=
  let frame := self.frame
  let resolution := self.resolution
  region.foldl
    (fun r c =>
      let num := frame.number_at_screen_coords resolution c
      let iterations := set.iterations_before_escape K.max_iterations num
      r.set_pixel c (K.color_for_iterations K.max_iterations iterations))
    self

/-- The member `frame_renderer_interface::render_by_iteration`. -/
def render_by_iteration [Add S] [Mul S] [IntCast S] (K : renderer_statics α)
    (self : rgb_based_renderer S α) (set : iterative_set S) : rgb_based_renderer S α :=
  render_region_by_iteration K self self.resolution.screen_coords set

/-! ## renderer_thread_pool.hpp -/

/-- The loop `for (const auto index : std::views::iota(start_index, end_index))` that a task
of `threaded_render_by_iteration`, and at the end the calling thread, runs. -/
def render_index_range [Add S] [Mul S] [IntCast S] (K : renderer_statics α)
    (renderer : rgb_based_renderer S α) (set : iterative_set S)
    (width start_index end_index : Int) : rgb_based_renderer S α :=
  (iota start_index end_index).foldl
    (fun r index => render_by_iteration_at K r ⟨Int.tmod index width, Int.tdiv index width⟩ set)
    renderer

/-- The member `renderer_thread_pool::threaded_render_by_iteration`. -/
def renderer_thread_pool.threaded_render_by_iteration [Add S] [Mul S] [IntCast S]
    (self : renderer_thread_pool)
    (K : renderer_statics α) (renderer : rgb_based_renderer S α) (set : iterative_set S) :
    rgb_based_renderer S α :=
  let num_tasks : Int := (self.thread_count : Int)
  let resolution := renderer.resolution
  let width := resolution.width
  let pixels_per_thread := Int.tdiv resolution.area (num_tasks + 1)
  let after_tasks := (iota 0 num_tasks).foldl
    (fun r i =>
      let start_index := (i + 0) * pixels_per_thread
      let end_index := (i + 1) * pixels_per_thread
      render_index_range K r set width start_index end_index)
    renderer
  render_index_range K after_tasks set width (num_tasks * pixels_per_thread) resolution.area

/-- The loop over a part of a region that a task of `threaded_render_region_by_iteration`,
and at the end the calling thread, runs. -/
def render_coords_list [Add S] [Mul S] [IntCast S] (K : renderer_statics α)
    (renderer : rgb_based_renderer S α) (set : iterative_set S) (part : List coords) :
    rgb_based_renderer S α :=
  part.foldl (fun r c => render_by_iteration_at K r c set) renderer

/-- The member `renderer_thread_pool::threaded_render_region_by_iteration`; the second
component of the loop state is the iterator `it`, as the rest of the region. -/
def renderer_thread_pool.threaded_render_region_by_iteration [Add S] [Mul S] [IntCast S]
    (self : renderer_thread_pool)
    (K : renderer_statics α) (renderer : rgb_based_renderer S α) (region : List coords)
    (set : iterative_set S) : rgb_based_renderer S α :=
  let num_tasks := self.thread_count
  let pixels_per_thread := region.length / (num_tasks + 1)
  let after_tasks := (List.range num_tasks).foldl
    (fun (st : rgb_based_renderer S α × List coords) _ =>
      (render_coords_list K st.1 set (st.2.take pixels_per_thread),
        st.2.drop pixels_per_thread))
    (renderer, region)
  render_coords_list K after_tasks.1 set after_tasks.2

/-- The member `renderer_thread_pool::threaded_render_missing_edges_by_iteration`. -/
def renderer_thread_pool.threaded_render_missing_edges_by_iteration [Add S] [Mul S]
    [IntCast S] (self : renderer_thread_pool) (K : renderer_statics α)
    (renderer : rgb_based_renderer S α) (set : iterative_set S) (offset_x offset_y : Int) :
    rgb_based_renderer S α :=
  let resolution := renderer.resolution
  if coord_abs offset_x ≥ resolution.width ∨ coord_abs offset_y ≥ resolution.height then
    self.threaded_render_by_iteration K renderer set
  else if offset_x > 0 then
    let r1 := self.threaded_render_region_by_iteration K renderer
      (coords.rectangle ⟨0, 0⟩ ⟨offset_x, resolution.height⟩) set
    if offset_y > 0 then
      self.threaded_render_region_by_iteration K r1
        (coords.rectangle ⟨offset_x, 0⟩ ⟨resolution.width, offset_y⟩) set
    else if offset_y < 0 then
      self.threaded_render_region_by_iteration K r1
        (coords.rectangle ⟨offset_x, resolution.height + offset_y⟩
          ⟨resolution.width, resolution.height⟩) set
    else r1
  else if offset_x < 0 then
    let r1 := self.threaded_render_region_by_iteration K renderer
      (coords.rectangle ⟨resolution.width + offset_x, 0⟩
        ⟨resolution.width, resolution.height⟩) set
    if offset_y > 0 then
      self.threaded_render_region_by_iteration K r1
        (coords.rectangle ⟨0, 0⟩ ⟨resolution.width + offset_x, offset_y⟩) set
    else if offset_y < 0 then
      self.threaded_render_region_by_iteration K r1
        (coords.rectangle ⟨0, resolution.height + offset_y⟩
          ⟨resolution.width + offset_x, resolution.height⟩) set
    else r1
  else if offset_y > 0 then
    self.threaded_render_region_by_iteration K renderer
      (coords.rectangle ⟨0, 0⟩ ⟨resolution.width, offset_y⟩) set
  else if offset_y < 0 then
    self.threaded_render_region_by_iteration K renderer
      (coords.rectangle ⟨0, resolution.height + offset_y⟩
        ⟨resolution.width, resolution.height⟩) set
  else renderer

/-! ## Vocabulary of the statements -/

/-- The constructor `rgb_based_renderer(resolution, frame)`: `resolution.area()` pixels, each
the value-initialised `color{}`. -/
def rgb_based_renderer.make [Inhabited α] (res : juliet.resolution) (f : juliet.frame S) :
    rgb_based_renderer S α :=
  ⟨res, f, List.replicate res.area.toNat default⟩

/-- The invariant of the renderer: the buffer has one pixel per position of a resolution
whose sides are not negative. -/
def rgb_based_renderer.valid (self : rgb_based_renderer S α) : Prop :=
  0 ≤ self._resolution.width ∧ 0 ≤ self._resolution.height ∧
    (self._pixels.length : Int) = self._resolution.area

instance (self : rgb_based_renderer S α) : Decidable self.valid := by
  unfold rgb_based_renderer.valid
  infer_instance

/-- The constructor `rgb_based_renderer(resolution)`, which delegates to the constructor with
the frame `frame::complete(resolution)`. -/
def rgb_based_renderer.make_complete [Div S] [IntCast S] [Inhabited α]
    (res : juliet.resolution) : rgb_based_renderer S α :=
  rgb_based_renderer.make res (juliet.frame.complete res)

/-- The buffer has as many pixels as the area `width × height` of the current resolution. -/
def rgb_based_renderer.buffer_fits (self : rgb_based_renderer S α) : Prop :=
  (self._pixels.length : Int) = self._resolution.area

instance (self : rgb_based_renderer S α) : Decidable self.buffer_fits := by
  unfold rgb_based_renderer.buffer_fits
  infer_instance

/-- The colour that `render_by_iteration_at` stores at `c` for a renderer with frame `f` and
resolution `res`. -/
def pixel_color [Add S] [Mul S] [IntCast S] (K : renderer_statics α) (f : frame S)
    (res : resolution) (set : iterative_set S) (c : coords) : α :=
  K.color_for_iterations K.max_iterations
    (set.iterations_before_escape K.max_iterations (f.number_at_screen_coords res c))

/-- Storing the colour `color c` at every position `c` of a list, in order. -/
def paint (color : coords → α) (self : rgb_based_renderer S α) (region : List coords) :
    rgb_based_renderer S α :=
  region.foldl (fun r c => r.set_pixel c (color c)) self

/-- The position `{index % width, index / width}` that `threaded_render_by_iteration` renders
for a buffer index. -/
def index_coords (width index : Int) : coords :=
  ⟨Int.tmod index width, Int.tdiv index width⟩

/-- The index ranges of `threaded_render_by_iteration` in the order in which they are created:
`iota(start_index, end_index)` of each of the `num_tasks` tasks, then the range of the calling
thread. -/
def renderer_thread_pool.index_chunks (self : renderer_thread_pool) (res : resolution) :
    List (List Int) :=
  let num_tasks : Int := (self.thread_count : Int)
  let pixels_per_thread := Int.tdiv res.area (num_tasks + 1)
  (iota 0 num_tasks).map
      (fun i => iota ((i + 0) * pixels_per_thread) ((i + 1) * pixels_per_thread)) ++
    [iota (num_tasks * pixels_per_thread) res.area]

/-- The parts of a region that `threaded_render_region_by_iteration` renders, in the order in
which they are created: for each of the `num_tasks` tasks the `pixels_per_thread` elements from
the position `i * pixels_per_thread` on, then for the calling thread all elements from the
position `num_tasks * pixels_per_thread` on. -/
def renderer_thread_pool.region_chunks (self : renderer_thread_pool) (region : List coords) :
    List (List coords) :=
  let num_tasks := self.thread_count
  let pixels_per_thread := region.length / (num_tasks + 1)
  (List.range num_tasks).map
      (fun i => (region.drop (i * pixels_per_thread)).take pixels_per_thread) ++
    [region.drop (num_tasks * pixels_per_thread)]

/-- The rectangles that `threaded_render_missing_edges_by_iteration` passes to
`threaded_render_region_by_iteration` when neither offset reaches the size of the frame, in
the order of the calls. -/
def missing_edges (res : resolution) (offset_x offset_y : Int) : List (List coords) :=
  if offset_x > 0 then
    coords.rectangle ⟨0, 0⟩ ⟨offset_x, res.height⟩ ::
      (if offset_y > 0 then
        [coords.rectangle ⟨offset_x, 0⟩ ⟨res.width, offset_y⟩]
      else if offset_y < 0 then
        [coords.rectangle ⟨offset_x, res.height + offset_y⟩ ⟨res.width, res.height⟩]
      else [])
  else if offset_x < 0 then
    coords.rectangle ⟨res.width + offset_x, 0⟩ ⟨res.width, res.height⟩ ::
      (if offset_y > 0 then
        [coords.rectangle ⟨0, 0⟩ ⟨res.width + offset_x, offset_y⟩]
      else if offset_y < 0 then
        [coords.rectangle ⟨0, res.height + offset_y⟩ ⟨res.width + offset_x, res.height⟩]
      else [])
  else if offset_y > 0 then
    [coords.rectangle ⟨0, 0⟩ ⟨res.width, offset_y⟩]
  else if offset_y < 0 then
    [coords.rectangle ⟨0, res.height + offset_y⟩ ⟨res.width, res.height⟩]
  else []

/-- The vertical strip of the dirty-region calculator as the specification words it: width
`|dx|`, full height, on the left edge if `dx > 0` and on the right edge if `dx < 0`; skipped if
`dx = 0`. -/
def spec_vertical_strip (res : resolution) (dx : Int) : List (List coords) :=
  if dx > 0 then [coords.rectangle ⟨0, 0⟩ ⟨coord_abs dx, res.height⟩]
  else if dx < 0 then [coords.rectangle ⟨res.width - coord_abs dx, 0⟩ ⟨res.width, res.height⟩]
  else []

/-- The horizontal strip of the dirty-region calculator as the specification words it: height
`|dy|`, on the top if `dy > 0` and on the bottom if `dy < 0`, spanning the width that the
vertical strip leaves; skipped if `dy = 0`. -/
def spec_horizontal_strip (res : resolution) (dx dy : Int) : List (List coords) :=
  let left := if dx > 0 then coord_abs dx else 0
  let right := if dx < 0 then res.width - coord_abs dx else res.width
  if dy > 0 then [coords.rectangle ⟨left, 0⟩ ⟨right, coord_abs dy⟩]
  else if dy < 0 then [coords.rectangle ⟨left, res.height - coord_abs dy⟩ ⟨right, res.height⟩]
  else []

/-- The complex conjugate, `std::conj`, which the code does not call: the statement on the
symmetry of the Mandelbrot evaluator is about it. -/
def complex.conj [Neg S] (z : complex S) : complex S :=
  ⟨z.real, -z.imag⟩

/-- The state of `ascii_renderer<Resolution>`: the array `_pixels` of `bool` and `_frame`. -/
structure ascii_renderer (S : Type) (Resolution : resolution) where
  _pixels : List Bool
  _frame : frame S

/-- The member `ascii_renderer::resolution`. -/
def ascii_renderer.resolution {Resolution : juliet.resolution}
    (_self : ascii_renderer S Resolution) : juliet.resolution :=
  Resolution

/-- The member `ascii_renderer::get_pixel`. -/
def ascii_renderer.get_pixel {Resolution : juliet.resolution}
    (self : ascii_renderer S Resolution) (c : coords) : Bool :=
  buffer_get self._pixels (c.y * Resolution.width + c.x)

/-- The member `ascii_renderer::set_pixel`. -/
def ascii_renderer.set_pixel {Resolution : juliet.resolution}
    (self : ascii_renderer S Resolution) (c : coords) (color : Bool) :
    ascii_renderer S Resolution :=
  { self with _pixels := buffer_set self._pixels (c.y * Resolution.width + c.x) color }

/-- The constant `ascii_renderer::off_character`. -/
def ascii_renderer.off_character : Char := '.'

/-- The constant `ascii_renderer::on_character`. -/
def ascii_renderer.on_character : Char := '#'

/-- The constructor `ascii_renderer(frame)`: the array `_pixels = {}` holds `Resolution.area()`
times `false`. -/
def ascii_renderer.make {Resolution : juliet.resolution} (f : juliet.frame S) :
    ascii_renderer S Resolution :=
  ⟨List.replicate Resolution.area.toNat false, f⟩

/-- The default constructor `ascii_renderer()`, with `_frame = frame::complete(Resolution)`. -/
def ascii_renderer.make_default [Div S] [IntCast S] {Resolution : juliet.resolution} :
    ascii_renderer S Resolution :=
  ascii_renderer.make (juliet.frame.complete Resolution)

/-- The member `ascii_renderer::frame`. -/
def ascii_renderer.frame {Resolution : juliet.resolution}
    (self : ascii_renderer S Resolution) : juliet.frame S :=
  self._frame

/-- The static member `ascii_renderer::color_for_iterations<MaxIterations>`. -/
def ascii_renderer.color_for_iterations (MaxIterations iterations : Nat) : Bool :=
  iterations == MaxIterations

/-- The member `frame_renderer_interface::render_by_iteration_at` for an `ascii_renderer` whose
type has the static member `max_iterations`. -/
def ascii_renderer.render_by_iteration_at [Add S] [Mul S] [IntCast S]
    {Resolution : juliet.resolution} (max_iterations : Nat)
    (self : ascii_renderer S Resolution) (c : coords) (set : iterative_set S) :
    ascii_renderer S Resolution :=
  let frame := self.frame
  let resolution := self.resolution
  let num := frame.number_at_screen_coords resolution c
  let iterations := set.iterations_before_escape max_iterations num
  self.set_pixel c (ascii_renderer.color_for_iterations max_iterations iterations)

/-- The member `frame_renderer_interface::render_region_by_iteration` for an `ascii_renderer`
whose type has the static member `max_iterations`. -/
def ascii_renderer.render_region_by_iteration [Add S] [Mul S] [IntCast S]
    {Resolution : juliet.resolution} (max_iterations : Nat)
    (self : ascii_renderer S Resolution) (region : List coords) (set : iterative_set S) :
    ascii_renderer S Resolution :=
  let frame := self.frame
  let resolution := self.resolution
  region.foldl
    (fun r c =>
      let num := frame.number_at_screen_coords resolution c
      let iterations := set.iterations_before_escape max_iterations num
      r.set_pixel c (ascii_renderer.color_for_iterations max_iterations iterations))
    self

/-- The member `frame_renderer_interface::render_by_iteration` for an `ascii_renderer` whose
type has the static member `max_iterations`. -/
def ascii_renderer.render_by_iteration [Add S] [Mul S] [IntCast S]
    {Resolution : juliet.resolution} (max_iterations : Nat)
    (self : ascii_renderer S Resolution) (set : iterative_set S) :
    ascii_renderer S Resolution :=
  self.render_region_by_iteration max_iterations self.resolution.screen_coords set

/-- The member `ascii_renderer::build_chars`.  The state of the loops is the array `chars`,
which starts as `Resolution.area() + Resolution.height()` zero characters, and the position of
the iterator `next_char` in it. -/
def ascii_renderer.build_chars {Resolution : juliet.resolution}
    (self : ascii_renderer S Resolution) : List Char :=
  let chars : List Char :=
    List.replicate (Resolution.area + Resolution.height).toNat (Char.ofNat 0)
  ((iota 0 Resolution.height).foldl
    (fun (st : List Char × Nat) y =>
      let st1 := (iota 0 Resolution.width).foldl
        (fun (st : List Char × Nat) x =>
          (if self.get_pixel ⟨x, y⟩ then st.1.set st.2 ascii_renderer.on_character
            else st.1.set st.2 ascii_renderer.off_character, st.2 + 1))
        st
      (st1.1.set st1.2 '\n', st1.2 + 1))
    (chars, 0)).1

/-- The renderer type of an `ascii_renderer` type with `max_iterations`, for the generic render
code: its colour for an iteration count is `color_for_iterations`. -/
def ascii_renderer.statics (max_iterations : Nat) : renderer_statics Bool :=
  ⟨max_iterations, ascii_renderer.color_for_iterations⟩

/-- The state of an `ascii_renderer<Resolution>` as the state of a renderer with a pixel
vector: the same pixels and frame, with the resolution `Resolution`. -/
def ascii_renderer.state {Resolution : juliet.resolution}
    (self : ascii_renderer S Resolution) : rgb_based_renderer S Bool :=
  ⟨Resolution, self._frame, self._pixels⟩

/-- The character that `build_chars` writes for a pixel. -/
def ascii_renderer.pixel_char (pixel : Bool) : Char :=
  if pixel then ascii_renderer.on_character else ascii_renderer.off_character

/-! ## Counting the pixels around a position -/

/-- Number of columns of the screen to the left of `c`. -/
def pixels_left (res : resolution) (c : coords) : Nat :=
  (res.x_coords.filter fun x => decide (x < c.x)).length

/-- Number of columns of the screen to the right of `c`. -/
def pixels_right (res : resolution) (c : coords) : Nat :=
  (res.x_coords.filter fun x => decide (c.x < x)).length

/-- Number of rows of the screen above `c` (rows with a smaller `y`). -/
def pixels_above (res : resolution) (c : coords) : Nat :=
  (res.y_coords.filter fun y => decide (y < c.y)).length

/-- Number of rows of the screen below `c` (rows with a greater `y`). -/
def pixels_below (res : resolution) (c : coords) : Nat :=
  (res.y_coords.filter fun y => decide (c.y < y)).length

/-! ## viewer.hpp: the pan sequence of `viewer::_translate` -/

/-- The member `viewer::_translate_frame`, on the renderer of the viewer. -/
def viewer_translate_frame [Add S] [Mul S] [IntCast S] (renderer : rgb_based_renderer S α)
    (offset_x offset_y : Int) : rgb_based_renderer S α :=
  renderer.translate_frame_by_coords (-offset_x) (-offset_y)

end renderer

/-! ## IEEE 754 binary64 and binary32, for evaluating the code on floating-point values

The finite values of a binary format with the exponent left unbounded: every operation is the
exact operation followed by rounding to the significand of the format (53 binary digits for
binary64, 24 for binary32), to nearest, ties to even.  On operands and results whose exponents
lie in the range of the format this is the arithmetic of `std::float64_t` and of
`std::float32_t`.  The functions on natural numbers are written with the operations of `Nat`
themselves, which evaluate fast. -/

/-- Number of binary digits of `a < 2`, added to `n`. -/
def bit_length_1 (a n : Nat) : Nat :=
  bif a == 0 then n else n + 1

/-- Number of binary digits of `a < 2 ^ 2`, added to `n`. -/
def bit_length_2 (a n : Nat) : Nat :=
  bif Nat.blt a 2 then bit_length_1 a n else bit_length_1 (a / 2) (n + 1)

/-- Number of binary digits of `a < 2 ^ 4`, added to `n`. -/
def bit_length_4 (a n : Nat) : Nat :=
  bif Nat.blt a 4 then bit_length_2 a n else bit_length_2 (a / 4) (n + 2)

/-- Number of binary digits of `a < 2 ^ 8`, added to `n`. -/
def bit_length_8 (a n : Nat) : Nat :=
  bif Nat.blt a 16 then bit_length_4 a n else bit_length_4 (a / 16) (n + 4)

/-- Number of binary digits of `a < 2 ^ 16`, added to `n`. -/
def bit_length_16 (a n : Nat) : Nat :=
  bif Nat.blt a 256 then bit_length_8 a n else bit_length_8 (a / 256) (n + 8)

/-- Number of binary digits of `a < 2 ^ 32`, added to `n`. -/
def bit_length_32 (a n : Nat) : Nat :=
  bif Nat.blt a 65536 then bit_length_16 a n else bit_length_16 (a / 65536) (n + 16)

/-- Number of binary digits of `a < 2 ^ 64`, added to `n`. -/
def bit_length_64 (a n : Nat) : Nat :=
  bif Nat.blt a 4294967296 then bit_length_32 a n else bit_length_32 (a / 4294967296) (n + 32)

/-- Number of binary digits of `a < 2 ^ 128`, added to `n`. -/
def bit_length_128 (a n : Nat) : Nat :=
  bif Nat.blt a 18446744073709551616 then bit_length_64 a n
  else bit_length_64 (a / 18446744073709551616) (n + 64)

/-- Number of binary digits of `a`, taken 128 digits at a time in at most `fuel` rounds. -/
def bit_length : Nat → Nat → Nat
  | 0, _ => 0
  | fuel + 1, a =>
    bif Nat.blt a 340282366920938463463374607431768211456 then bit_length_128 a 0
    else bit_length fuel (a / 340282366920938463463374607431768211456) + 128

/-- Number of binary digits of `a`, where the lengths `2 * p - 1` and `2 * p` of a product of
two significands of `p` digits are tried first. -/
def bit_length_product (p a : Nat) : Nat :=
  bif Nat.ble (Nat.pow 2 (2 * p - 2)) a && Nat.blt a (Nat.pow 2 (2 * p)) then
    bif Nat.ble (Nat.pow 2 (2 * p - 1)) a then 2 * p else 2 * p - 1
  else bit_length a a

/-- Rounding of the natural number `a` to `p` binary digits, to nearest, ties to even: the
rounded number `q` and the number `drop` of digits left out, so that `q * 2 ^ drop` is the
rounded value of `a`. -/
def round_digits (p a : Nat) : Nat × Nat :=
  bif Nat.blt a (Nat.pow 2 p) then (a, 0)
  else
    let drop := Nat.sub (bit_length_product p a) p
    let q := Nat.shiftRight a drop
    let rest := Nat.sub a (Nat.shiftLeft q drop)
    let half := Nat.pow 2 (Nat.sub drop 1)
    (bif Nat.blt half rest || (Nat.beq rest half && Nat.beq (Nat.mod q 2) 1) then Nat.add q 1
      else q, drop)

/-- A finite binary64 value `mantissa * 2 ^ exponent`. -/
structure binary64 where
  mantissa : Int
  exponent : Int
deriving Repr

/-- Rounding of `m * 2 ^ e` to a significand of 53 bits, to nearest, ties to even.  The value
zero is kept as `0 * 2 ^ 0`. -/
def binary64.round (m e : Int) : binary64 :=
  match m with
  | Int.ofNat a =>
    bif Nat.beq a 0 then ⟨0, 0⟩
    else ⟨Int.ofNat (round_digits 53 a).1, Int.add e (Int.ofNat (round_digits 53 a).2)⟩
  | Int.negSucc a =>
    ⟨Int.negOfNat (round_digits 53 (Nat.succ a)).1,
      Int.add e (Int.ofNat (round_digits 53 (Nat.succ a)).2)⟩

/-- The mantissas of two values over their smaller exponent, and that exponent. -/
def binary64.align (a b : binary64) : Int × Int × Int :=
  match Int.sub a.exponent b.exponent with
  | Int.ofNat d => (Int.mul a.mantissa (Int.ofNat (Nat.pow 2 d)), b.mantissa, b.exponent)
  | Int.negSucc d =>
    (a.mantissa, Int.mul b.mantissa (Int.ofNat (Nat.pow 2 (Nat.succ d))), a.exponent)

instance : Add binary64 :=
  ⟨fun a b =>
    binary64.round (Int.add (binary64.align a b).1 (binary64.align a b).2.1)
      (binary64.align a b).2.2⟩

instance : Sub binary64 :=
  ⟨fun a b =>
    binary64.round (Int.sub (binary64.align a b).1 (binary64.align a b).2.1)
      (binary64.align a b).2.2⟩

instance : Mul binary64 :=
  ⟨fun a b => binary64.round (Int.mul a.mantissa b.mantissa) (Int.add a.exponent b.exponent)⟩

instance : IntCast binary64 :=
  ⟨fun n => binary64.round n 0⟩

instance : Neg binary64 :=
  ⟨fun a => ⟨Int.neg a.mantissa, a.exponent⟩⟩

/-- The integer quotient of `x * 2 ^ shift` by `y`, doubled, with one more bit that records a
remainder: rounding it gives the rounded quotient of `x` by `y`. -/
def quotient_digits (x y shift : Nat) : Nat :=
  2 * ((x * 2 ^ shift) / y) + (if (x * 2 ^ shift) % y = 0 then 0 else 1)

/-- Quotient of two values: the integer quotient of the mantissas carried to 64 bits and more,
with one more bit that records a remainder, then rounded.  A quotient by zero, which is no
finite value, is given as zero. -/
def binary64.div (a b : binary64) : binary64 :=
  if b.mantissa = 0 then ⟨0, 0⟩
  else
    let x := a.mantissa.natAbs
    let y := b.mantissa.natAbs
    let shift := 64 + bit_length y y
    let magnitude : Int := ((quotient_digits x y shift : Nat) : Int)
    binary64.round
      (if (a.mantissa < 0) = (b.mantissa < 0) then magnitude else -magnitude)
      (a.exponent - b.exponent - (shift : Int) - 1)

instance : Div binary64 :=
  ⟨binary64.div⟩

/-- The rational number that a value stands for. -/
def binary64.toRat (a : binary64) : ℚ :=
  (a.mantissa : ℚ) * (2 : ℚ) ^ a.exponent

instance : LT binary64 :=
  ⟨fun a b => (binary64.align a b).1 < (binary64.align a b).2.1⟩

instance : DecidableRel (fun a b : binary64 => a < b) :=
  fun a b => inferInstanceAs (Decidable ((binary64.align a b).1 < (binary64.align a b).2.1))

/-- A finite binary32 value `mantissa * 2 ^ exponent`. -/
structure binary32 where
  mantissa : Int
  exponent : Int
deriving DecidableEq, Repr

/-- Leaving out `k` trailing binary zeros of the number `r.1` of `r.1 * 2 ^ r.2`, if it has as
many. -/
def strip_zeros_step (k : Nat) (r : Nat × Nat) : Nat × Nat :=
  bif Nat.beq (Nat.mod r.1 (Nat.pow 2 k)) 0 then (Nat.div r.1 (Nat.pow 2 k), Nat.add r.2 k)
  else r

/-- The number `r.1 * 2 ^ r.2` with the trailing binary zeros of `r.1 < 2 ^ 32` moved to the
exponent. -/
def strip_zeros (r : Nat × Nat) : Nat × Nat :=
  strip_zeros_step 1 (strip_zeros_step 2 (strip_zeros_step 4 (strip_zeros_step 8
    (strip_zeros_step 16 r))))

/-- Rounding of `m * 2 ^ e` to a significand of 24 bits, to nearest, ties to even.  The result
has an odd mantissa, and the value zero is `0 * 2 ^ 0`, so that every value is the result in
one form only. -/
def binary32.round (m e : Int) : binary32 :=
  match m with
  | Int.ofNat a =>
    bif Nat.beq a 0 then ⟨0, 0⟩
    else
      ⟨Int.ofNat (strip_zeros (round_digits 24 a)).1,
        Int.add e (Int.ofNat (strip_zeros (round_digits 24 a)).2)⟩
  | Int.negSucc a =>
    ⟨Int.negOfNat (strip_zeros (round_digits 24 (Nat.succ a))).1,
      Int.add e (Int.ofNat (strip_zeros (round_digits 24 (Nat.succ a))).2)⟩

/-- The mantissas of two values over their smaller exponent, and that exponent. -/
def binary32.align (a b : binary32) : Int × Int × Int :=
  match Int.sub a.exponent b.exponent with
  | Int.ofNat d => (Int.mul a.mantissa (Int.ofNat (Nat.pow 2 d)), b.mantissa, b.exponent)
  | Int.negSucc d =>
    (a.mantissa, Int.mul b.mantissa (Int.ofNat (Nat.pow 2 (Nat.succ d))), a.exponent)

instance : Add binary32 :=
  ⟨fun a b =>
    binary32.round (Int.add (binary32.align a b).1 (binary32.align a b).2.1)
      (binary32.align a b).2.2⟩

instance : Sub binary32 :=
  ⟨fun a b =>
    binary32.round (Int.sub (binary32.align a b).1 (binary32.align a b).2.1)
      (binary32.align a b).2.2⟩

instance : Mul binary32 :=
  ⟨fun a b => binary32.round (Int.mul a.mantissa b.mantissa) (Int.add a.exponent b.exponent)⟩

instance : IntCast binary32 :=
  ⟨fun n => binary32.round n 0⟩

/-- Quotient of two values, as for binary64.  A quotient by zero, which is no finite value, is
given as zero. -/
def binary32.div (a b : binary32) : binary32 :=
  if b.mantissa = 0 then ⟨0, 0⟩
  else
    let x := a.mantissa.natAbs
    let y := b.mantissa.natAbs
    let shift := 64 + bit_length y y
    let magnitude : Int := ((quotient_digits x y shift : Nat) : Int)
    binary32.round
      (if (a.mantissa < 0) = (b.mantissa < 0) then magnitude else -magnitude)
      (a.exponent - b.exponent - (shift : Int) - 1)

instance : Div binary32 :=
  ⟨binary32.div⟩

/-- The rational number that a value stands for. -/
def binary32.toRat (a : binary32) : ℚ :=
  (a.mantissa : ℚ) * (2 : ℚ) ^ a.exponent

instance : LT binary32 :=
  ⟨fun a b => (binary32.align a b).1 < (binary32.align a b).2.1⟩

instance : DecidableRel (fun a b : binary32 => a < b) :=
  fun a b => inferInstanceAs (Decidable ((binary32.align a b).1 < (binary32.align a b).2.1))

instance : LE binary32 :=
  ⟨fun a b => (binary32.align a b).1 ≤ (binary32.align a b).2.1⟩

instance : DecidableRel (fun a b : binary32 => a ≤ b) :=
  fun a b => inferInstanceAs (Decidable ((binary32.align a b).1 ≤ (binary32.align a b).2.1))

/-- The conversion of a `std::float32_t` to `double`, which is exact. -/
def binary32.to_binary64 (a : binary32) : binary64 :=
  ⟨a.mantissa, a.exponent⟩

/-- The conversion `static_cast<std::float32_t>` of a `double`. -/
def binary64.to_binary32 (a : binary64) : binary32 :=
  binary32.round a.mantissa a.exponent

/-- The bits of a value by `std::bit_cast<std::uint32_t>`, for a value of at most 24
significant digits in the normal range of binary32: the sign, the biased exponent of the
leading digit, and the 23 digits after the leading digit.  Zero has the bits `0`. -/
def binary32.to_bits (a : binary32) : Nat :=
  let m := a.mantissa.natAbs
  if m = 0 then 0
  else
    let n := bit_length m m
    (if a.mantissa < 0 then 2 ^ 31 else 0) +
      (a.exponent + (n : Int) - 1 + 127).toNat * 2 ^ 23 + (m * 2 ^ (24 - n) - 2 ^ 23)

/-- The value with given bits by `std::bit_cast<std::float32_t>`, for the bits of a finite
value (a biased exponent below 255). -/
def binary32.of_bits (bits : Nat) : binary32 :=
  let sign : Nat := bits / 2 ^ 31 % 2
  let biased : Nat := bits / 2 ^ 23 % 256
  let fraction : Nat := bits % 2 ^ 23
  let magnitude : Int := if biased = 0 then (fraction : Int) else ((2 ^ 23 + fraction : Nat) : Int)
  let exponent : Int := if biased = 0 then -149 else (biased : Int) - 150
  ⟨if sign = 1 then -magnitude else magnitude, exponent⟩

/-- The function `std::sub_sat` on `std::uint32_t`. -/
def sub_sat (x y : Nat) : Nat :=
  if x ≥ y then x - y else 0

/-- The integer nearest to `x`, the even one of the two nearest if `x` lies halfway between
them: rounding to the nearest integer, ties to even. -/
def nearest_even (x : ℚ) : Int :=
  if x - (⌊x⌋ : ℚ) < 1 / 2 then ⌊x⌋
  else if 1 / 2 < x - (⌊x⌋ : ℚ) then ⌊x⌋ + 1
  else if ⌊x⌋ % 2 = 0 then ⌊x⌋ else ⌊x⌋ + 1

/-! ## The floating-point types of the colour code

In the colour code `F` stands for `std::float32_t` and `D` for `double`, with the operations
of the language as instances, so that the code can be read over binary32 and binary64 and over
exact arithmetic. -/

/-- The functions of `<cmath>` that the colour code calls, which the repository does not
define: `std::pow`, `std::cos`, `std::sin` and `std::fmod` on `std::float32_t`, `std::pow` on
`double`, and with them the conversions between the two types. -/
structure cmath (F D : Type) where
  pow : F → F → F
  cos : F → F
  sin : F → F
  fmod : F → F → F
  pow_double : D → D → D
  to_double : F → D
  to_float32 : D → F

/-- The two directions of `std::bit_cast` between `std::float32_t` and `std::uint32_t`. -/
structure bit_cast (F : Type) where
  to_uint32 : F → Nat
  to_float32 : Nat → F

/-- The function `std::bit_cast` for binary32. -/
def binary32.bit_cast : bit_cast binary32 :=
  ⟨binary32.to_bits, binary32.of_bits⟩

section color_code

variable {F D : Type}

/-- The value of a decimal literal `n / d` with the suffix `f32`, for `n` and `d` below
`2 ^ 24`: in binary32 the value nearest to the quotient. -/
def decimal_literal [Div F] [IntCast F] (n d : Nat) : F :=
  (((n : Nat) : Int) : F) / (((d : Nat) : Int) : F)

/-- The constant `std::numbers::pi_v<std::float32_t>`, with the bits `0x40490FDB`: the value
`13176795 / 2 ^ 22`. -/
def pi_v [Div F] [IntCast F] : F :=
  ((13176795 : Int) : F) / ((4194304 : Int) : F)

/-- The function `std::clamp(v, lo, hi)`, which is `(v < lo) ? lo : (hi < v) ? hi : v`. -/
def clamp [LT F] [DecidableRel (fun a b : F => a < b)] (v lo hi : F) : F :=
  if v < lo then lo else if hi < v then hi else v

/-! ## color.hpp -/

/-- The struct `color::rgba`; the channels are `std::uint8_t` values. -/
structure color.rgba where
  red : Nat
  green : Nat
  blue : Nat
  alpha : Nat
deriving DecidableEq, Repr

instance : Inhabited color.rgba :=
  ⟨⟨0, 0, 0, 0⟩⟩

/-- The function `color::rgba::gray`. -/
def color.rgba.gray (brightness : Nat) : color.rgba :=
  ⟨brightness, brightness, brightness, 0xFF⟩

/-- The constant `color::rgba::white`. -/
def color.rgba.white : color.rgba :=
  ⟨0xFF, 0xFF, 0xFF, 0xFF⟩

/-- The constant `color::rgba::black`. -/
def color.rgba.black : color.rgba :=
  ⟨0x00, 0x00, 0x00, 0xFF⟩

/-- The struct `color::rgb`; the channels are `std::uint8_t` values. -/
structure color.rgb where
  red : Nat
  green : Nat
  blue : Nat
deriving DecidableEq, Repr

instance : Inhabited color.rgb :=
  ⟨⟨0, 0, 0⟩⟩

/-- The function `color::rgb::gray`. -/
def color.rgb.gray (brightness : Nat) : color.rgb :=
  ⟨brightness, brightness, brightness⟩

/-- The member `color::rgb::rgba`. -/
def color.rgb.rgba (self : color.rgb) : color.rgba :=
  ⟨self.red, self.green, self.blue, 0xFF⟩

/-- The constant `color::rgb::white`. -/
def color.rgb.white : color.rgb :=
  ⟨0xFF, 0xFF, 0xFF⟩

/-- The constant `color::rgb::black`. -/
def color.rgb.black : color.rgb :=
  ⟨0x00, 0x00, 0x00⟩

/-- The struct `color::white_point`. -/
structure color.white_point (F : Type) where
  x : F
  y : F
  z : F

/-- The constant `color::white_point::d65 = {0.95047f32, 1.0f32, 1.08883f32}`. -/
def color.white_point.d65 [Div F] [IntCast F] : color.white_point F :=
  ⟨decimal_literal 95047 100000, ((1 : Int) : F), decimal_literal 108883 100000⟩

/-- The struct `color::rgb_space`. -/
structure color.rgb_space (F : Type) where
  xr : F
  yr : F
  xg : F
  yg : F
  xb : F
  yb : F

/-- The constant `color::rgb_space::standard`. -/
def color.rgb_space.standard [Div F] [IntCast F] : color.rgb_space F :=
  ⟨decimal_literal 64 100, decimal_literal 33 100, decimal_literal 30 100,
    decimal_literal 60 100, decimal_literal 15 100, decimal_literal 6 100⟩

/-- The struct `color::impl::matrix<2, 2>` with its 4 elements in row-major order. -/
structure color.impl.matrix_2_2 (F : Type) where
  _elements : List F

/-- The struct `color::impl::matrix<3, 3>` with its 9 elements in row-major order. -/
structure color.impl.matrix_3_3 (F : Type) where
  _elements : List F

/-- The element `self[row_index, column_index]` of a `matrix<2, 2>`. -/
def color.impl.matrix_2_2.get [IntCast F] (self : color.impl.matrix_2_2 F)
    (row_index column_index : Nat) : F :=
  self._elements.getD (row_index * 2 + column_index) ((0 : Int) : F)

/-- The element `self[row_index, column_index]` of a `matrix<3, 3>`. -/
def color.impl.matrix_3_3.get [IntCast F] (self : color.impl.matrix_3_3 F)
    (row_index column_index : Nat) : F :=
  self._elements.getD (row_index * 3 + column_index) ((0 : Int) : F)

/-- The friend `operator *(lhs, rhs)` of `matrix<2, 2>`. -/
def color.impl.matrix_2_2.scale [Mul F] (lhs : F) (rhs : color.impl.matrix_2_2 F) :
    color.impl.matrix_2_2 F :=
  ⟨rhs._elements.map fun self_elem => lhs * self_elem⟩

/-- The friend `operator *(lhs, rhs)` of `matrix<3, 3>`. -/
def color.impl.matrix_3_3.scale [Mul F] (lhs : F) (rhs : color.impl.matrix_3_3 F) :
    color.impl.matrix_3_3 F :=
  ⟨rhs._elements.map fun self_elem => lhs * self_elem⟩

/-- The member `matrix<2, 2>::multiply_vector`; `result` starts as two zeros. -/
def color.impl.matrix_2_2.multiply_vector [Add F] [Mul F] [IntCast F]
    (self : color.impl.matrix_2_2 F) (vector : List F) : List F :=
  (List.range 2).foldl
    (fun result i =>
      (List.range 2).foldl
        (fun result j =>
          result.set i
            (result.getD i ((0 : Int) : F) + vector.getD j ((0 : Int) : F) * self.get i j))
        result)
    [((0 : Int) : F), ((0 : Int) : F)]

/-- The member `matrix<3, 3>::multiply_vector`; `result` starts as three zeros. -/
def color.impl.matrix_3_3.multiply_vector [Add F] [Mul F] [IntCast F]
    (self : color.impl.matrix_3_3 F) (vector : List F) : List F :=
  (List.range 3).foldl
    (fun result i =>
      (List.range 3).foldl
        (fun result j =>
          result.set i
            (result.getD i ((0 : Int) : F) + vector.getD j ((0 : Int) : F) * self.get i j))
        result)
    [((0 : Int) : F), ((0 : Int) : F), ((0 : Int) : F)]

/-- The member `matrix<2, 2>::determinant`. -/
def color.impl.matrix_2_2.determinant [Sub F] [Mul F] [IntCast F]
    (self : color.impl.matrix_2_2 F) : F :=
  self.get 0 0 * self.get 1 1 - self.get 1 0 * self.get 0 1

/-- The member `matrix<3, 3>::determinant`. -/
def color.impl.matrix_3_3.determinant [Add F] [Sub F] [Mul F] [IntCast F]
    (self : color.impl.matrix_3_3 F) : F :=
  let first := self.get 0 0 *
    (⟨[self.get 1 1, self.get 1 2, self.get 2 1, self.get 2 2]⟩ :
      color.impl.matrix_2_2 F).determinant
  let second := self.get 0 1 *
    (⟨[self.get 1 0, self.get 1 2, self.get 2 0, self.get 2 2]⟩ :
      color.impl.matrix_2_2 F).determinant
  let third := self.get 0 2 *
    (⟨[self.get 1 0, self.get 1 1, self.get 2 0, self.get 2 1]⟩ :
      color.impl.matrix_2_2 F).determinant
  first - second + third

/-- The member `matrix<2, 2>::inverse`. -/
def color.impl.matrix_2_2.inverse [Sub F] [Mul F] [Div F] [Neg F] [IntCast F]
    (self : color.impl.matrix_2_2 F) : color.impl.matrix_2_2 F :=
  let inverse_determinant := ((1 : Int) : F) / self.determinant
  color.impl.matrix_2_2.scale inverse_determinant
    ⟨[self.get 1 1, -self.get 0 1, -self.get 1 0, self.get 0 0]⟩

/-- The member `matrix<3, 3>::inverse`. -/
def color.impl.matrix_3_3.inverse [Add F] [Sub F] [Mul F] [Div F] [IntCast F]
    (self : color.impl.matrix_3_3 F) : color.impl.matrix_3_3 F :=
  let inverse_determinant := ((1 : Int) : F) / self.determinant
  let minor (a b c d : F) : F :=
    (⟨[a, b, c, d]⟩ : color.impl.matrix_2_2 F).determinant
  color.impl.matrix_3_3.scale inverse_determinant
    ⟨[minor (self.get 1 1) (self.get 1 2) (self.get 2 1) (self.get 2 2),
      minor (self.get 0 2) (self.get 0 1) (self.get 2 2) (self.get 2 1),
      minor (self.get 0 1) (self.get 0 2) (self.get 1 1) (self.get 1 2),
      minor (self.get 1 2) (self.get 1 0) (self.get 2 2) (self.get 2 0),
      minor (self.get 0 0) (self.get 0 2) (self.get 2 0) (self.get 2 2),
      minor (self.get 0 2) (self.get 0 0) (self.get 1 2) (self.get 1 0),
      minor (self.get 1 0) (self.get 1 1) (self.get 2 0) (self.get 2 1),
      minor (self.get 0 1) (self.get 0 0) (self.get 2 1) (self.get 2 0),
      minor (self.get 0 0) (self.get 0 1) (self.get 1 0) (self.get 1 1)]⟩

/-- The struct `color::xyz<WhitePoint>`. -/
structure color.xyz (F : Type) where
  x : F
  y : F
  z : F

/-- The function `xyz<WhitePoint>::_xyz_to_linear_rgb<Space>`. -/
def color.xyz._xyz_to_linear_rgb [Add F] [Sub F] [Mul F] [Div F] [IntCast F]
    (WhitePoint : color.white_point F) (Space : color.rgb_space F) :
    color.impl.matrix_3_3 F :=
  let xr := Space.xr / Space.yr
  let xg := Space.xg / Space.yg
  let xb := Space.xb / Space.yb
  let yr := ((1 : Int) : F)
  let yg := ((1 : Int) : F)
  let yb := ((1 : Int) : F)
  let zr := (((1 : Int) : F) - Space.xr - Space.yr) / Space.yr
  let zg := (((1 : Int) : F) - Space.xg - Space.yg) / Space.yg
  let zb := (((1 : Int) : F) - Space.xb - Space.yb) / Space.yb
  let s :=
    (⟨[xr, xg, xb, yr, yg, yb, zr, zg, zb]⟩ : color.impl.matrix_3_3 F).inverse.multiply_vector
      [WhitePoint.x, WhitePoint.y, WhitePoint.z]
  let sr := s.getD 0 ((0 : Int) : F)
  let sg := s.getD 1 ((0 : Int) : F)
  let sb := s.getD 2 ((0 : Int) : F)
  (⟨[sr * xr, sg * xg, sb * xb, sr * yr, sg * yr, sb * yb, sr * zr, sg * zg, sb * zb]⟩ :
    color.impl.matrix_3_3 F).inverse

/-- The function `xyz::_linear_to_gamma`. -/
def color.xyz._linear_to_gamma [Sub F] [Mul F] [Div F] [IntCast F] [LE F]
    [DecidableRel (fun a b : F => a ≤ b)] (fns : cmath F D) (component : F) : F :=
  if component ≤ decimal_literal 31308 10000000 then decimal_literal 1292 100 * component
  else
    decimal_literal 1055 1000 *
        fns.pow component (((1 : Int) : F) / decimal_literal 24 10) -
      decimal_literal 55 1000

/-- The constant `C23_u32` of `xyz::_to_octet`. -/
def color.xyz.C23_u32 : Nat :=
  0x4b000000

/-- The constant `C23_f32` of `xyz::_to_octet`, which is `2 ^ 23` in binary32. -/
def color.xyz.C23_f32 (bits : bit_cast F) : F :=
  bits.to_float32 color.xyz.C23_u32

/-- The function `xyz::_to_octet`; the result is converted to `std::uint8_t`. -/
def color.xyz._to_octet [Add F] [Mul F] [IntCast F] [LT F]
    [DecidableRel (fun a b : F => a < b)] (bits : bit_cast F) (component : F) : Nat :=
  let scaled := ((255 : Int) : F) * clamp component ((0 : Int) : F) ((1 : Int) : F)
  let shifted := scaled + color.xyz.C23_f32 bits
  sub_sat (bits.to_uint32 shifted) color.xyz.C23_u32 % 256

/-- The member `xyz<WhitePoint>::rgb<Space>`. -/
def color.xyz.rgb [Add F] [Sub F] [Mul F] [Div F] [IntCast F] [LT F] [LE F]
    [DecidableRel (fun a b : F => a < b)] [DecidableRel (fun a b : F => a ≤ b)]
    (WhitePoint : color.white_point F) (Space : color.rgb_space F) (bits : bit_cast F)
    (fns : cmath F D) (self : color.xyz F) : color.rgb :=
  let XyzToLinearRGB := color.xyz._xyz_to_linear_rgb WhitePoint Space
  let linear := XyzToLinearRGB.multiply_vector [self.x, self.y, self.z]
  let gamma_r := color.xyz._linear_to_gamma fns (linear.getD 0 ((0 : Int) : F))
  let gamma_g := color.xyz._linear_to_gamma fns (linear.getD 1 ((0 : Int) : F))
  let gamma_b := color.xyz._linear_to_gamma fns (linear.getD 2 ((0 : Int) : F))
  ⟨color.xyz._to_octet bits gamma_r, color.xyz._to_octet bits gamma_g,
    color.xyz._to_octet bits gamma_b⟩

/-- The struct `color::lab`. -/
structure color.lab (F : Type) where
  l : F
  a : F
  b : F

/-- The function `lab::_process_component`. -/
def color.lab._process_component [Sub F] [Mul F] [Div F] [IntCast F] [LT F]
    [DecidableRel (fun a b : F => a < b)] (fns : cmath F D) (component : F) : F :=
  let Epsilon : F := ((6 : Int) : F) / ((29 : Int) : F)
  let Delta : F := ((4 : Int) : F) / ((29 : Int) : F)
  let Kappa : F := ((108 : Int) : F) / ((841 : Int) : F)
  if Epsilon < component then fns.pow component ((3 : Int) : F)
  else Kappa * (component - Delta)

/-- The member `lab::xyz<WhitePoint>`. -/
def color.lab.xyz [Add F] [Sub F] [Mul F] [Div F] [IntCast F] [LT F]
    [DecidableRel (fun a b : F => a < b)] (WhitePoint : color.white_point F)
    (fns : cmath F D) (self : color.lab F) : color.xyz F :=
  let y := (self.l + ((16 : Int) : F)) / ((116 : Int) : F)
  let x := y + (self.a / ((500 : Int) : F))
  let z := y - (self.b / ((200 : Int) : F))
  ⟨WhitePoint.x * color.lab._process_component fns x,
    WhitePoint.y * color.lab._process_component fns y,
    WhitePoint.z * color.lab._process_component fns z⟩

/-- The struct `color::lch`. -/
structure color.lch (F : Type) where
  l : F
  c : F
  h : F

/-- The member `lch::lab`. -/
def color.lch.lab [Mul F] [Div F] [IntCast F] (fns : cmath F D) (self : color.lch F) :
    color.lab F :=
  let DegreesToRadians : F := pi_v / ((180 : Int) : F)
  ⟨self.l, self.c * fns.cos (self.h * DegreesToRadians),
    self.c * fns.sin (self.h * DegreesToRadians)⟩

/-- The member `lch::rgb`, with the default white point and RGB space. -/
def color.lch.rgb [Add F] [Sub F] [Mul F] [Div F] [IntCast F] [LT F] [LE F]
    [DecidableRel (fun a b : F => a < b)] [DecidableRel (fun a b : F => a ≤ b)]
    (bits : bit_cast F) (fns : cmath F D) (self : color.lch F) : color.rgb :=
  color.xyz.rgb color.white_point.d65 color.rgb_space.standard bits fns
    ((self.lab fns).xyz color.white_point.d65 fns)

/-- The constant `color::lch::white`. -/
def color.lch.white [IntCast F] : color.lch F :=
  ⟨((100 : Int) : F), ((0 : Int) : F), ((0 : Int) : F)⟩

/-- The constant `color::lch::black`. -/
def color.lch.black [IntCast F] : color.lch F :=
  ⟨((0 : Int) : F), ((0 : Int) : F), ((0 : Int) : F)⟩

/-! ## rgb_renderer.hpp: the colours of the iteration counts -/

/-- The function `lch_color_for_iterations<MaxIterations>`.  `std::pow` with the exponent `2`
of type `int` is the function on `double`, so `v` and the right side of `luminance` are
computed in `double`. -/
def lch_color_for_iterations [Add F] [Mul F] [Div F] [IntCast F] [Sub D] [Mul D] [IntCast D]
    (fns : cmath F D) (MaxIterations iterations : Nat) : color.lch F :=
  let Exponent : F := decimal_literal 1 100
  if iterations = MaxIterations then color.lch.black
  else
    let s := fns.pow
      ((((iterations : Nat) : Int) : F) / (((MaxIterations : Nat) : Int) : F)) Exponent
    let v : D := ((1 : Int) : D) -
      fns.pow_double (fns.to_double (fns.cos (s * pi_v))) ((2 : Int) : D)
    let luminance : F := fns.to_float32 (((75 : Int) : D) - ((75 : Int) : D) * v)
    ⟨luminance, ((28 : Int) : F) + luminance,
      fns.fmod (fns.pow (((360 : Int) : F) * s) (decimal_literal 15 10)) ((360 : Int) : F)⟩

/-- The array `Colors` of `rgb_renderer::color_for_iterations<MaxIterations>`: `MaxIterations + 1`
elements, which the loop assigns one after the other. -/
def rgb_renderer.Colors [Add F] [Sub F] [Mul F] [Div F] [IntCast F] [LT F] [LE F]
    [DecidableRel (fun a b : F => a < b)] [DecidableRel (fun a b : F => a ≤ b)]
    [Sub D] [Mul D] [IntCast D] (bits : bit_cast F) (fns : cmath F D) (MaxIterations : Nat) :
    List color.rgb :=
  (List.range (MaxIterations + 1)).foldl
    (fun colors iterations =>
      colors.set iterations
        ((lch_color_for_iterations fns MaxIterations iterations).rgb bits fns))
    (List.replicate (MaxIterations + 1) default)

/-- The function `rgb_renderer::color_for_iterations<MaxIterations>`. -/
def rgb_renderer.color_for_iterations [Add F] [Sub F] [Mul F] [Div F] [IntCast F] [LT F]
    [LE F] [DecidableRel (fun a b : F => a < b)] [DecidableRel (fun a b : F => a ≤ b)]
    [Sub D] [Mul D] [IntCast D] (bits : bit_cast F) (fns : cmath F D)
    (MaxIterations iterations : Nat) : color.rgb :=
  (rgb_renderer.Colors bits fns MaxIterations).getD iterations default

/-- The array `Colors` of `rgba_renderer::color_for_iterations<MaxIterations>`. -/
def rgba_renderer.Colors [Add F] [Sub F] [Mul F] [Div F] [IntCast F] [LT F] [LE F]
    [DecidableRel (fun a b : F => a < b)] [DecidableRel (fun a b : F => a ≤ b)]
    [Sub D] [Mul D] [IntCast D] (bits : bit_cast F) (fns : cmath F D) (MaxIterations : Nat) :
    List color.rgba :=
  (List.range (MaxIterations + 1)).foldl
    (fun colors iterations =>
      colors.set iterations
        ((lch_color_for_iterations fns MaxIterations iterations).rgb bits fns).rgba)
    (List.replicate (MaxIterations + 1) default)

/-- The function `rgba_renderer::color_for_iterations<MaxIterations>`. -/
def rgba_renderer.color_for_iterations [Add F] [Sub F] [Mul F] [Div F] [IntCast F] [LT F]
    [LE F] [DecidableRel (fun a b : F => a < b)] [DecidableRel (fun a b : F => a ≤ b)]
    [Sub D] [Mul D] [IntCast D] (bits : bit_cast F) (fns : cmath F D)
    (MaxIterations iterations : Nat) : color.rgba :=
  (rgba_renderer.Colors bits fns MaxIterations).getD iterations default

/-- The static members of `rgb_renderer` that rendering with the template argument
`MaxIterations` uses: the bound and the member `color_for_iterations`. -/
def rgb_renderer.statics [Add F] [Sub F] [Mul F] [Div F] [IntCast F] [LT F]
    [LE F] [DecidableRel (fun a b : F => a < b)] [DecidableRel (fun a b : F => a ≤ b)]
    [Sub D] [Mul D] [IntCast D] (bits : bit_cast F) (fns : cmath F D)
    (MaxIterations : Nat) : renderer_statics color.rgb :=
  ⟨MaxIterations, rgb_renderer.color_for_iterations bits fns⟩

/-- The static members of `rgba_renderer` that rendering with the template argument
`MaxIterations` uses. -/
def rgba_renderer.statics [Add F] [Sub F] [Mul F] [Div F] [IntCast F] [LT F]
    [LE F] [DecidableRel (fun a b : F => a < b)] [DecidableRel (fun a b : F => a ≤ b)]
    [Sub D] [Mul D] [IntCast D] (bits : bit_cast F) (fns : cmath F D)
    (MaxIterations : Nat) : renderer_statics color.rgba :=
  ⟨MaxIterations, rgba_renderer.color_for_iterations bits fns⟩

end color_code

/-! ## Concrete inputs -/

/-- A renderer type with `max_iterations = 5` whose colour for an iteration count is the count
itself. -/
def small_statics : renderer_statics Nat :=
  ⟨5, fun _ iterations => iterations⟩

/-- A renderer of resolution 3×2 over the integers: centre `0`, one plane unit per pixel, every
pixel `color{}`. -/
def small_renderer : rgb_based_renderer Int Nat :=
  rgb_based_renderer.make ⟨3, 2⟩ ⟨⟨0, 0⟩, 1⟩

/-- A binary64 renderer of resolution 2×1 with centre `0 + 0i` and `pixel_scale = 1.0`. -/
def unit_renderer : rgb_based_renderer binary64 Nat :=
  ⟨⟨2, 1⟩, ⟨⟨⟨0, 0⟩, ⟨0, 0⟩⟩, ⟨1, 0⟩⟩, [0, 0]⟩

/-- Functions in the place of those of `<cmath>` for evaluating the colour code at concrete
binary32 inputs: each returns its first argument, and the conversions are those between
binary32 and binary64. -/
def first_argument_cmath : cmath binary32 binary64 :=
  ⟨fun x _ => x, fun x => x, fun x => x, fun x _ => x, fun x _ => x, binary32.to_binary64,
    binary64.to_binary32⟩

/-- Functions in the place of those of `<cmath>` with the ranges of the library functions, for
evaluating `lch_color_for_iterations` at concrete inputs: `pow` returns its base, `cos` is
constantly `1` and `sin` constantly `0`, `fmod x y` is `x` for `x < y` and `0` otherwise,
`pow` on `double` returns the square of its base, and the conversions are those between
binary32 and binary64. -/
def ranged_cmath : cmath binary32 binary64 :=
  ⟨fun x _ => x, fun _ => ((1 : Int) : binary32), fun _ => ((0 : Int) : binary32),
    fun x y => if x < y then x else ((0 : Int) : binary32), fun y _ => y * y,
    binary32.to_binary64, binary64.to_binary32⟩

/-! ## The test of `ascii_renderer.hpp` -/

/-- The static member `test_ascii_renderer::max_iterations`. -/
def test.test_ascii_renderer.max_iterations : Nat := 55

/-- The string literal that `ascii_test` compares the characters with. -/
def test.golden_chars : String :=
  ".........................\n" ++
  ".........................\n" ++
  ".........................\n" ++
  ".........................\n" ++
  ".........................\n" ++
  ".........................\n" ++
  ".........................\n" ++
  "...........#.............\n" ++
  "...........#.............\n" ++
  ".........#####...........\n" ++
  "........#######..........\n" ++
  ".....##.#######..........\n" ++
  "##############...........\n" ++
  ".....##.#######..........\n" ++
  "........#######..........\n" ++
  ".........#####...........\n" ++
  "...........#.............\n" ++
  "...........#.............\n" ++
  ".........................\n" ++
  ".........................\n" ++
  ".........................\n" ++
  ".........................\n" ++
  ".........................\n" ++
  ".........................\n" ++
  ".........................\n"

/-- The renderer of `ascii_test` after `renderer.render_by_iteration(juliet::mandelbrot_set)`:
a `test_ascii_renderer`, which is an `ascii_renderer<resolution{25, 25}>` with the default
frame, over binary64 scalars. -/
def test.rendered : ascii_renderer binary64 ⟨25, 25⟩ :=
  ascii_renderer.render_by_iteration test.test_ascii_renderer.max_iterations
    ascii_renderer.make_default mandelbrot_set

/-- The function `test::ascii_test`. -/
def test.ascii_test : Bool :=
  test.rendered.build_chars == test.golden_chars.toList

/-- The pixel positions that the test's picture shows as `#`, by row and column. -/
def test.golden_pixel (c : coords) : Prop :=
  ((c.y = 7 ∨ c.y = 8 ∨ c.y = 16 ∨ c.y = 17) ∧ c.x = 11) ∨
  ((c.y = 9 ∨ c.y = 15) ∧ 9 ≤ c.x ∧ c.x ≤ 13) ∨
  ((c.y = 10 ∨ c.y = 14) ∧ 8 ≤ c.x ∧ c.x ≤ 14) ∨
  ((c.y = 11 ∨ c.y = 13) ∧ ((5 ≤ c.x ∧ c.x ≤ 6) ∨ (8 ≤ c.x ∧ c.x ≤ 14))) ∨
  (c.y = 12 ∧ 0 ≤ c.x ∧ c.x ≤ 13)

instance (c : coords) : Decidable (test.golden_pixel c) := by
  unfold test.golden_pixel
  infer_instance

/-! ## The escape loop -/

section escape_time
variable {S : Type} [Add S] [Sub S] [Mul S] [IntCast S] [LT S]
  [DecidableRel (fun a b : S => a < b)] {α : Type}

theorem escape_loop_le (M : Nat) (num : complex S) :
    ∀ (remaining i : Nat) (z : complex S) (rs is : S), i + remaining = M →
      escape_loop M num remaining i z rs is ≤ M := by
  intro remaining
  induction remaining with
  | zero => intro i z rs is _; simp [escape_loop]
  | succ n ih =>
    intro i z rs is h
    simp only [escape_loop]
    split
    · omega
    · exact ih (i + 1) _ _ _ (by omega)

/-- The loop entered at index `i` with `z = z_i` and the tracked squares equal to the squares
of the components of `z` returns the first index `n ≥ i` whose updated value escapes. -/
theorem escape_loop_spec (M : Nat) (c start : complex S) :
    ∀ (remaining i : Nat), i + remaining = M →
      (let z := orbit c start i
       let n := escape_loop M c remaining i z (z.real * z.real) (z.imag * z.imag)
       i ≤ n ∧ n ≤ M ∧ (∀ j, i ≤ j → j < n → ¬ escaped (orbit c start (j + 1))) ∧
         (n < M → escaped (orbit c start (n + 1)))) := by
  intro remaining
  induction remaining with
  | zero =>
    intro i h
    simp only [escape_loop]
    refine ⟨by omega, le_refl _, ?_, ?_⟩
    · intro j h1 h2; omega
    · intro h1; omega
  | succ n ih =>
    intro i h
    have hstep : orbit c start (i + 1) =
        ⟨(orbit c start i).real * (orbit c start i).real
            - (orbit c start i).imag * (orbit c start i).imag + c.real,
          ((2 : Int) : S) * (orbit c start i).real * (orbit c start i).imag + c.imag⟩ := by
      simp [orbit, complex.sq, complex.add]
    simp only [escape_loop]
    by_cases hesc : (EscapeMagnitudeSquared : S) <
        ((orbit c start i).real * (orbit c start i).real
            - (orbit c start i).imag * (orbit c start i).imag + c.real) *
          ((orbit c start i).real * (orbit c start i).real
            - (orbit c start i).imag * (orbit c start i).imag + c.real) +
        (((2 : Int) : S) * (orbit c start i).real * (orbit c start i).imag + c.imag) *
          (((2 : Int) : S) * (orbit c start i).real * (orbit c start i).imag + c.imag)
    · rw [if_pos hesc]
      refine ⟨le_refl _, by omega, ?_, ?_⟩
      · intro j h1 h2; omega
      · intro _
        rw [hstep]
        exact hesc
    · rw [if_neg hesc]
      have h2 := ih (i + 1) (by omega)
      simp only [hstep] at h2
      obtain ⟨a1, a2, a3, a4⟩ := h2
      refine ⟨by omega, a2, ?_, ?_⟩
      · intro j h1 hj
        rcases Nat.eq_or_lt_of_le h1 with heq | hlt
        · subst heq
          rw [hstep]
          exact hesc
        · exact a3 j hlt hj
      · intro hn
        exact a4 hn

theorem mandelbrot_spec_aux (M : Nat) (c : complex S)
    (h0 : ((0 : Int) : S) * ((0 : Int) : S) = ((0 : Int) : S)) :
    mandelbrot_set_t.iterations_before_escape M c ≤ M ∧
    (∀ j, j < mandelbrot_set_t.iterations_before_escape M c →
      ¬ escaped (orbit c complex.zero (j + 1))) ∧
    (mandelbrot_set_t.iterations_before_escape M c < M →
      escaped (orbit c complex.zero (mandelbrot_set_t.iterations_before_escape M c + 1))) := by
  have h := escape_loop_spec M c complex.zero M 0 (by omega)
  simp only [orbit, complex.zero, h0] at h
  obtain ⟨_, a2, a3, a4⟩ := h
  exact ⟨a2, fun j hj => a3 j (Nat.zero_le _) hj, a4⟩
end escape_time

/-! ## Ranges and rectangles -/

section ranges

theorem mem_iota {a b x : Int} : x ∈ iota a b ↔ a ≤ x ∧ x < b := by
  unfold iota
  simp only [List.mem_map, List.mem_range]
  constructor
  · rintro ⟨k, hk, rfl⟩
    omega
  · rintro ⟨h1, h2⟩
    exact ⟨(x - a).toNat, by omega, by omega⟩

theorem iota_eq_nil {a b : Int} (h : b ≤ a) : iota a b = [] := by
  unfold iota
  have : (b - a).toNat = 0 := by omega
  simp [this]

theorem iota_pairwise_lt (a b : Int) : (iota a b).Pairwise (fun x y => x < y) := by
  unfold iota
  rw [List.pairwise_map]
  exact (List.pairwise_lt_range _).imp (by intro x y h; omega)

theorem iota_succ {a b : Int} (h : a ≤ b) : iota a (b + 1) = iota a b ++ [b] := by
  unfold iota
  have : (b + 1 - a).toNat = (b - a).toNat + 1 := by omega
  rw [this, List.range_succ, List.map_append]
  simp
  omega

theorem iota_append {a b : Int} (h : a ≤ b) : ∀ (n : Nat), iota a b ++ iota b (b + n) = iota a (b + n) := by
  intro n
  induction n with
  | zero => simp [iota_eq_nil (le_refl b)]
  | succ n ih =>
    have e : b + ((n + 1 : Nat) : Int) = (b + n) + 1 := by push_cast; ring
    rw [e, iota_succ (by omega : b ≤ b + (n : Int)), iota_succ (by omega : a ≤ b + (n : Int)),
      ← List.append_assoc, ih]

theorem iota_append_iota {a b c : Int} (h1 : a ≤ b) (h2 : b ≤ c) :
    iota a b ++ iota b c = iota a c := by
  have := iota_append h1 (c - b).toNat
  have e : b + ((c - b).toNat : Int) = c := by omega
  rwa [e] at this

theorem mem_rectangle {tl br c : coords} :
    c ∈ coords.rectangle tl br ↔ tl.x ≤ c.x ∧ c.x < br.x ∧ tl.y ≤ c.y ∧ c.y < br.y := by
  unfold coords.rectangle
  simp only [List.mem_flatMap, List.mem_map, mem_iota]
  constructor
  · rintro ⟨y, hy, x, hx, rfl⟩
    exact ⟨hx.1, hx.2, hy.1, hy.2⟩
  · rintro ⟨h1, h2, h3, h4⟩
    exact ⟨c.y, ⟨h3, h4⟩, c.x, ⟨h1, h2⟩, rfl⟩

theorem nodup_rectangle (tl br : coords) : (coords.rectangle tl br).Nodup := by
  unfold coords.rectangle
  rw [List.Nodup, List.pairwise_flatMap]
  constructor
  · intro y _
    rw [List.pairwise_map]
    exact (iota_pairwise_lt _ _).imp (by intro a b h e; injection e; omega)
  · refine (iota_pairwise_lt _ _).imp ?_
    intro y1 y2 h c1 hc1 c2 hc2 e
    simp only [List.mem_map] at hc1 hc2
    obtain ⟨_, _, rfl⟩ := hc1
    obtain ⟨_, _, rfl⟩ := hc2
    injection e
    omega

theorem mem_screen_coords {res : resolution} {c : coords} :
    c ∈ res.screen_coords ↔ res.in_bounds c := by
  unfold resolution.screen_coords resolution.in_bounds
  rw [mem_rectangle]

end ranges

/-! ## The pixel buffer -/

section buffer
variable {S α : Type}

theorem index_bounds {res : resolution} {c : coords} (h : res.in_bounds c) :
    0 ≤ c.y * res.width + c.x ∧ c.y * res.width + c.x < res.width * res.height := by
  obtain ⟨h1, h2, h3, h4⟩ := h
  constructor
  · have := mul_nonneg h3 (by omega : (0 : Int) ≤ res.width)
    omega
  · have : (c.y + 1) * res.width ≤ res.height * res.width :=
      mul_le_mul_of_nonneg_right (by omega) (by omega)
    nlinarith

theorem index_inj {res : resolution} {c d : coords} (hc : res.in_bounds c)
    (hd : res.in_bounds d) (h : c.y * res.width + c.x = d.y * res.width + d.x) : c = d := by
  obtain ⟨h1, h2, h3, h4⟩ := hc
  obtain ⟨g1, g2, g3, g4⟩ := hd
  have hy : c.y = d.y := by
    rcases lt_trichotomy c.y d.y with hlt | heq | hgt
    · have : (c.y + 1) * res.width ≤ d.y * res.width :=
        mul_le_mul_of_nonneg_right (by omega) (by omega)
      nlinarith
    · exact heq
    · have : (d.y + 1) * res.width ≤ c.y * res.width :=
        mul_le_mul_of_nonneg_right (by omega) (by omega)
      nlinarith
  have hx : c.x = d.x := by
    rw [hy] at h
    omega
  cases c; cases d; simp_all

theorem buffer_get_set_same [Inhabited α] (l : List α) (i : Int) (v : α) (h0 : 0 ≤ i)
    (h1 : i < l.length) : buffer_get (buffer_set l i v) i = v := by
  unfold buffer_get buffer_set
  rw [if_pos h0, if_pos h0, List.getD_eq_getElem?_getD, List.getElem?_set]
  have : i.toNat < l.length := by omega
  simp [this]

theorem buffer_get_set_other [Inhabited α] (l : List α) (i j : Int) (v : α) (hij : i ≠ j)
    (hj : 0 ≤ j) : buffer_get (buffer_set l i v) j = buffer_get l j := by
  unfold buffer_get buffer_set
  simp only [if_pos hj]
  by_cases h0 : 0 ≤ i
  · rw [if_pos h0, List.getD_eq_getElem?_getD, List.getD_eq_getElem?_getD, List.getElem?_set]
    have : i.toNat ≠ j.toNat := by omega
    simp [this]
  · rw [if_neg h0]

theorem buffer_set_length (l : List α) (i : Int) (v : α) :
    (buffer_set l i v).length = l.length := by
  unfold buffer_set
  split <;> simp

@[simp]
theorem set_pixel_resolution (r : rgb_based_renderer S α) (c : coords) (v : α) :
    (r.set_pixel c v)._resolution = r._resolution := rfl

@[simp]
theorem set_pixel_frame (r : rgb_based_renderer S α) (c : coords) (v : α) :
    (r.set_pixel c v)._frame = r._frame := rfl

@[simp]
theorem set_pixel_length (r : rgb_based_renderer S α) (c : coords) (v : α) :
    (r.set_pixel c v)._pixels.length = r._pixels.length := by
  simp [rgb_based_renderer.set_pixel, buffer_set_length]

theorem set_pixel_valid {r : rgb_based_renderer S α} (h : r.valid) (c : coords) (v : α) :
    (r.set_pixel c v).valid := by
  unfold rgb_based_renderer.valid at *
  simpa using h

theorem get_set_pixel_same [Inhabited α] {r : rgb_based_renderer S α} (h : r.valid)
    {c : coords} (hc : r._resolution.in_bounds c) (v : α) :
    (r.set_pixel c v).get_pixel c = v := by
  have hb := index_bounds hc
  unfold rgb_based_renderer.get_pixel rgb_based_renderer.set_pixel
  apply buffer_get_set_same _ _ _ hb.1
  rw [h.2.2]
  exact hb.2

theorem get_set_pixel_other [Inhabited α] {r : rgb_based_renderer S α}
    {c d : coords} (hc : r._resolution.in_bounds c) (hd : r._resolution.in_bounds d)
    (hne : c ≠ d) (v : α) :
    (r.set_pixel c v).get_pixel d = r.get_pixel d := by
  unfold rgb_based_renderer.get_pixel rgb_based_renderer.set_pixel
  apply buffer_get_set_other _ _ _ _ _ (index_bounds hd).1
  intro e
  exact hne (index_inj hc hd e)

end buffer

/-! ## Rendering as painting -/

section painting
variable {S α : Type}

@[simp]
theorem paint_nil (f : coords → α) (r : rgb_based_renderer S α) : paint f r [] = r := rfl

@[simp]
theorem paint_cons (f : coords → α) (r : rgb_based_renderer S α) (a : coords)
    (l : List coords) : paint f r (a :: l) = paint f (r.set_pixel a (f a)) l := rfl

@[simp]
theorem paint_resolution (f : coords → α) (l : List coords) :
    ∀ r : rgb_based_renderer S α, (paint f r l)._resolution = r._resolution := by
  induction l with
  | nil => intro r; rfl
  | cons a l ih => intro r; rw [paint_cons, ih]; rfl

@[simp]
theorem paint_frame (f : coords → α) (l : List coords) :
    ∀ r : rgb_based_renderer S α, (paint f r l)._frame = r._frame := by
  induction l with
  | nil => intro r; rfl
  | cons a l ih => intro r; rw [paint_cons, ih]; rfl

theorem paint_valid (f : coords → α) (l : List coords) :
    ∀ r : rgb_based_renderer S α, r.valid → (paint f r l).valid := by
  induction l with
  | nil => intro r h; exact h
  | cons a l ih => intro r h; rw [paint_cons]; exact ih _ (set_pixel_valid h _ _)

theorem get_paint_not_mem [Inhabited α] (f : coords → α) (l : List coords) :
    ∀ r : rgb_based_renderer S α, (∀ c ∈ l, r._resolution.in_bounds c) →
      ∀ q, r._resolution.in_bounds q → q ∉ l → (paint f r l).get_pixel q = r.get_pixel q := by
  induction l with
  | nil => intro r _ q _ _; rfl
  | cons a l ih =>
    intro r hl q hq hn
    rw [paint_cons, ih (r.set_pixel a (f a)) (fun c hc => hl c (List.mem_cons_of_mem _ hc)) q hq
      (fun h => hn (List.mem_cons_of_mem _ h))]
    exact get_set_pixel_other (hl a (List.mem_cons_self _ _)) hq
      (fun e => hn (e ▸ List.mem_cons_self _ _)) _

theorem get_paint_mem [Inhabited α] (f : coords → α) (l : List coords) :
    ∀ r : rgb_based_renderer S α, r.valid → (∀ c ∈ l, r._resolution.in_bounds c) →
      ∀ q, q ∈ l → (paint f r l).get_pixel q = f q := by
  induction l with
  | nil => intro r _ _ q hq; simp at hq
  | cons a l ih =>
    intro r hv hl q hq
    rw [paint_cons]
    by_cases hql : q ∈ l
    · exact ih (r.set_pixel a (f a)) (set_pixel_valid hv _ _)
        (fun c hc => hl c (List.mem_cons_of_mem _ hc)) q hql
    · have hqa : q = a := by
        rcases List.mem_cons.mp hq with h | h
        · exact h
        · exact absurd h hql
      subst hqa
      rw [get_paint_not_mem f l (r.set_pixel q (f q))
        (fun c hc => hl c (List.mem_cons_of_mem _ hc)) q
        (hl q (List.mem_cons_self _ _)) hql]
      exact get_set_pixel_same hv (hl q (List.mem_cons_self _ _)) _

variable [Add S] [Mul S] [IntCast S]

theorem render_by_iteration_at_eq (K : renderer_statics α) (r : rgb_based_renderer S α)
    (c : coords) (set : iterative_set S) :
    render_by_iteration_at K r c set =
      r.set_pixel c (pixel_color K r._frame r._resolution set c) := rfl

theorem render_region_eq_paint (K : renderer_statics α) (r : rgb_based_renderer S α)
    (region : List coords) (set : iterative_set S) :
    render_region_by_iteration K r region set =
      paint (pixel_color K r._frame r._resolution set) r region := rfl

theorem render_coords_list_eq_paint (K : renderer_statics α) (set : iterative_set S)
    (part : List coords) : ∀ r : rgb_based_renderer S α,
    render_coords_list K r set part = paint (pixel_color K r._frame r._resolution set) r part := by
  induction part with
  | nil => intro r; rfl
  | cons a l ih =>
    intro r
    show render_coords_list K (render_by_iteration_at K r a set) set l = _
    rw [ih, render_by_iteration_at_eq, paint_cons]
    rfl

theorem render_coords_list_append (K : renderer_statics α) (set : iterative_set S)
    (r : rgb_based_renderer S α) (l1 l2 : List coords) :
    render_coords_list K r set (l1 ++ l2) =
      render_coords_list K (render_coords_list K r set l1) set l2 := by
  unfold render_coords_list
  rw [List.foldl_append]

/-- The tasks and the calling thread of `threaded_render_region_by_iteration` together walk
through the region once, from its first to its last element. -/
theorem threaded_region_loop (K : renderer_statics α) (set : iterative_set S) (q : Nat) :
    ∀ (n : Nat) (r : rgb_based_renderer S α) (region : List coords),
      render_coords_list K
        ((List.range n).foldl
          (fun (st : rgb_based_renderer S α × List coords) (_ : Nat) =>
            (render_coords_list K st.1 set (st.2.take q), st.2.drop q)) (r, region)).1 set
        ((List.range n).foldl
          (fun (st : rgb_based_renderer S α × List coords) (_ : Nat) =>
            (render_coords_list K st.1 set (st.2.take q), st.2.drop q)) (r, region)).2 =
      render_coords_list K r set region := by
  intro n
  induction n with
  | zero => intro r region; rfl
  | succ n ih =>
    intro r region
    rw [List.range_succ, List.foldl_append]
    simp only [List.foldl_cons, List.foldl_nil]
    rw [← render_coords_list_append, List.take_append_drop]
    exact ih r region

theorem threaded_region_eq_render_region (pool : renderer_thread_pool) (K : renderer_statics α)
    (r : rgb_based_renderer S α) (region : List coords) (set : iterative_set S) :
    pool.threaded_render_region_by_iteration K r region set =
      render_region_by_iteration K r region set := by
  rw [render_region_eq_paint, ← render_coords_list_eq_paint]
  exact threaded_region_loop K set _ pool.thread_count r region

theorem render_index_range_eq (K : renderer_statics α) (r : rgb_based_renderer S α)
    (set : iterative_set S) (width a b : Int) :
    render_index_range K r set width a b =
      render_coords_list K r set ((iota a b).map (index_coords width)) := by
  unfold render_index_range render_coords_list
  rw [List.foldl_map]
  rfl

theorem threaded_eq_chunks (pool : renderer_thread_pool) (K : renderer_statics α)
    (r : rgb_based_renderer S α) (set : iterative_set S) :
    pool.threaded_render_by_iteration K r set =
      (pool.index_chunks r._resolution).foldl
        (fun r1 chunk => chunk.foldl
          (fun r2 index =>
            render_by_iteration_at K r2
              ⟨Int.tmod index r._resolution.width, Int.tdiv index r._resolution.width⟩ set) r1)
        r := by
  unfold renderer_thread_pool.threaded_render_by_iteration renderer_thread_pool.index_chunks
  simp only [List.foldl_append, List.foldl_map, List.foldl_cons, List.foldl_nil]
  rfl

end painting

/-! ## The index ranges of a threaded full render -/

section chunks

theorem iota_shift (a b k : Int) : iota (a + k) (b + k) = (iota a b).map (fun x => x + k) := by
  unfold iota
  rw [List.map_map]
  have : b + k - (a + k) = b - a := by ring
  rw [this]
  apply List.map_congr_left
  intro n _
  simp only [Function.comp]
  ring

theorem iota_zero_succ (n : Nat) : iota 0 ((n + 1 : Nat) : Int) = iota 0 (n : Int) ++ [(n : Int)] := by
  have := @iota_succ 0 (n : Int) (by omega)
  rw [← this]
  congr 1

theorem worker_chunks_flatten (q : Int) (hq : 0 ≤ q) (n : Nat) :
    ((iota 0 (n : Int)).map (fun i => iota ((i + 0) * q) ((i + 1) * q))).flatten =
      iota 0 ((n : Int) * q) := by
  induction n with
  | zero => simp [iota_eq_nil]
  | succ n ih =>
    rw [iota_zero_succ, List.map_append, List.flatten_append, ih]
    simp only [List.map_cons, List.map_nil, List.flatten_cons, List.flatten_nil, List.append_nil,
      add_zero]
    have e : ((n + 1 : Nat) : Int) * q = (n + 1) * q := by push_cast; ring
    rw [e]
    apply iota_append_iota
    · exact mul_nonneg (by omega) hq
    · nlinarith

theorem index_chunks_flatten (pool : renderer_thread_pool) (res : resolution)
    (hw : 0 ≤ res.width) (hh : 0 ≤ res.height) :
    (pool.index_chunks res).flatten = iota 0 res.area := by
  unfold renderer_thread_pool.index_chunks
  have hA : 0 ≤ res.area := mul_nonneg hw hh
  have hN : (0 : Int) < (pool.thread_count : Int) + 1 := by omega
  have hq : 0 ≤ Int.tdiv res.area ((pool.thread_count : Int) + 1) :=
    Int.tdiv_nonneg hA (by omega)
  have hle : (pool.thread_count : Int) * Int.tdiv res.area ((pool.thread_count : Int) + 1) ≤
      res.area := by
    rw [Int.tdiv_eq_ediv hA (by omega)] at hq ⊢
    have := Int.ediv_mul_le res.area (Ne.symm (ne_of_lt hN))
    nlinarith
  simp only [List.flatten_append, List.flatten_cons, List.flatten_nil, List.append_nil]
  rw [worker_chunks_flatten _ hq]
  exact iota_append_iota (mul_nonneg (by omega) hq) hle

theorem index_coords_row (w : Int) (n : Nat) (x : Int) (h0 : 0 ≤ x) (h1 : x < w) :
    index_coords w (x + w * n) = ⟨x, n⟩ := by
  unfold index_coords
  have hn : 0 ≤ w * (n : Int) := mul_nonneg (by omega) (by omega)
  rw [Int.tmod_eq_emod (by omega) (by omega), Int.tdiv_eq_ediv (by omega) (by omega)]
  congr 1
  · rw [Int.add_mul_emod_self_left]
    exact Int.emod_eq_of_lt h0 h1
  · rw [Int.add_mul_ediv_left _ _ (by omega : w ≠ 0), Int.ediv_eq_zero_of_lt h0 h1]
    simp

theorem map_index_coords_rows (w : Int) (hw : 0 ≤ w) (n : Nat) :
    (iota 0 (w * (n : Int))).map (index_coords w) =
      (iota 0 (n : Int)).flatMap fun y => (iota 0 w).map fun x => (⟨x, y⟩ : coords) := by
  induction n with
  | zero => simp [iota_eq_nil]
  | succ n ih =>
    rw [iota_zero_succ, List.flatMap_append]
    simp only [List.flatMap_cons, List.flatMap_nil, List.append_nil]
    rw [← ih]
    have e : w * ((n + 1 : Nat) : Int) = w * n + w := by push_cast; ring
    rw [e, ← iota_append_iota (mul_nonneg hw (by omega)) (by omega : w * (n : Int) ≤ w * n + w),
      List.map_append]
    congr 1
    have := iota_shift 0 w (w * n)
    rw [zero_add, add_comm] at this
    rw [this, List.map_map]
    apply List.map_congr_left
    intro x hx
    rw [mem_iota] at hx
    simp only [Function.comp]
    exact index_coords_row w n x hx.1 hx.2

theorem map_index_coords_iota (res : resolution) (hw : 0 ≤ res.width) (hh : 0 ≤ res.height) :
    (iota 0 res.area).map (index_coords res.width) = res.screen_coords := by
  unfold resolution.area resolution.screen_coords coords.rectangle
  have := map_index_coords_rows res.width hw res.height.toNat
  rw [Int.toNat_of_nonneg hh] at this
  exact this

end chunks

/-! ## Claims on the evaluators and on rendering -/

section claims
variable {S α : Type}

/-- C4. `threaded_render_by_iteration` with `N` workers runs `N + 1` index ranges: worker `i`
gets `[i·q, (i+1)·q)` with `q = ⌊A / (N+1)⌋` and the calling thread gets `[N·q, A)`.  Laid end
to end the ranges are `0, 1, …, A - 1` (so they are pairwise disjoint, none is in the wrong
order and no index is left out), and the positions `(index % width, index / width)` that get
rendered are the positions in bounds, each once. -/
theorem threaded_render_by_iteration_partition [Add S] [Mul S] [IntCast S]
    (pool : renderer_thread_pool) (K : renderer_statics α) (r : rgb_based_renderer S α)
    (set : iterative_set S) (hw : 0 ≤ r._resolution.width) (hh : 0 ≤ r._resolution.height) :
    pool.threaded_render_by_iteration K r set =
      (pool.index_chunks r._resolution).foldl
        (fun r1 chunk => chunk.foldl
          (fun r2 index =>
            render_by_iteration_at K r2
              ⟨Int.tmod index r._resolution.width, Int.tdiv index r._resolution.width⟩ set) r1)
        r ∧
    pool.index_chunks r._resolution =
      (iota 0 (pool.thread_count : Int)).map
          (fun i => iota (i * (r._resolution.area / ((pool.thread_count : Int) + 1)))
            ((i + 1) * (r._resolution.area / ((pool.thread_count : Int) + 1)))) ++
        [iota ((pool.thread_count : Int) * (r._resolution.area / ((pool.thread_count : Int) + 1)))
          r._resolution.area] ∧
    (pool.index_chunks r._resolution).length = pool.thread_count + 1 ∧
    (pool.index_chunks r._resolution).flatten = iota 0 r._resolution.area ∧
    (pool.index_chunks r._resolution).Pairwise List.Disjoint ∧
    (∀ index, 0 ≤ index → index < r._resolution.area →
      ∃ chunk ∈ pool.index_chunks r._resolution, index ∈ chunk) ∧
    ((pool.index_chunks r._resolution).flatten.map (index_coords r._resolution.width)).Nodup ∧
    (∀ c, c ∈ (pool.index_chunks r._resolution).flatten.map (index_coords r._resolution.width) ↔
      r._resolution.in_bounds c) := by
  have hflat := index_chunks_flatten pool r._resolution hw hh
  have hnodup : (iota 0 r._resolution.area).Nodup :=
    (iota_pairwise_lt _ _).imp (fun h => ne_of_lt h)
  refine ⟨threaded_eq_chunks pool K r set, ?_, ?_, hflat, ?_, ?_, ?_, ?_⟩
  · unfold renderer_thread_pool.index_chunks
    have hA : 0 ≤ r._resolution.area := mul_nonneg hw hh
    simp only [add_zero]
    rw [Int.tdiv_eq_ediv hA (by omega : (0 : Int) ≤ (pool.thread_count : Int) + 1)]
  · unfold renderer_thread_pool.index_chunks iota
    simp
  · have := hflat ▸ hnodup
    exact (List.nodup_flatten.mp this).2
  · intro index h0 h1
    have : index ∈ (pool.index_chunks r._resolution).flatten := by
      rw [hflat, mem_iota]
      exact ⟨h0, h1⟩
    obtain ⟨chunk, hc, hi⟩ := List.mem_flatten.mp this
    exact ⟨chunk, hc, hi⟩
  · rw [hflat, map_index_coords_iota _ hw hh]
    exact nodup_rectangle _ _
  · intro c
    rw [hflat, map_index_coords_iota _ hw hh]
    exact mem_screen_coords

/-- A threaded full render is the sequential full render. -/
theorem threaded_eq_render_by_iteration [Add S] [Mul S] [IntCast S]
    (pool : renderer_thread_pool) (K : renderer_statics α) (r : rgb_based_renderer S α)
    (set : iterative_set S) (hw : 0 ≤ r._resolution.width) (hh : 0 ≤ r._resolution.height) :
    pool.threaded_render_by_iteration K r set = render_by_iteration K r set := by
  rw [threaded_eq_chunks]
  have h1 : ∀ (L : List (List Int)) (r1 : rgb_based_renderer S α),
      L.foldl (fun r1 chunk => chunk.foldl
          (fun r2 index =>
            render_by_iteration_at K r2
              ⟨Int.tmod index r._resolution.width, Int.tdiv index r._resolution.width⟩ set) r1)
        r1 = render_coords_list K r1 set (L.flatten.map (index_coords r._resolution.width)) := by
    intro L
    induction L with
    | nil => intro r1; rfl
    | cons c L ih =>
      intro r1
      rw [List.foldl_cons, ih, List.flatten_cons, List.map_append, render_coords_list_append]
      congr 1
      unfold render_coords_list
      rw [List.foldl_map]
      rfl
  rw [h1, index_chunks_flatten pool _ hw hh, map_index_coords_iota _ hw hh,
    render_coords_list_eq_paint]
  rfl

/-- C5. The threaded full render, the sequential full render, and the sequential and the
threaded region render of `resolution.screen_coords()` all leave the same renderer state. -/
theorem full_frame_and_region_rendering_agree [Add S] [Mul S] [IntCast S]
    (pool : renderer_thread_pool) (K : renderer_statics α) (r : rgb_based_renderer S α)
    (set : iterative_set S) (hw : 0 ≤ r._resolution.width) (hh : 0 ≤ r._resolution.height) :
    pool.threaded_render_by_iteration K r set = render_by_iteration K r set ∧
    render_by_iteration K r set =
      render_region_by_iteration K r r.resolution.screen_coords set ∧
    render_by_iteration K r set =
      pool.threaded_render_region_by_iteration K r r.resolution.screen_coords set :=
  ⟨threaded_eq_render_by_iteration pool K r set hw hh, rfl,
    (threaded_region_eq_render_region pool K r _ set).symm⟩

/-- C6. After a sequential or threaded region render over positions in bounds, every position
of the region holds the colour of the iteration count of its plane value; the positions
outside the region, the frame, the resolution and the length of the buffer are unchanged. -/
theorem render_region_effect [Add S] [Mul S] [IntCast S] [Inhabited α]
    (pool : renderer_thread_pool) (K : renderer_statics α) (r : rgb_based_renderer S α)
    (region : List coords) (set : iterative_set S) (hv : r.valid)
    (hreg : ∀ c ∈ region, r.resolution.in_bounds c) :
    ∀ out, (out = render_region_by_iteration K r region set ∨
        out = pool.threaded_render_region_by_iteration K r region set) →
      (∀ c ∈ region, out.get_pixel c =
        K.color_for_iterations K.max_iterations
          (set.iterations_before_escape K.max_iterations
            (r.frame.number_at_screen_coords r.resolution c))) ∧
      (∀ c, r.resolution.in_bounds c → c ∉ region → out.get_pixel c = r.get_pixel c) ∧
      out.frame = r.frame ∧ out.resolution = r.resolution ∧
      out._pixels.length = r._pixels.length := by
  intro out hout
  have e : out = paint (pixel_color K r._frame r._resolution set) r region := by
    rcases hout with h | h
    · rw [h, render_region_eq_paint]
    · rw [h, threaded_region_eq_render_region, render_region_eq_paint]
  subst e
  refine ⟨?_, ?_, paint_frame _ _ _, paint_resolution _ _ _, ?_⟩
  · intro c hc
    exact get_paint_mem _ _ _ hv hreg c hc
  · intro c hc hn
    exact get_paint_not_mem _ _ _ hreg c hc hn
  · have h1 := (paint_valid (pixel_color K r._frame r._resolution set) region r hv).2.2
    have h2 := hv.2.2
    rw [paint_resolution] at h1
    have : ((paint (pixel_color K r._frame r._resolution set) r region)._pixels.length : Int) =
        r._pixels.length := by rw [h1, h2]
    exact_mod_cast this

/-- C7. With `|offset_x| ≥ width` or `|offset_y| ≥ height` the missing-edges render is the full
threaded render, which is the full render, and afterwards every position in bounds holds the
colour computed from the current frame. -/
theorem missing_edges_degenerate_full_render [Add S] [Mul S] [IntCast S] [Inhabited α]
    (pool : renderer_thread_pool) (K : renderer_statics α) (r : rgb_based_renderer S α)
    (set : iterative_set S) (offset_x offset_y : Int) (hv : r.valid)
    (hdeg : coord_abs offset_x ≥ r.resolution.width ∨
      coord_abs offset_y ≥ r.resolution.height) :
    pool.threaded_render_missing_edges_by_iteration K r set offset_x offset_y =
      pool.threaded_render_by_iteration K r set ∧
    pool.threaded_render_missing_edges_by_iteration K r set offset_x offset_y =
      render_by_iteration K r set ∧
    ∀ c, r.resolution.in_bounds c →
      (pool.threaded_render_missing_edges_by_iteration K r set offset_x offset_y).get_pixel c =
        K.color_for_iterations K.max_iterations
          (set.iterations_before_escape K.max_iterations
            (r.frame.number_at_screen_coords r.resolution c)) := by
  have e1 : pool.threaded_render_missing_edges_by_iteration K r set offset_x offset_y =
      pool.threaded_render_by_iteration K r set := by
    unfold renderer_thread_pool.threaded_render_missing_edges_by_iteration
    simp only [if_pos hdeg]
  have e2 := threaded_eq_render_by_iteration pool K r set hv.1 hv.2.1
  refine ⟨e1, e1.trans e2, ?_⟩
  intro c hc
  rw [e1, e2]
  exact get_paint_mem _ _ _ hv (fun c hc => mem_screen_coords.mp hc) c (mem_screen_coords.mpr hc)

/-- C8. With `|offset_x| ≥ width` or `|offset_y| ≥ height`, `translate_pixels_by_coords` returns
at once: buffer, frame and resolution are what they were. -/
theorem translate_pixels_degenerate_noop [Inhabited α] (r : rgb_based_renderer S α)
    (offset_x offset_y : Int)
    (hdeg : coord_abs offset_x ≥ r.resolution.width ∨
      coord_abs offset_y ≥ r.resolution.height) :
    r.translate_pixels_by_coords offset_x offset_y = r := by
  unfold rgb_based_renderer.translate_pixels_by_coords
  rcases hdeg with h | h
  · exact if_pos h
  · by_cases hx : coord_abs offset_x ≥ r._resolution.width
    · exact if_pos hx
    · rw [if_neg hx]
      exact if_pos h

/-- C9. Both evaluators return a count between `0` and `MaxIterations`, whatever the point,
the constant and the arithmetic of the scalars. -/
theorem iterations_before_escape_range [Add S] [Sub S] [Mul S] [IntCast S] [LT S]
    [DecidableRel (fun a b : S => a < b)] (MaxIterations : Nat) (num constant : complex S) :
    0 ≤ mandelbrot_set_t.iterations_before_escape MaxIterations num ∧
    mandelbrot_set_t.iterations_before_escape MaxIterations num ≤ MaxIterations ∧
    0 ≤ quadratic_julia_set.iterations_before_escape constant MaxIterations num ∧
    quadratic_julia_set.iterations_before_escape constant MaxIterations num ≤ MaxIterations :=
  ⟨Nat.zero_le _, escape_loop_le _ _ _ _ _ _ _ (by omega), Nat.zero_le _,
    escape_loop_le _ _ _ _ _ _ _ (by omega)⟩

/-- C10. With `z_0 = 0` and `z_(n+1) = z_n² + c`, where the square is recomputed from the
components of `z_n` at every step, the Mandelbrot evaluator returns the least `i < M` for
which the squared magnitude of `z_(i+1)` exceeds `EscapeMagnitudeSquared`, and `M` if there
is none.  The only fact of arithmetic used is `0 * 0 = 0`. -/
theorem mandelbrot_returns_least_escaping_index [Add S] [Sub S] [Mul S] [IntCast S] [LT S]
    [DecidableRel (fun a b : S => a < b)] (M : Nat) (c : complex S)
    (h0 : ((0 : Int) : S) * ((0 : Int) : S) = ((0 : Int) : S)) :
    (∀ i, i < M → escaped (orbit c complex.zero (i + 1)) →
      (∀ j, j < i → ¬ escaped (orbit c complex.zero (j + 1))) →
        mandelbrot_set_t.iterations_before_escape M c = i) ∧
    ((∀ i, i < M → ¬ escaped (orbit c complex.zero (i + 1))) →
      mandelbrot_set_t.iterations_before_escape M c = M) := by
  obtain ⟨a1, a2, a3⟩ := mandelbrot_spec_aux M c h0
  constructor
  · intro i hi hesc hleast
    rcases lt_trichotomy (mandelbrot_set_t.iterations_before_escape M c) i with h | h | h
    · exact absurd (a3 (by omega)) (hleast _ h)
    · exact h
    · exact absurd hesc (a2 i h)
  · intro hnone
    by_contra hne
    have hlt : mandelbrot_set_t.iterations_before_escape M c < M := by omega
    exact hnone _ hlt (a3 hlt)

end claims

/-! ## The exposed rectangles -/

section edges
variable {S α : Type}

theorem missing_edges_eq_spec (res : resolution) (dx dy : Int) :
    missing_edges res dx dy = spec_vertical_strip res dx ++ spec_horizontal_strip res dx dy := by
  unfold missing_edges spec_vertical_strip spec_horizontal_strip coord_abs
  split_ifs <;> first
    | omega
    | simp [sub_neg_eq_add]

theorem mem_missing_edges (res : resolution) (dx dy : Int) (hx : coord_abs dx < res.width)
    (hy : coord_abs dy < res.height) (c : coords) :
    (∃ region ∈ missing_edges res dx dy, c ∈ region) ↔
      res.in_bounds c ∧ ¬ res.in_bounds ⟨c.x - dx, c.y - dy⟩ := by
  unfold coord_abs at hx hy
  unfold missing_edges resolution.in_bounds
  split_ifs at hx hy ⊢ <;>
    simp only [List.mem_cons, List.mem_singleton, List.not_mem_nil, exists_eq_or_imp,
      exists_eq_left, mem_rectangle, false_and, exists_false, or_false] <;>
    first
      | omega
      | (have e1 : dx = 0 := by omega
         have e2 : dy = 0 := by omega
         subst e1 e2
         simp)

theorem missing_edges_disjoint (res : resolution) (dx dy : Int) :
    (missing_edges res dx dy).Pairwise List.Disjoint := by
  unfold missing_edges
  split_ifs <;>
    simp only [List.pairwise_cons, List.Pairwise.nil, List.mem_singleton, List.not_mem_nil,
      forall_eq, and_true, false_implies, implies_true, List.Disjoint] <;>
    (try (intro a h1 h2; rw [mem_rectangle] at h1 h2; simp only at h1 h2; omega))

theorem missing_edges_length (res : resolution) (dx dy : Int) :
    (missing_edges res dx dy).length ≤ 2 := by
  unfold missing_edges
  split_ifs <;> simp

theorem missing_edges_nodup (res : resolution) (dx dy : Int) :
    ∀ region ∈ missing_edges res dx dy, region.Nodup := by
  unfold missing_edges
  split_ifs <;> simp [nodup_rectangle]

theorem missing_edges_render [Add S] [Mul S] [IntCast S] (pool : renderer_thread_pool)
    (K : renderer_statics α) (r : rgb_based_renderer S α) (set : iterative_set S)
    (dx dy : Int) (hx : coord_abs dx < r.resolution.width)
    (hy : coord_abs dy < r.resolution.height) :
    pool.threaded_render_missing_edges_by_iteration K r set dx dy =
      (missing_edges r.resolution dx dy).foldl
        (fun r1 region => pool.threaded_render_region_by_iteration K r1 region set) r := by
  unfold renderer_thread_pool.threaded_render_missing_edges_by_iteration missing_edges
  have hnd : ¬ (coord_abs dx ≥ r.resolution.width ∨ coord_abs dy ≥ r.resolution.height) := by
    omega
  simp only [if_neg hnd]
  split_ifs <;> rfl

end edges

/-! ## The in-place shift of the buffer -/

section shifting
variable {S α : Type}

theorem translate_step_eq [Inhabited α] (dx dy : Int) (r : rgb_based_renderer S α)
    (a : Int × Int) :
    rgb_based_renderer.translate_step dx dy r a =
      if r._resolution.in_bounds ⟨a.2 + dx, a.1 + dy⟩ then
        r.set_pixel ⟨a.2 + dx, a.1 + dy⟩ (r.get_pixel ⟨a.2, a.1⟩)
      else r := by
  unfold rgb_based_renderer.translate_step resolution.in_bounds
  simp only []
  split_ifs <;> first
    | rfl
    | omega

theorem translate_step_resolution [Inhabited α] (dx dy : Int) (r : rgb_based_renderer S α)
    (a : Int × Int) : (rgb_based_renderer.translate_step dx dy r a)._resolution = r._resolution := by
  rw [translate_step_eq]
  split_ifs <;> rfl

theorem translate_step_frame [Inhabited α] (dx dy : Int) (r : rgb_based_renderer S α)
    (a : Int × Int) : (rgb_based_renderer.translate_step dx dy r a)._frame = r._frame := by
  rw [translate_step_eq]
  split_ifs <;> rfl

theorem translate_step_valid [Inhabited α] (dx dy : Int) {r : rgb_based_renderer S α}
    (hv : r.valid) (a : Int × Int) : (rgb_based_renderer.translate_step dx dy r a).valid := by
  rw [translate_step_eq]
  split_ifs
  · exact set_pixel_valid hv _ _
  · exact hv

theorem translate_fold_resolution [Inhabited α] (dx dy : Int) (l : List (Int × Int)) :
    ∀ r : rgb_based_renderer S α,
      (l.foldl (rgb_based_renderer.translate_step dx dy) r)._resolution = r._resolution := by
  induction l with
  | nil => intro r; rfl
  | cons a l ih => intro r; rw [List.foldl_cons, ih, translate_step_resolution]

theorem translate_fold_frame [Inhabited α] (dx dy : Int) (l : List (Int × Int)) :
    ∀ r : rgb_based_renderer S α,
      (l.foldl (rgb_based_renderer.translate_step dx dy) r)._frame = r._frame := by
  induction l with
  | nil => intro r; rfl
  | cons a l ih => intro r; rw [List.foldl_cons, ih, translate_step_frame]

/-- The copy loop of `translate_pixels_by_coords` over a list of source positions in which no
position is the target of an earlier one: a position whose source is in the list receives the
value its source had before the loop, every other position keeps its value. -/
theorem translate_fold_get [Inhabited α] (dx dy : Int) (l : List (Int × Int)) :
    ∀ r : rgb_based_renderer S α, r.valid →
      (∀ p ∈ l, r._resolution.in_bounds ⟨p.2, p.1⟩) →
      l.Pairwise (fun a b => (a.1 + dy, a.2 + dx) ≠ b) →
      ∀ q, r._resolution.in_bounds q →
        (l.foldl (rgb_based_renderer.translate_step dx dy) r).get_pixel q =
          if (q.y - dy, q.x - dx) ∈ l then r.get_pixel ⟨q.x - dx, q.y - dy⟩
          else r.get_pixel q := by
  induction l with
  | nil => intro r _ _ _ q _; simp
  | cons a l ih =>
    intro r hv hin hpw q hq
    rw [List.pairwise_cons] at hpw
    have hres := translate_step_resolution dx dy r a
    have hq1 : (rgb_based_renderer.translate_step dx dy r a)._resolution.in_bounds q := by
      rw [hres]; exact hq
    rw [List.foldl_cons, ih (rgb_based_renderer.translate_step dx dy r a)
      (translate_step_valid dx dy hv a)
      (fun p hp => by rw [hres]; exact hin p (List.mem_cons_of_mem _ hp)) hpw.2 q hq1]
    have ha : r._resolution.in_bounds ⟨a.2, a.1⟩ := hin a (List.mem_cons_self _ _)
    by_cases hmem : (q.y - dy, q.x - dx) ∈ l
    · rw [if_pos hmem, if_pos (List.mem_cons_of_mem _ hmem)]
      have hne := hpw.1 _ hmem
      have hsrc : r._resolution.in_bounds ⟨q.x - dx, q.y - dy⟩ :=
        hin (q.y - dy, q.x - dx) (List.mem_cons_of_mem _ hmem)
      rw [translate_step_eq]
      split_ifs with hdst
      · apply get_set_pixel_other hdst hsrc
        intro e
        apply hne
        injection e with e1 e2
        rw [e1, e2]
      · rfl
    · rw [if_neg hmem]
      by_cases hqa : (q.y - dy, q.x - dx) = a
      · rw [if_pos (hqa ▸ List.mem_cons_self _ _)]
        have e1 : a.2 + dx = q.x := by rw [← hqa]; simp
        have e2 : a.1 + dy = q.y := by rw [← hqa]; simp
        have hdst : r._resolution.in_bounds ⟨a.2 + dx, a.1 + dy⟩ := by
          rw [e1, e2]; exact hq
        rw [translate_step_eq, if_pos hdst]
        have e3 : (⟨a.2 + dx, a.1 + dy⟩ : coords) = q := by rw [e1, e2]
        rw [e3, get_set_pixel_same hv hq, ← hqa]
      · have hnm : (q.y - dy, q.x - dx) ∉ a :: l := by
          intro h
          rcases List.mem_cons.mp h with h | h
          · exact hqa h
          · exact hmem h
        rw [if_neg hnm, translate_step_eq]
        split_ifs with hdst
        · apply get_set_pixel_other hdst hq
          intro e
          apply hqa
          rw [← e]
          simp
        · rfl

/-- Order of the cartesian product of two lists. -/
theorem pairwise_product {R : Int × Int → Int × Int → Prop} {Ry Rx : Int → Int → Prop}
    (ys xs : List Int) (hy : ys.Pairwise Ry) (hx : xs.Pairwise Rx)
    (hrow : ∀ y x1 x2, Rx x1 x2 → R (y, x1) (y, x2))
    (hrows : ∀ y1 y2 x1 x2, Ry y1 y2 → R (y1, x1) (y2, x2)) :
    (ys.flatMap fun y => xs.map fun x => (y, x)).Pairwise R := by
  rw [List.pairwise_flatMap]
  constructor
  · intro y _
    rw [List.pairwise_map]
    exact hx.imp (fun h => hrow y _ _ h)
  · refine hy.imp ?_
    intro y1 y2 h p1 hp1 p2 hp2
    simp only [List.mem_map] at hp1 hp2
    obtain ⟨x1, _, rfl⟩ := hp1
    obtain ⟨x2, _, rfl⟩ := hp2
    exact hrows y1 y2 x1 x2 h

theorem mem_product (ys xs : List Int) (p : Int × Int) :
    p ∈ (ys.flatMap fun y => xs.map fun x => (y, x)) ↔ p.1 ∈ ys ∧ p.2 ∈ xs := by
  simp only [List.mem_flatMap, List.mem_map]
  constructor
  · rintro ⟨y, hy, x, hx, rfl⟩
    exact ⟨hy, hx⟩
  · rintro ⟨h1, h2⟩
    exact ⟨p.1, h1, p.2, h2, rfl⟩

theorem iota_reverse_pairwise_gt (a b : Int) : (iota a b).reverse.Pairwise (fun x y => y < x) := by
  rw [List.pairwise_reverse]
  exact iota_pairwise_lt a b

/-- The lambda `set_pixels` run over all columns and rows, in an order in which no source is
overwritten before it is read. -/
theorem set_pixels_get [Inhabited α] (dx dy : Int) (r : rgb_based_renderer S α) (hv : r.valid)
    (xs ys : List Int) (hxs : ∀ x, x ∈ xs ↔ 0 ≤ x ∧ x < r._resolution.width)
    (hys : ∀ y, y ∈ ys ↔ 0 ≤ y ∧ y < r._resolution.height)
    (hord : (ys.flatMap fun y => xs.map fun x => (y, x)).Pairwise
      (fun a b => (a.1 + dy, a.2 + dx) ≠ b))
    (q : coords) (hq : r._resolution.in_bounds q) :
    (r.set_pixels dx dy xs ys).get_pixel q =
      if r._resolution.in_bounds ⟨q.x - dx, q.y - dy⟩ then r.get_pixel ⟨q.x - dx, q.y - dy⟩
      else r.get_pixel q := by
  unfold rgb_based_renderer.set_pixels
  rw [translate_fold_get dx dy _ r hv _ hord q hq]
  · have : (q.y - dy, q.x - dx) ∈ (ys.flatMap fun y => xs.map fun x => (y, x)) ↔
        r._resolution.in_bounds ⟨q.x - dx, q.y - dy⟩ := by
      rw [mem_product, hxs, hys]
      unfold resolution.in_bounds
      simp only
      tauto
    simp only [this]
  · intro p hp
    rw [mem_product, hxs, hys] at hp
    unfold resolution.in_bounds
    simp only
    tauto

end shifting

/-! ## Claim on the in-place shift -/

section shift_claim
variable {S α : Type}

/-- The traversal that `translate_pixels_by_coords` chooses from the signs of the offsets, and
the fact that in it no target of an earlier source is a later source. -/
theorem translate_pixels_order [Inhabited α] (r : rgb_based_renderer S α) (dx dy : Int)
    (hx : coord_abs dx < r._resolution.width) (hy : coord_abs dy < r._resolution.height) :
    ∃ xs ys, r.translate_pixels_by_coords dx dy = r.set_pixels dx dy xs ys ∧
      (∀ x, x ∈ xs ↔ 0 ≤ x ∧ x < r._resolution.width) ∧
      (∀ y, y ∈ ys ↔ 0 ≤ y ∧ y < r._resolution.height) ∧
      (ys.flatMap fun y => xs.map fun x => (y, x)).Pairwise
        (fun a b => (a.1 + dy, a.2 + dx) ≠ b) := by
  have hnx : ¬ coord_abs dx ≥ r._resolution.width := by omega
  have hny : ¬ coord_abs dy ≥ r._resolution.height := by omega
  unfold rgb_based_renderer.translate_pixels_by_coords
  rw [if_neg hnx, if_neg hny]
  unfold resolution.x_coords resolution.y_coords
  split_ifs with h1 h2 h3
  · refine ⟨_, _, rfl, fun x => mem_iota, fun y => mem_iota, ?_⟩
    apply pairwise_product _ _ (iota_pairwise_lt _ _) (iota_pairwise_lt _ _)
    · intro y x1 x2 h e
      injection e with e1 e2
      omega
    · intro y1 y2 x1 x2 h e
      injection e with e1 e2
      omega
  · refine ⟨_, _, rfl, fun x => mem_iota, fun y => by rw [List.mem_reverse]; exact mem_iota, ?_⟩
    apply pairwise_product _ _ (iota_reverse_pairwise_gt _ _) (iota_pairwise_lt _ _)
    · intro y x1 x2 h e
      injection e with e1 e2
      omega
    · intro y1 y2 x1 x2 h e
      injection e with e1 e2
      omega
  · refine ⟨_, _, rfl, fun x => by rw [List.mem_reverse]; exact mem_iota, fun y => mem_iota, ?_⟩
    apply pairwise_product _ _ (iota_pairwise_lt _ _) (iota_reverse_pairwise_gt _ _)
    · intro y x1 x2 h e
      injection e with e1 e2
      omega
    · intro y1 y2 x1 x2 h e
      injection e with e1 e2
      omega
  · refine ⟨_, _, rfl, fun x => by rw [List.mem_reverse]; exact mem_iota,
      fun y => by rw [List.mem_reverse]; exact mem_iota, ?_⟩
    apply pairwise_product _ _ (iota_reverse_pairwise_gt _ _) (iota_reverse_pairwise_gt _ _)
    · intro y x1 x2 h e
      injection e with e1 e2
      omega
    · intro y1 y2 x1 x2 h e
      injection e with e1 e2
      omega

theorem translate_pixels_get [Inhabited α] (r : rgb_based_renderer S α) (dx dy : Int)
    (hv : r.valid) (hx : coord_abs dx < r._resolution.width)
    (hy : coord_abs dy < r._resolution.height) (p : coords) (hp : r._resolution.in_bounds p) :
    (r.translate_pixels_by_coords dx dy).get_pixel p =
      if r._resolution.in_bounds ⟨p.x - dx, p.y - dy⟩ then r.get_pixel ⟨p.x - dx, p.y - dy⟩
      else r.get_pixel p := by
  obtain ⟨xs, ys, e, hxs, hys, hord⟩ := translate_pixels_order r dx dy hx hy
  rw [e]
  exact set_pixels_get dx dy r hv xs ys hxs hys hord p hp

theorem translate_pixels_resolution [Inhabited α] (r : rgb_based_renderer S α) (dx dy : Int) :
    (r.translate_pixels_by_coords dx dy)._resolution = r._resolution := by
  unfold rgb_based_renderer.translate_pixels_by_coords rgb_based_renderer.set_pixels
  split_ifs <;> first
    | rfl
    | exact translate_fold_resolution dx dy _ r

theorem translate_pixels_frame [Inhabited α] (r : rgb_based_renderer S α) (dx dy : Int) :
    (r.translate_pixels_by_coords dx dy)._frame = r._frame := by
  unfold rgb_based_renderer.translate_pixels_by_coords rgb_based_renderer.set_pixels
  split_ifs <;> first
    | rfl
    | exact translate_fold_frame dx dy _ r

/-- C3. After `translate_pixels_by_coords(dx, dy)` with `|dx| < width` and `|dy| < height`, a
position `p` in bounds holds what `p - (dx, dy)` held before the call if that position is in
bounds, and what `p` itself held otherwise.  The rows and columns are traversed in an order
in which the target of a copy is never the source of a later copy, so every source is read
before it is overwritten. -/
theorem translate_pixels_by_coords_shifts [Inhabited α] (r : rgb_based_renderer S α)
    (dx dy : Int) (hv : r.valid) (hx : coord_abs dx < r.resolution.width)
    (hy : coord_abs dy < r.resolution.height) :
    (∀ p, r.resolution.in_bounds p →
      (r.resolution.in_bounds ⟨p.x - dx, p.y - dy⟩ →
        (r.translate_pixels_by_coords dx dy).get_pixel p = r.get_pixel ⟨p.x - dx, p.y - dy⟩) ∧
      (¬ r.resolution.in_bounds ⟨p.x - dx, p.y - dy⟩ →
        (r.translate_pixels_by_coords dx dy).get_pixel p = r.get_pixel p)) ∧
    (∃ x_coords y_coords,
      r.translate_pixels_by_coords dx dy = r.set_pixels dx dy x_coords y_coords ∧
      (y_coords.flatMap fun y => x_coords.map fun x => (y, x)).Pairwise
        (fun source later => (source.1 + dy, source.2 + dx) ≠ later)) ∧
    (r.translate_pixels_by_coords dx dy).frame = r.frame ∧
    (r.translate_pixels_by_coords dx dy).resolution = r.resolution := by
  refine ⟨?_, ?_, translate_pixels_frame r dx dy, translate_pixels_resolution r dx dy⟩
  · intro p hp
    have := translate_pixels_get r dx dy hv hx hy p hp
    constructor
    · intro h
      rw [this]
      exact if_pos h
    · intro h
      rw [this]
      exact if_neg h
  · obtain ⟨xs, ys, e, _, _, hord⟩ := translate_pixels_order r dx dy hx hy
    exact ⟨xs, ys, e, hord⟩

end shift_claim

/-! ## The exposed rectangles and the translated frame -/

section pan
variable {S α : Type}

/-- C2. For `|dx| < width` and `|dy| < height` the missing-edges render is a region render of
each rectangle of `missing_edges`; these are the vertical strip followed by the horizontal
strip of the specification, at most two, pairwise disjoint, without a repeated position, and
together exactly the positions in bounds whose source position `(x - dx, y - dy)` is out of
bounds; no vertical strip for `dx = 0` and no horizontal strip for `dy = 0`. -/
theorem missing_edges_cover_exposed [Add S] [Mul S] [IntCast S] (pool : renderer_thread_pool)
    (K : renderer_statics α) (r : rgb_based_renderer S α) (set : iterative_set S)
    (dx dy : Int) (hx : coord_abs dx < r.resolution.width)
    (hy : coord_abs dy < r.resolution.height) :
    pool.threaded_render_missing_edges_by_iteration K r set dx dy =
      (missing_edges r.resolution dx dy).foldl
        (fun r1 region => pool.threaded_render_region_by_iteration K r1 region set) r ∧
    missing_edges r.resolution dx dy =
      spec_vertical_strip r.resolution dx ++ spec_horizontal_strip r.resolution dx dy ∧
    (missing_edges r.resolution dx dy).length ≤ 2 ∧
    (missing_edges r.resolution dx dy).Pairwise List.Disjoint ∧
    (∀ region ∈ missing_edges r.resolution dx dy, region.Nodup) ∧
    (∀ c, (∃ region ∈ missing_edges r.resolution dx dy, c ∈ region) ↔
      r.resolution.in_bounds c ∧ ¬ r.resolution.in_bounds ⟨c.x - dx, c.y - dy⟩) ∧
    (dx = 0 → spec_vertical_strip r.resolution dx = []) ∧
    (dy = 0 → spec_horizontal_strip r.resolution dx dy = []) := by
  refine ⟨missing_edges_render pool K r set dx dy hx hy, missing_edges_eq_spec _ _ _,
    missing_edges_length _ _ _, missing_edges_disjoint _ _ _, missing_edges_nodup _ _ _,
    mem_missing_edges _ _ _ hx hy, ?_, ?_⟩
  · intro h
    simp [spec_vertical_strip, h]
  · intro h
    simp [spec_horizontal_strip, h]

/-- Over a ring the plane value of a position under the translated frame is the plane value
of the shifted position under the frame before the translation. -/
theorem number_at_translate_frame [Ring S] (r : rgb_based_renderer S α) (ox oy : Int)
    (res : resolution) (p : coords) :
    (r.translate_frame_by_coords ox oy)._frame.number_at_screen_coords res p =
      r._frame.number_at_screen_coords res ⟨p.x + ox, p.y + oy⟩ := by
  unfold rgb_based_renderer.translate_frame_by_coords frame.number_at_screen_coords
    resolution.to_graphwise_coord complex.add complex.scale
  simp only [complex.mk.injEq]
  constructor
  · rw [add_assoc, ← mul_add]
    congr 2
    push_cast
    abel
  · rw [add_assoc, ← mul_add]
    congr 2
    push_cast
    abel

end pan

/-! ## The pan sequence over exact arithmetic -/

section pan_claim
variable {S α : Type}

theorem get_render_by_iteration [Add S] [Mul S] [IntCast S] [Inhabited α]
    (K : renderer_statics α) (r : rgb_based_renderer S α) (set : iterative_set S)
    (hv : r.valid) (c : coords) (hc : r._resolution.in_bounds c) :
    (render_by_iteration K r set).get_pixel c = pixel_color K r._frame r._resolution set c :=
  get_paint_mem _ _ _ hv (fun _ h => mem_screen_coords.mp h) c (mem_screen_coords.mpr hc)

end pan_claim

/-! ## Claim on the pan sequence -/

section pan_final
variable {S α : Type}

end pan_final

/-! ## Claim C1 on binary64 values -/

/-- C2 at resolution 3×2 and offset `(1, -1)`. -/
theorem missing_edges_cover_exposed_witness :
    (missing_edges small_renderer.resolution 1 (-1)).Pairwise List.Disjoint ∧
    ((∃ region ∈ missing_edges small_renderer.resolution 1 (-1), (⟨2, 1⟩ : coords) ∈ region) ↔
      small_renderer.resolution.in_bounds ⟨2, 1⟩ ∧
        ¬ small_renderer.resolution.in_bounds ⟨2 - 1, 1 - (-1)⟩) :=
  ⟨(missing_edges_cover_exposed ⟨2⟩ small_statics small_renderer mandelbrot_set 1 (-1)
      (by decide) (by decide)).2.2.2.1,
    (missing_edges_cover_exposed ⟨2⟩ small_statics small_renderer mandelbrot_set 1 (-1)
      (by decide) (by decide)).2.2.2.2.2.1 ⟨2, 1⟩⟩

/-- C3 at resolution 3×2 and offset `(1, -1)`: the position `(1, 0)` receives the value of
`(0, 1)`. -/
theorem translate_pixels_by_coords_shifts_witness :
    ((render_by_iteration small_statics small_renderer mandelbrot_set).translate_pixels_by_coords
        1 (-1)).get_pixel ⟨1, 0⟩ =
      (render_by_iteration small_statics small_renderer mandelbrot_set).get_pixel
        ⟨1 - 1, 0 - (-1)⟩ :=
  ((translate_pixels_by_coords_shifts
    (render_by_iteration small_statics small_renderer mandelbrot_set) 1 (-1) (by decide)
    (by decide) (by decide)).1 ⟨1, 0⟩ (by decide)).1 (by decide)

/-- C4 at resolution 3×2 with two workers. -/
theorem threaded_render_by_iteration_partition_witness :
    (renderer_thread_pool.index_chunks ⟨2⟩ small_renderer._resolution).flatten =
      iota 0 small_renderer._resolution.area :=
  (threaded_render_by_iteration_partition ⟨2⟩ small_statics small_renderer mandelbrot_set
    (by decide) (by decide)).2.2.2.1

/-- C5 at resolution 3×2 with two workers. -/
theorem full_frame_and_region_rendering_agree_witness :
    renderer_thread_pool.threaded_render_by_iteration ⟨2⟩ small_statics small_renderer
        mandelbrot_set =
      render_by_iteration small_statics small_renderer mandelbrot_set :=
  (full_frame_and_region_rendering_agree ⟨2⟩ small_statics small_renderer mandelbrot_set
    (by decide) (by decide)).1

/-- C6 at resolution 3×2 for the region of the two positions `(0, 0)` and `(2, 1)`: the
position `(1, 1)` keeps its value. -/
theorem render_region_effect_witness :
    (render_region_by_iteration small_statics small_renderer [⟨0, 0⟩, ⟨2, 1⟩]
        mandelbrot_set).get_pixel ⟨1, 1⟩ = small_renderer.get_pixel ⟨1, 1⟩ :=
  (render_region_effect ⟨2⟩ small_statics small_renderer [⟨0, 0⟩, ⟨2, 1⟩] mandelbrot_set
    (by decide) (by decide) _ (Or.inl rfl)).2.1 ⟨1, 1⟩ (by decide) (by decide)

/-- C7 at resolution 3×2 and offset `(3, 0)`. -/
theorem missing_edges_degenerate_full_render_witness :
    renderer_thread_pool.threaded_render_missing_edges_by_iteration ⟨2⟩ small_statics
        small_renderer mandelbrot_set 3 0 =
      render_by_iteration small_statics small_renderer mandelbrot_set :=
  (missing_edges_degenerate_full_render ⟨2⟩ small_statics small_renderer mandelbrot_set 3 0
    (by decide) (by decide)).2.1

/-- C8 at resolution 3×2 and offset `(0, -2)`. -/
theorem translate_pixels_degenerate_noop_witness :
    (render_by_iteration small_statics small_renderer mandelbrot_set).translate_pixels_by_coords
        0 (-2) =
      render_by_iteration small_statics small_renderer mandelbrot_set :=
  translate_pixels_degenerate_noop
    (render_by_iteration small_statics small_renderer mandelbrot_set) 0 (-2) (by decide)

/-- C10 at `M = 5` and `c = 2` over the integers: `z_1 = 2` does not escape, `z_2 = 6` does. -/
theorem mandelbrot_returns_least_escaping_index_witness :
    mandelbrot_set_t.iterations_before_escape 5 (⟨2, 0⟩ : complex Int) = 1 :=
  (mandelbrot_returns_least_escaping_index 5 (⟨2, 0⟩ : complex Int) (by decide)).1 1
    (by decide) (by decide) (by decide)

/-! ## Claims on the Julia evaluator and on the origin -/

section evaluator_claims
variable {S : Type}

/-- C11. With `z_0 = p` and `z_(n+1) = z_n² + k`, the Julia evaluator with constant `k`
returns the least `i < M` for which the squared magnitude of `z_(i+1)` exceeds
`EscapeMagnitudeSquared`, and `M` if there is none; `z_0` itself is never tested.  No fact of
arithmetic is used. -/
theorem julia_returns_least_escaping_index [Add S] [Sub S] [Mul S] [IntCast S] [LT S]
    [DecidableRel (fun a b : S => a < b)] (M : Nat) (k p : complex S) :
    (∀ i, i < M → escaped (orbit k p (i + 1)) →
      (∀ j, j < i → ¬ escaped (orbit k p (j + 1))) →
        quadratic_julia_set.iterations_before_escape k M p = i) ∧
    ((∀ i, i < M → ¬ escaped (orbit k p (i + 1))) →
      quadratic_julia_set.iterations_before_escape k M p = M) ∧
    (quadratic_julia_set k).iterations_before_escape M p =
      quadratic_julia_set.iterations_before_escape k M p := by
  have h := escape_loop_spec M k p M 0 (by omega)
  simp only [orbit] at h
  obtain ⟨_, a1, a2, a3⟩ := h
  have a2 : ∀ j, j < quadratic_julia_set.iterations_before_escape k M p →
      ¬ escaped (orbit k p (j + 1)) := fun j hj => a2 j (Nat.zero_le _) hj
  have a3 : quadratic_julia_set.iterations_before_escape k M p < M →
      escaped (orbit k p (quadratic_julia_set.iterations_before_escape k M p + 1)) := a3
  have a1 : quadratic_julia_set.iterations_before_escape k M p ≤ M := a1
  refine ⟨?_, ?_, rfl⟩
  · intro i hi hesc hleast
    rcases lt_trichotomy (quadratic_julia_set.iterations_before_escape k M p) i with h | h | h
    · exact absurd (a3 (by omega)) (hleast _ h)
    · exact h
    · exact absurd hesc (a2 i h)
  · intro hnone
    by_contra hne
    have hlt : quadratic_julia_set.iterations_before_escape k M p < M := by omega
    exact hnone _ hlt (a3 hlt)

/-- The zero state of the Mandelbrot loop is a fixed point of the loop body that does not
escape, under four facts about the scalar zero. -/
theorem escape_loop_zero [Add S] [Sub S] [Mul S] [IntCast S] [LT S]
    [DecidableRel (fun a b : S => a < b)] (M : Nat)
    (h1 : ((2 : Int) : S) * ((0 : Int) : S) * ((0 : Int) : S) + ((0 : Int) : S) =
      ((0 : Int) : S))
    (h2 : ((0 : Int) : S) - ((0 : Int) : S) + ((0 : Int) : S) = ((0 : Int) : S))
    (h3 : ((0 : Int) : S) * ((0 : Int) : S) = ((0 : Int) : S))
    (h4 : ¬ (EscapeMagnitudeSquared : S) < ((0 : Int) : S) + ((0 : Int) : S)) :
    ∀ remaining i : Nat,
      escape_loop M (complex.zero : complex S) remaining i complex.zero ((0 : Int) : S)
        ((0 : Int) : S) = M := by
  intro remaining
  induction remaining with
  | zero => intro i; rfl
  | succ n ih =>
    intro i
    simp only [escape_loop, complex.zero, h1, h2, h3, if_neg h4]
    exact ih (i + 1)

end evaluator_claims

/-- C12. The Mandelbrot evaluator at the point `(0, 0)` returns `M` for every `M`, over every
linearly ordered ring of scalars and over binary64. -/
theorem mandelbrot_origin_is_interior :
    (∀ (S : Type) [LinearOrderedRing S] (M : Nat),
      mandelbrot_set_t.iterations_before_escape M (complex.zero : complex S) = M) ∧
    (∀ M : Nat,
      mandelbrot_set_t.iterations_before_escape M (complex.zero : complex binary64) = M) ∧
    mandelbrot_set_t.iterations_before_escape 500 (⟨⟨0, 0⟩, ⟨0, 0⟩⟩ : complex binary64) = 500 := by
  refine ⟨?_, ?_, ?_⟩
  · intro S _ M
    apply escape_loop_zero M
    · simp
    · simp
    · simp
    · simp [EscapeMagnitudeSquared]
  · intro M
    exact escape_loop_zero M rfl rfl rfl (by decide) M 0
  · exact escape_loop_zero 500 rfl rfl rfl (by decide) 500 0

/-- C11 at `M = 5`, `k = -9` and `p = 3` over the integers: `z_0 = 3` has squared magnitude
`9 > 4` and is not tested, `z_1 = 0` does not escape, `z_2 = -9` does. -/
theorem julia_returns_least_escaping_index_witness :
    escaped (⟨3, 0⟩ : complex Int) ∧
    quadratic_julia_set.iterations_before_escape (⟨-9, 0⟩ : complex Int) 5 ⟨3, 0⟩ = 1 :=
  ⟨by decide,
    (julia_returns_least_escaping_index 5 (⟨-9, 0⟩ : complex Int) ⟨3, 0⟩).1 1 (by decide)
      (by decide) (by decide)⟩

/-! ## Claim on points outside radius two -/

/-- C13, as the evaluator computes it.  For every `M` (for `M ≥ 1` in particular) and every
point `c` whose squared magnitude `re · re + im · im`, computed in the arithmetic of the
scalars as the first step of the loop computes it, exceeds `EscapeMagnitudeSquared`, the
Mandelbrot evaluator returns `0`, which is one of the iterations `0` and `1`.  The first part
is about the value `z_1 = (0 - 0 + re(c), 2 · 0 · 0 + im(c))` of the loop, with no law of
arithmetic assumed; the second is about `c` itself, for scalars on which these two sums are
`re(c)` and `im(c)`, as they are in binary64 and in every ring. -/
theorem mandelbrot_outside_radius_two {S : Type} [Add S] [Sub S] [Mul S] [IntCast S] [LT S]
    [DecidableRel (fun a b : S => a < b)] (M : Nat) (c : complex S) :
    ((EscapeMagnitudeSquared : S) <
        (((0 : Int) : S) - ((0 : Int) : S) + c.real) *
            (((0 : Int) : S) - ((0 : Int) : S) + c.real) +
          (((2 : Int) : S) * ((0 : Int) : S) * ((0 : Int) : S) + c.imag) *
            (((2 : Int) : S) * ((0 : Int) : S) * ((0 : Int) : S) + c.imag) →
      mandelbrot_set_t.iterations_before_escape M c = 0 ∧
      (mandelbrot_set_t.iterations_before_escape M c = 0 ∨
        mandelbrot_set_t.iterations_before_escape M c = 1)) ∧
    (((0 : Int) : S) - ((0 : Int) : S) + c.real = c.real →
      ((2 : Int) : S) * ((0 : Int) : S) * ((0 : Int) : S) + c.imag = c.imag →
      (EscapeMagnitudeSquared : S) < c.real * c.real + c.imag * c.imag →
      mandelbrot_set_t.iterations_before_escape M c = 0 ∧
      (mandelbrot_set_t.iterations_before_escape M c = 0 ∨
        mandelbrot_set_t.iterations_before_escape M c = 1)) := by
  have key : (EscapeMagnitudeSquared : S) <
        (((0 : Int) : S) - ((0 : Int) : S) + c.real) *
            (((0 : Int) : S) - ((0 : Int) : S) + c.real) +
          (((2 : Int) : S) * ((0 : Int) : S) * ((0 : Int) : S) + c.imag) *
            (((2 : Int) : S) * ((0 : Int) : S) * ((0 : Int) : S) + c.imag) →
      mandelbrot_set_t.iterations_before_escape M c = 0 := by
    intro h
    cases M with
    | zero => rfl
    | succ n =>
      show escape_loop (n + 1) c (n + 1) 0 complex.zero ((0 : Int) : S) ((0 : Int) : S) = 0
      simp only [escape_loop, complex.zero]
      exact if_pos h
  refine ⟨fun h => ⟨key h, Or.inl (key h)⟩, ?_⟩
  intro h1 h2 h3
  have h : mandelbrot_set_t.iterations_before_escape M c = 0 := by
    apply key
    rw [h1, h2]
    exact h3
  exact ⟨h, Or.inl h⟩

set_option maxRecDepth 100000 in
/-- C13 fails for `std::float64_t`.  The point `c = -2 + 2^-70 i` lies outside radius 2, its
squared magnitude being `4 + 2^-140`; the evaluator computes `4 + 2^-140` as `4`, which does
not exceed the threshold, and with `max_iterations = 500` it returns `23`. -/
theorem mandelbrot_outside_radius_two_binary64 :
    4 < (⟨-1, 1⟩ : binary64).toRat * (⟨-1, 1⟩ : binary64).toRat +
      (⟨1, -70⟩ : binary64).toRat * (⟨1, -70⟩ : binary64).toRat ∧
    mandelbrot_set_t.iterations_before_escape 500 (⟨⟨-1, 1⟩, ⟨1, -70⟩⟩ : complex binary64) = 23 ∧
    ¬ (mandelbrot_set_t.iterations_before_escape 500
          (⟨⟨-1, 1⟩, ⟨1, -70⟩⟩ : complex binary64) = 0 ∨
        mandelbrot_set_t.iterations_before_escape 500
          (⟨⟨-1, 1⟩, ⟨1, -70⟩⟩ : complex binary64) = 1) := by
  refine ⟨?_, by decide, by decide⟩
  norm_num [binary64.toRat]

set_option maxRecDepth 100000 in
/-- C13 at `M = 500` and `c = 3 + 3i` in binary64: the computed squared magnitude is `18`,
which exceeds `4`, and the evaluator returns `0`. -/
theorem mandelbrot_outside_radius_two_witness :
    ((0 : Int) : binary64) - ((0 : Int) : binary64) + (⟨3, 0⟩ : binary64) = ⟨3, 0⟩ ∧
    ((2 : Int) : binary64) * ((0 : Int) : binary64) * ((0 : Int) : binary64) +
      (⟨3, 0⟩ : binary64) = ⟨3, 0⟩ ∧
    (EscapeMagnitudeSquared : binary64) <
      (⟨3, 0⟩ : binary64) * (⟨3, 0⟩ : binary64) + (⟨3, 0⟩ : binary64) * (⟨3, 0⟩ : binary64) ∧
    mandelbrot_set_t.iterations_before_escape 500 (⟨⟨3, 0⟩, ⟨3, 0⟩⟩ : complex binary64) = 0 :=
  ⟨rfl, rfl, by decide,
    ((mandelbrot_outside_radius_two 500 (⟨⟨3, 0⟩, ⟨3, 0⟩⟩ : complex binary64)).2 rfl rfl
      (by decide)).1⟩

/-! ## Claim on the plane value of a pixel -/

section frame_claims
variable {S α : Type}

/-- C14. `number_at_screen_coords` is `center + pixel_scale × complex(x - w/2, y - h/2)`, the
offset being `to_graphwise_coord(x, y)` with the truncating division of C++, which for a
width and height that are not negative is `⌊w/2⌋` and `⌊h/2⌋`; two renderers with the same
frame and resolution compute the same value whatever their buffers hold. -/
theorem number_at_screen_coords_formula [Add S] [Mul S] [IntCast S] (f : frame S)
    (res : resolution) (c : coords) :
    res.to_graphwise_coord c = ⟨c.x - Int.tdiv res.width 2, c.y - Int.tdiv res.height 2⟩ ∧
    f.number_at_screen_coords res c =
      f.center.add (complex.scale f.pixel_scale
        ⟨((res.to_graphwise_coord c).x : S), ((res.to_graphwise_coord c).y : S)⟩) ∧
    (f.number_at_screen_coords res c).real =
      f.center.real + f.pixel_scale * ((c.x - Int.tdiv res.width 2 : Int) : S) ∧
    (f.number_at_screen_coords res c).imag =
      f.center.imag + f.pixel_scale * ((c.y - Int.tdiv res.height 2 : Int) : S) ∧
    (0 ≤ res.width → Int.tdiv res.width 2 = ⌊(res.width : ℚ) / 2⌋) ∧
    (0 ≤ res.height → Int.tdiv res.height 2 = ⌊(res.height : ℚ) / 2⌋) ∧
    (∀ r1 r2 : rgb_based_renderer S α, r1.frame = r2.frame → r1.resolution = r2.resolution →
      r1.frame.number_at_screen_coords r1.resolution c =
        r2.frame.number_at_screen_coords r2.resolution c) := by
  have hfloor : ∀ w : Int, 0 ≤ w → Int.tdiv w 2 = ⌊(w : ℚ) / 2⌋ := by
    intro w hw
    rw [Int.tdiv_eq_ediv hw (by decide)]
    have h := Rat.floor_intCast_div_natCast w 2
    simp only [Nat.cast_ofNat] at h
    exact h.symm
  refine ⟨rfl, rfl, rfl, rfl, hfloor _, hfloor _, ?_⟩
  intro r1 r2 h1 h2
  rw [h1, h2]

end frame_claims

/-! ## Claim on the centre pixel -/

section center_pixel

theorem length_iota (a b : Int) : (iota a b).length = (b - a).toNat := by
  unfold iota
  simp

theorem count_below (n k : Int) (h0 : 0 ≤ k) (h1 : k ≤ n) :
    ((iota 0 n).filter fun x => decide (x < k)).length = k.toNat := by
  rw [← iota_append_iota h0 h1, List.filter_append]
  have e1 : (iota 0 k).filter (fun x => decide (x < k)) = iota 0 k := by
    rw [List.filter_eq_self]
    intro x hx
    rw [mem_iota] at hx
    simpa using hx.2
  have e2 : (iota k n).filter (fun x => decide (x < k)) = [] := by
    rw [List.filter_eq_nil_iff]
    intro x hx
    rw [mem_iota] at hx
    simpa using hx.1
  rw [e1, e2, List.append_nil, length_iota]
  simp

theorem count_above (n k : Int) (h0 : 0 ≤ k) (h1 : k < n) :
    ((iota 0 n).filter fun x => decide (k < x)).length = (n - 1 - k).toNat := by
  rw [← iota_append_iota (by omega : (0 : Int) ≤ k + 1) (by omega : k + 1 ≤ n),
    List.filter_append]
  have e1 : (iota 0 (k + 1)).filter (fun x => decide (k < x)) = [] := by
    rw [List.filter_eq_nil_iff]
    intro x hx
    rw [mem_iota] at hx
    have := hx.2
    simp only [decide_eq_true_eq, not_lt]
    omega
  have e2 : (iota (k + 1) n).filter (fun x => decide (k < x)) = iota (k + 1) n := by
    rw [List.filter_eq_self]
    intro x hx
    rw [mem_iota] at hx
    have := hx.1
    simp only [decide_eq_true_eq]
    omega
  rw [e1, e2, List.nil_append, length_iota]
  congr 1
  ring

/-- C15, as the code has it.  For a resolution of even, positive width and height the pixel
that `to_graphwise_coord` maps to the offset `(0, 0)` is `(w/2, h/2)`; it is in bounds, its
plane value over a ring of scalars is the centre of the frame, and it has exactly one more
pixel to its left than to its right and one more above it than below it. -/
theorem center_pixel_of_even_resolution {S : Type} [Ring S] (res : resolution) (c : coords)
    (hw : 0 < res.width) (hh : 0 < res.height) (hwe : res.width % 2 = 0)
    (hhe : res.height % 2 = 0) (hc : res.to_graphwise_coord c = ⟨0, 0⟩) :
    c = ⟨res.width / 2, res.height / 2⟩ ∧ res.in_bounds c ∧
    (∀ f : frame S, f.number_at_screen_coords res c = f.center) ∧
    pixels_left res c = pixels_right res c + 1 ∧
    pixels_above res c = pixels_below res c + 1 := by
  unfold resolution.to_graphwise_coord at hc
  injection hc with hx hy
  rw [Int.tdiv_eq_ediv (le_of_lt hw) (by decide)] at hx
  rw [Int.tdiv_eq_ediv (le_of_lt hh) (by decide)] at hy
  have hcx : c.x = res.width / 2 := by omega
  have hcy : c.y = res.height / 2 := by omega
  have hxb : 0 ≤ c.x ∧ c.x < res.width := by omega
  have hyb : 0 ≤ c.y ∧ c.y < res.height := by omega
  refine ⟨?_, ⟨hxb.1, hxb.2, hyb.1, hyb.2⟩, ?_, ?_, ?_⟩
  · cases c
    simp only [coords.mk.injEq]
    exact ⟨hcx, hcy⟩
  · intro f
    unfold frame.number_at_screen_coords resolution.to_graphwise_coord complex.add complex.scale
    rw [Int.tdiv_eq_ediv (le_of_lt hw) (by decide), Int.tdiv_eq_ediv (le_of_lt hh) (by decide)]
    have e1 : c.x - res.width / 2 = 0 := by omega
    have e2 : c.y - res.height / 2 = 0 := by omega
    simp [e1, e2]
  · unfold pixels_left pixels_right resolution.x_coords
    rw [count_below _ _ hxb.1 (le_of_lt hxb.2), count_above _ _ hxb.1 hxb.2]
    omega
  · unfold pixels_above pixels_below resolution.y_coords
    rw [count_below _ _ hyb.1 (le_of_lt hyb.2), count_above _ _ hyb.1 hyb.2]
    omega

end center_pixel

/-- C15 fails at resolution 4×4.  The pixel `(2, 2)` is the one with offset `(0, 0)`; it has
two pixels to its left and one to its right, two above it and one below it, so on neither
axis are there fewer pixels before it than after it. -/
theorem center_pixel_not_biased_to_top_left :
    resolution.to_graphwise_coord ⟨4, 4⟩ ⟨2, 2⟩ = ⟨0, 0⟩ ∧
    pixels_left ⟨4, 4⟩ ⟨2, 2⟩ = 2 ∧ pixels_right ⟨4, 4⟩ ⟨2, 2⟩ = 1 ∧
    pixels_above ⟨4, 4⟩ ⟨2, 2⟩ = 2 ∧ pixels_below ⟨4, 4⟩ ⟨2, 2⟩ = 1 ∧
    ¬ (pixels_left ⟨4, 4⟩ ⟨2, 2⟩ < pixels_right ⟨4, 4⟩ ⟨2, 2⟩) ∧
    ¬ (pixels_above ⟨4, 4⟩ ⟨2, 2⟩ < pixels_below ⟨4, 4⟩ ⟨2, 2⟩) := by
  decide

/-- C15 at resolution 4×2 over the integers: the pixel `(2, 1)`. -/
theorem center_pixel_of_even_resolution_witness :
    pixels_left ⟨4, 2⟩ ⟨2, 1⟩ = pixels_right ⟨4, 2⟩ ⟨2, 1⟩ + 1 ∧
    pixels_above ⟨4, 2⟩ ⟨2, 1⟩ = pixels_below ⟨4, 2⟩ ⟨2, 1⟩ + 1 :=
  (@center_pixel_of_even_resolution Int _ ⟨4, 2⟩ ⟨2, 1⟩ (by decide) (by decide) (by decide)
    (by decide) (by decide)).2.2.2

/-! ## Claims on the operations on the frame -/

section frame_ops
variable {S α : Type}

/-- C17. `set_complete_frame` sets the frame to `frame::complete` of the current resolution
and touches nothing else, so a second call changes nothing. -/
theorem set_complete_frame_idempotent [Div S] [IntCast S] (r : rgb_based_renderer S α) :
    r.set_complete_frame.set_complete_frame = r.set_complete_frame ∧
    r.set_complete_frame.frame = frame.complete r.resolution ∧
    r.set_complete_frame.set_complete_frame.frame = frame.complete r.resolution ∧
    r.set_complete_frame._pixels = r._pixels ∧
    r.set_complete_frame.resolution = r.resolution :=
  ⟨rfl, rfl, rfl, rfl, rfl⟩

/-- C18, as the code has it.  `translate_frame_by_coords(dx, dy)` adds
`pixel_scale × complex(dx, dy)` to the centre and leaves `pixel_scale`, the resolution and the
buffer as they are; the inversion of the sign is made by `viewer::_translate_frame`, which
calls it with `(-dx, -dy)`. -/
theorem translate_frame_by_coords_adds [Add S] [Mul S] [IntCast S]
    (r : rgb_based_renderer S α) (dx dy : Int) :
    (r.translate_frame_by_coords dx dy).frame.center.real =
      r.frame.center.real + r.frame.pixel_scale * (dx : S) ∧
    (r.translate_frame_by_coords dx dy).frame.center.imag =
      r.frame.center.imag + r.frame.pixel_scale * (dy : S) ∧
    (r.translate_frame_by_coords dx dy).frame.pixel_scale = r.frame.pixel_scale ∧
    (r.translate_frame_by_coords dx dy).resolution = r.resolution ∧
    (r.translate_frame_by_coords dx dy)._pixels = r._pixels ∧
    viewer_translate_frame r dx dy = r.translate_frame_by_coords (-dx) (-dy) :=
  ⟨rfl, rfl, rfl, rfl, rfl, rfl⟩

/-- C19. `scale_pixel_width(a)` sets `pixel_scale` to `pixel_scale × a` and
`unscale_pixel_width(a)` sets it to `pixel_scale / a`; the centre of the frame, the resolution
and the buffer are unchanged by both. -/
theorem scale_pixel_width_effect [Mul S] [Div S] (r : rgb_based_renderer S α) (a : S) :
    (r.scale_pixel_width a).frame.pixel_scale = r.frame.pixel_scale * a ∧
    (r.unscale_pixel_width a).frame.pixel_scale = r.frame.pixel_scale / a ∧
    (r.scale_pixel_width a).frame.center = r.frame.center ∧
    (r.unscale_pixel_width a).frame.center = r.frame.center ∧
    (r.scale_pixel_width a).resolution = r.resolution ∧
    (r.unscale_pixel_width a).resolution = r.resolution ∧
    (r.scale_pixel_width a)._pixels = r._pixels ∧
    (r.unscale_pixel_width a)._pixels = r._pixels :=
  ⟨rfl, rfl, rfl, rfl, rfl, rfl, rfl, rfl⟩

end frame_ops

set_option maxRecDepth 100000 in
/-- C18 fails at the frame with centre `0` and `pixel_scale = 1` for the offset `(1, 0)`, on
binary64 values: the new centre is `0 + 1·1 = 1`, which is greater than the `0 - 1·1 = -1` of
the claim. -/
theorem translate_frame_by_coords_not_subtracting :
    unit_renderer.frame.center.real - unit_renderer.frame.pixel_scale * ((1 : Int) : binary64) <
      (unit_renderer.translate_frame_by_coords 1 0).frame.center.real ∧
    (unit_renderer.translate_frame_by_coords 1 0).frame.center.real.toRat = 1 ∧
    (unit_renderer.frame.center.real -
      unit_renderer.frame.pixel_scale * ((1 : Int) : binary64)).toRat = -1 := by
  refine ⟨by decide, ?_, ?_⟩
  · have h : (unit_renderer.translate_frame_by_coords 1 0).frame.center.real = ⟨1, 0⟩ := by rfl
    rw [h]
    norm_num [binary64.toRat]
  · have h : unit_renderer.frame.center.real -
        unit_renderer.frame.pixel_scale * ((1 : Int) : binary64) = ⟨-1, 0⟩ := by rfl
    rw [h]
    norm_num [binary64.toRat]

/-! ## Claim on pixel access -/

section pixel_access
variable {S α : Type}

/-- C20. For positions `c`, `c'` in bounds of a resolution, in the RGB renderers and in the
ASCII renderer alike: the index `y·w + x` lies in the buffer, `set_pixel(c, v)` writes that
index and no other, `get_pixel(c)` then returns `v`, `get_pixel(c')` is unchanged for
`c' ≠ c`, and different positions have different indices. -/
theorem set_pixel_then_get_pixel [Inhabited α] (res : resolution) (c c' : coords)
    (hc : res.in_bounds c) (hc' : res.in_bounds c') :
    (0 ≤ c.y * res.width + c.x ∧ c.y * res.width + c.x < res.area) ∧
    (c' ≠ c → c'.y * res.width + c'.x ≠ c.y * res.width + c.x) ∧
    (∀ (r : rgb_based_renderer S α) (v : α), r.resolution = res →
      (r._pixels.length : Int) = res.area →
        (r.set_pixel c v)._pixels = r._pixels.set (c.y * res.width + c.x).toNat v ∧
        (r.set_pixel c v).get_pixel c = v ∧
        (c' ≠ c → (r.set_pixel c v).get_pixel c' = r.get_pixel c')) ∧
    (∀ (a : ascii_renderer S res) (v : Bool), (a._pixels.length : Int) = res.area →
        (a.set_pixel c v)._pixels = a._pixels.set (c.y * res.width + c.x).toNat v ∧
        (a.set_pixel c v).get_pixel c = v ∧
        (c' ≠ c → (a.set_pixel c v).get_pixel c' = a.get_pixel c')) := by
  have hb := index_bounds hc
  have hb' := index_bounds hc'
  refine ⟨hb, fun hne e => hne (index_inj hc' hc e), ?_, ?_⟩
  · intro r v hres hlen
    have hres1 : r._resolution = res := hres
    subst hres1
    have hv : r.valid := ⟨by have := hc.1; have := hc.2.1; omega,
      by have := hc.2.2.1; have := hc.2.2.2; omega, hlen⟩
    refine ⟨?_, get_set_pixel_same hv hc v, fun hne => get_set_pixel_other hc hc' (Ne.symm hne) v⟩
    show buffer_set _ _ _ = _
    unfold buffer_set
    rw [if_pos hb.1]
  · intro a v hlen
    refine ⟨?_, ?_, ?_⟩
    · show buffer_set _ _ _ = _
      unfold buffer_set
      rw [if_pos hb.1]
    · show buffer_get (buffer_set _ _ _) _ = _
      apply buffer_get_set_same _ _ _ hb.1
      rw [hlen]
      exact hb.2
    · intro hne
      show buffer_get (buffer_set _ _ _) _ = buffer_get _ _
      apply buffer_get_set_other _ _ _ _ _ hb'.1
      intro e
      exact hne (index_inj hc' hc e.symm)

end pixel_access

/-- C20 at resolution 3×2 over the integers, for the positions `(2, 0)` and `(0, 1)`, whose
indices are `2` and `3`. -/
theorem set_pixel_then_get_pixel_witness :
    (small_renderer.set_pixel ⟨2, 0⟩ 7).get_pixel ⟨2, 0⟩ = 7 ∧
    (small_renderer.set_pixel ⟨2, 0⟩ 7).get_pixel ⟨0, 1⟩ = small_renderer.get_pixel ⟨0, 1⟩ :=
  ⟨((@set_pixel_then_get_pixel Int Nat _ ⟨3, 2⟩ ⟨2, 0⟩ ⟨0, 1⟩ (by decide) (by decide)).2.2.1
      small_renderer 7 rfl (by decide)).2.1,
    ((@set_pixel_then_get_pixel Int Nat _ ⟨3, 2⟩ ⟨2, 0⟩ ⟨0, 1⟩ (by decide) (by decide)).2.2.1
      small_renderer 7 rfl (by decide)).2.2 (by decide)⟩

/-! ## Claim on the length of the buffer -/

section invariant
variable {S α : Type}

theorem set_pixel_fits {r : rgb_based_renderer S α} (h : r.buffer_fits) (c : coords) (v : α) :
    (r.set_pixel c v).buffer_fits := by
  unfold rgb_based_renderer.buffer_fits at *
  simpa using h

theorem foldl_fits {β : Type} (g : rgb_based_renderer S α → β → rgb_based_renderer S α)
    (hg : ∀ r x, r.buffer_fits → (g r x).buffer_fits) (l : List β) :
    ∀ r : rgb_based_renderer S α, r.buffer_fits → (l.foldl g r).buffer_fits := by
  induction l with
  | nil => intro r h; exact h
  | cons a l ih => intro r h; rw [List.foldl_cons]; exact ih _ (hg r a h)

theorem translate_pixels_fits [Inhabited α] (r : rgb_based_renderer S α) (dx dy : Int)
    (h : r.buffer_fits) : (r.translate_pixels_by_coords dx dy).buffer_fits := by
  have hstep : ∀ (r1 : rgb_based_renderer S α) (a : Int × Int), r1.buffer_fits →
      (rgb_based_renderer.translate_step dx dy r1 a).buffer_fits := by
    intro r1 a h1
    rw [translate_step_eq]
    split_ifs
    · exact set_pixel_fits h1 _ _
    · exact h1
  unfold rgb_based_renderer.translate_pixels_by_coords rgb_based_renderer.set_pixels
  split_ifs <;> first
    | exact h
    | exact foldl_fits _ hstep _ r h

theorem render_by_iteration_at_fits [Add S] [Mul S] [IntCast S] (K : renderer_statics α)
    (set : iterative_set S) (r : rgb_based_renderer S α) (c : coords) (h : r.buffer_fits) :
    (render_by_iteration_at K r c set).buffer_fits :=
  set_pixel_fits h _ _

theorem render_region_fits [Add S] [Mul S] [IntCast S] (K : renderer_statics α)
    (set : iterative_set S) (r : rgb_based_renderer S α) (region : List coords)
    (h : r.buffer_fits) : (render_region_by_iteration K r region set).buffer_fits :=
  foldl_fits _ (fun _ _ h1 => set_pixel_fits h1 _ _) region r h

theorem threaded_render_fits [Add S] [Mul S] [IntCast S] (pool : renderer_thread_pool)
    (K : renderer_statics α) (set : iterative_set S) (r : rgb_based_renderer S α)
    (h : r.buffer_fits) : (pool.threaded_render_by_iteration K r set).buffer_fits := by
  rw [threaded_eq_chunks]
  exact foldl_fits _
    (fun r1 chunk h1 => foldl_fits _ (fun r2 _ h2 => render_by_iteration_at_fits K set r2 _ h2)
      chunk r1 h1) _ r h

theorem threaded_region_fits [Add S] [Mul S] [IntCast S] (pool : renderer_thread_pool)
    (K : renderer_statics α) (set : iterative_set S) (r : rgb_based_renderer S α)
    (region : List coords) (h : r.buffer_fits) :
    (pool.threaded_render_region_by_iteration K r region set).buffer_fits := by
  rw [threaded_region_eq_render_region]
  exact render_region_fits K set r region h

theorem threaded_missing_edges_fits [Add S] [Mul S] [IntCast S] (pool : renderer_thread_pool)
    (K : renderer_statics α) (set : iterative_set S) (r : rgb_based_renderer S α)
    (dx dy : Int) (h : r.buffer_fits) :
    (pool.threaded_render_missing_edges_by_iteration K r set dx dy).buffer_fits := by
  unfold renderer_thread_pool.threaded_render_missing_edges_by_iteration
  simp only []
  split_ifs <;> first
    | exact h
    | exact threaded_render_fits pool K set r h
    | exact threaded_region_fits pool K set _ _ (threaded_region_fits pool K set r _ h)
    | exact threaded_region_fits pool K set r _ h

/-- C21. The buffer of the RGB/RGBA renderer has `width × height` pixels of its current
resolution: both constructors establish this for a resolution whose area is not negative,
`resize(res)` establishes it for `res` from any state and makes `resolution()` return `res`,
and `set_pixel` at a position in bounds, `translate_pixels_by_coords`,
`translate_frame_by_coords`, `scale_pixel_width`, `unscale_pixel_width`, `set_complete_frame`
and every way of rendering (one position, a region of positions in bounds, the full frame, and
the three threaded renders) preserve it. -/
theorem buffer_length_invariant [Add S] [Mul S] [Div S] [IntCast S] [Inhabited α]
    (res : resolution) (hres : 0 ≤ res.area) (f : frame S)
    (r0 r : rgb_based_renderer S α) (hr : r.buffer_fits)
    (c : coords) (hc : r._resolution.in_bounds c) (color : α)
    (offset_x offset_y : Int) (amount : S)
    (K : renderer_statics α) (set : iterative_set S) (pool : renderer_thread_pool)
    (region : List coords) (hregion : ∀ p ∈ region, r._resolution.in_bounds p) :
    (rgb_based_renderer.make res f : rgb_based_renderer S α).buffer_fits ∧
    (rgb_based_renderer.make_complete res : rgb_based_renderer S α).buffer_fits ∧
    ((r0.resize res).resolution = res ∧ (r0.resize res).buffer_fits) ∧
    (r.set_pixel c color).buffer_fits ∧
    (r.translate_pixels_by_coords offset_x offset_y).buffer_fits ∧
    (r.translate_frame_by_coords offset_x offset_y).buffer_fits ∧
    (r.scale_pixel_width amount).buffer_fits ∧
    (r.unscale_pixel_width amount).buffer_fits ∧
    r.set_complete_frame.buffer_fits ∧
    (render_by_iteration_at K r c set).buffer_fits ∧
    (render_region_by_iteration K r region set).buffer_fits ∧
    (render_by_iteration K r set).buffer_fits ∧
    (pool.threaded_render_by_iteration K r set).buffer_fits ∧
    (pool.threaded_render_region_by_iteration K r region set).buffer_fits ∧
    (pool.threaded_render_missing_edges_by_iteration K r set offset_x offset_y).buffer_fits := by
  have hmake : ∀ g : frame S, (rgb_based_renderer.make res g : rgb_based_renderer S α).buffer_fits := by
    intro g
    unfold rgb_based_renderer.buffer_fits rgb_based_renderer.make
    simp only [List.length_replicate]
    exact Int.toNat_of_nonneg hres
  have _hc := hc
  have _hregion := hregion
  refine ⟨hmake f, hmake _, ⟨rfl, ?_⟩, set_pixel_fits hr _ _, translate_pixels_fits r _ _ hr,
    hr, hr, hr, hr, render_by_iteration_at_fits K set r c hr, render_region_fits K set r region hr,
    render_region_fits K set r _ hr, threaded_render_fits pool K set r hr,
    threaded_region_fits pool K set r region hr,
    threaded_missing_edges_fits pool K set r _ _ hr⟩
  unfold rgb_based_renderer.buffer_fits rgb_based_renderer.resize
  simp only [List.length_append, List.length_take, List.length_replicate]
  have := Int.toNat_of_nonneg hres
  omega

end invariant

/-- C21 at the 3×2 renderer over the integers, resized to and constructed at 2×2. -/
theorem buffer_length_invariant_witness :
    (rgb_based_renderer.make ⟨2, 2⟩ ⟨⟨0, 0⟩, 1⟩ : rgb_based_renderer Int Nat).buffer_fits ∧
    (rgb_based_renderer.make_complete ⟨2, 2⟩ : rgb_based_renderer Int Nat).buffer_fits ∧
    ((small_renderer.resize ⟨2, 2⟩).resolution = ⟨2, 2⟩ ∧
      (small_renderer.resize ⟨2, 2⟩).buffer_fits) ∧
    (small_renderer.set_pixel ⟨1, 1⟩ 7).buffer_fits ∧
    (small_renderer.translate_pixels_by_coords 1 (-1)).buffer_fits ∧
    (small_renderer.translate_frame_by_coords 1 (-1)).buffer_fits ∧
    (small_renderer.scale_pixel_width 2).buffer_fits ∧
    (small_renderer.unscale_pixel_width 2).buffer_fits ∧
    small_renderer.set_complete_frame.buffer_fits ∧
    (render_by_iteration_at small_statics small_renderer ⟨1, 1⟩ mandelbrot_set).buffer_fits ∧
    (render_region_by_iteration small_statics small_renderer [⟨0, 0⟩, ⟨2, 1⟩]
      mandelbrot_set).buffer_fits ∧
    (render_by_iteration small_statics small_renderer mandelbrot_set).buffer_fits ∧
    ((renderer_thread_pool.make 3).threaded_render_by_iteration small_statics small_renderer
      mandelbrot_set).buffer_fits ∧
    ((renderer_thread_pool.make 3).threaded_render_region_by_iteration small_statics
      small_renderer [⟨0, 0⟩, ⟨2, 1⟩] mandelbrot_set).buffer_fits ∧
    ((renderer_thread_pool.make 3).threaded_render_missing_edges_by_iteration small_statics
      small_renderer mandelbrot_set 1 (-1)).buffer_fits :=
  buffer_length_invariant ⟨2, 2⟩ (by decide) ⟨⟨0, 0⟩, 1⟩ small_renderer small_renderer
    (by decide) ⟨1, 1⟩ (by decide) 7 1 (-1) 2 small_statics mandelbrot_set
    (renderer_thread_pool.make 3) [⟨0, 0⟩, ⟨2, 1⟩] (by decide)

/-! ## Claim on the parts of a threaded region render -/

section region_chunks
variable {S α : Type}

theorem worker_parts_flatten (region : List coords) (q : Nat) : ∀ k : Nat,
    ((List.range k).map (fun i => (region.drop (i * q)).take q)).flatten =
      region.take (k * q) := by
  intro k
  induction k with
  | zero => simp
  | succ k ih =>
    rw [List.range_succ, List.map_append, List.flatten_append, ih]
    simp only [List.map_cons, List.map_nil, List.flatten_cons, List.flatten_nil,
      List.append_nil]
    rw [Nat.succ_mul, List.take_add]

theorem region_chunks_flatten (pool : renderer_thread_pool) (region : List coords) :
    (pool.region_chunks region).flatten = region := by
  unfold renderer_thread_pool.region_chunks
  simp only [List.flatten_append, List.flatten_cons, List.flatten_nil, List.append_nil]
  rw [worker_parts_flatten]
  exact List.take_append_drop _ _

theorem threaded_region_state [Add S] [Mul S] [IntCast S] (K : renderer_statics α)
    (set : iterative_set S) (q : Nat) (r : rgb_based_renderer S α) (region : List coords) :
    ∀ k : Nat,
      (List.range k).foldl
        (fun (st : rgb_based_renderer S α × List coords) (_ : Nat) =>
          (render_coords_list K st.1 set (st.2.take q), st.2.drop q)) (r, region) =
      (((List.range k).map (fun i => (region.drop (i * q)).take q)).foldl
          (fun r1 chunk => render_coords_list K r1 set chunk) r,
        region.drop (k * q)) := by
  intro k
  induction k with
  | zero => simp
  | succ k ih =>
    rw [List.range_succ, List.foldl_append, ih, List.map_append, List.foldl_append]
    simp only [List.foldl_cons, List.foldl_nil, List.map_cons, List.map_nil, List.drop_drop]
    rw [Nat.succ_mul]

theorem threaded_region_eq_chunks [Add S] [Mul S] [IntCast S] (pool : renderer_thread_pool)
    (K : renderer_statics α) (r : rgb_based_renderer S α) (region : List coords)
    (set : iterative_set S) :
    pool.threaded_render_region_by_iteration K r region set =
      (pool.region_chunks region).foldl (fun r1 chunk => render_coords_list K r1 set chunk) r := by
  unfold renderer_thread_pool.threaded_render_region_by_iteration
    renderer_thread_pool.region_chunks
  simp only []
  rw [threaded_region_state, List.foldl_append]
  rfl

theorem chunk_bound (n N i : Nat) (h : i ≤ N) : i * (n / (N + 1)) ≤ n := by
  calc i * (n / (N + 1)) ≤ (N + 1) * (n / (N + 1)) :=
        Nat.mul_le_mul_right _ (Nat.le_succ_of_le h)
    _ ≤ n := Nat.mul_div_le n (N + 1)

/-- C30. `threaded_render_region_by_iteration` with `N` workers on a region of `n` coordinates
renders the parts `region_chunks` one after the other: there are `N + 1` parts, part `i < N`
(worker `i`) consists of the `q = n / (N + 1)` elements at the positions `i * q + j`, `j < q`,
of the region, the last part (the calling thread) consists of the remaining `n - N * q`
elements from position `N * q` on, which are all `n` when `n < N + 1`, and the parts in their
order make up the region, so every element is rendered once and none is skipped. -/
theorem threaded_render_region_chunks [Add S] [Mul S] [IntCast S] (pool : renderer_thread_pool)
    (K : renderer_statics α) (r : rgb_based_renderer S α) (region : List coords)
    (set : iterative_set S) :
    pool.threaded_render_region_by_iteration K r region set =
      (pool.region_chunks region).foldl
        (fun r1 chunk => render_coords_list K r1 set chunk) r ∧
    (pool.region_chunks region).length = pool.thread_count + 1 ∧
    (∀ i, i < pool.thread_count →
      ∃ chunk, (pool.region_chunks region)[i]? = some chunk ∧
        chunk.length = region.length / (pool.thread_count + 1) ∧
        ∀ j, j < region.length / (pool.thread_count + 1) →
          chunk[j]? = region[i * (region.length / (pool.thread_count + 1)) + j]?) ∧
    (∃ last, (pool.region_chunks region)[pool.thread_count]? = some last ∧
      last = region.drop (pool.thread_count * (region.length / (pool.thread_count + 1))) ∧
      last.length =
        region.length - pool.thread_count * (region.length / (pool.thread_count + 1)) ∧
      (region.length < pool.thread_count + 1 → last = region)) ∧
    (pool.region_chunks region).flatten = region := by
  refine ⟨threaded_region_eq_chunks pool K r region set, ?_, ?_, ?_,
    region_chunks_flatten pool region⟩
  · simp [renderer_thread_pool.region_chunks]
  · intro i hi
    refine ⟨(region.drop (i * (region.length / (pool.thread_count + 1)))).take
      (region.length / (pool.thread_count + 1)), ?_, ?_, ?_⟩
    · unfold renderer_thread_pool.region_chunks
      simp only []
      rw [List.getElem?_append_left (by simpa using hi)]
      simp [hi]
    · rw [List.length_take, List.length_drop]
      have := chunk_bound region.length pool.thread_count (i + 1) hi
      rw [Nat.succ_mul] at this
      omega
    · intro j hj
      rw [List.getElem?_take_of_lt hj, List.getElem?_drop]
  · refine ⟨_, ?_, rfl, ?_, ?_⟩
    · unfold renderer_thread_pool.region_chunks
      simp only []
      rw [List.getElem?_append_right (by simp)]
      simp
    · rw [List.length_drop]
    · intro h
      rw [Nat.div_eq_of_lt h, Nat.mul_zero, List.drop_zero]

end region_chunks

/-! ## Claim on the characters of the ascii renderer -/

section ascii
variable {S : Type}

/-- Writing a character at the position of the iterator and advancing the iterator. -/
theorem write_chars (vals : List Char) : ∀ (pre rest : List Char),
    vals.length ≤ rest.length →
    vals.foldl (fun (st : List Char × Nat) v => (st.1.set st.2 v, st.2 + 1))
        (pre ++ rest, pre.length) =
      (pre ++ vals ++ rest.drop vals.length, pre.length + vals.length) := by
  induction vals with
  | nil => intro pre rest _; simp
  | cons v vs ih =>
    intro pre rest h
    cases rest with
    | nil => simp at h
    | cons c rest1 =>
      rw [List.foldl_cons]
      have e : (pre ++ c :: rest1).set pre.length v = (pre ++ [v]) ++ rest1 := by
        simp [List.set_append]
      have h1 : vs.length ≤ rest1.length := by simpa using h
      simp only [e]
      have e2 : pre.length + 1 = (pre ++ [v]).length := by simp
      rw [e2, ih (pre ++ [v]) rest1 h1]
      simp [Nat.add_assoc, Nat.add_comm 1]

theorem build_chars_row {Resolution : resolution} (self : ascii_renderer S Resolution)
    (y : Int) (st : List Char × Nat) :
    (iota 0 Resolution.width).foldl
        (fun (st : List Char × Nat) x =>
          (if self.get_pixel ⟨x, y⟩ then st.1.set st.2 ascii_renderer.on_character
            else st.1.set st.2 ascii_renderer.off_character, st.2 + 1)) st =
      ((iota 0 Resolution.width).map
          (fun x => ascii_renderer.pixel_char (self.get_pixel ⟨x, y⟩))).foldl
        (fun (st : List Char × Nat) v => (st.1.set st.2 v, st.2 + 1)) st := by
  rw [List.foldl_map]
  congr 1
  funext st x
  unfold ascii_renderer.pixel_char
  cases self.get_pixel ⟨x, y⟩ <;> simp

theorem build_chars_rows {Resolution : resolution} (self : ascii_renderer S Resolution)
    (ys : List Int) : ∀ (pre rest : List Char),
    (ys.flatMap (fun y => (iota 0 Resolution.width).map
        (fun x => ascii_renderer.pixel_char (self.get_pixel ⟨x, y⟩)) ++ ['\n'])).length
      ≤ rest.length →
    ys.foldl
        (fun (st : List Char × Nat) y =>
          let st1 := (iota 0 Resolution.width).foldl
            (fun (st : List Char × Nat) x =>
              (if self.get_pixel ⟨x, y⟩ then st.1.set st.2 ascii_renderer.on_character
                else st.1.set st.2 ascii_renderer.off_character, st.2 + 1))
            st
          (st1.1.set st1.2 '\n', st1.2 + 1))
        (pre ++ rest, pre.length) =
      (pre ++ ys.flatMap (fun y => (iota 0 Resolution.width).map
          (fun x => ascii_renderer.pixel_char (self.get_pixel ⟨x, y⟩)) ++ ['\n']) ++
        rest.drop (ys.flatMap (fun y => (iota 0 Resolution.width).map
          (fun x => ascii_renderer.pixel_char (self.get_pixel ⟨x, y⟩)) ++ ['\n'])).length,
       pre.length + (ys.flatMap (fun y => (iota 0 Resolution.width).map
          (fun x => ascii_renderer.pixel_char (self.get_pixel ⟨x, y⟩)) ++ ['\n'])).length) := by
  induction ys with
  | nil => intro pre rest _; simp
  | cons y ys ih =>
    intro pre rest h
    rw [List.foldl_cons]
    simp only [List.flatMap_cons] at h ⊢
    have hrow : ∀ st : List Char × Nat,
        (((iota 0 Resolution.width).foldl
            (fun (st : List Char × Nat) x =>
              (if self.get_pixel ⟨x, y⟩ then st.1.set st.2 ascii_renderer.on_character
                else st.1.set st.2 ascii_renderer.off_character, st.2 + 1)) st).1.set
          ((iota 0 Resolution.width).foldl
            (fun (st : List Char × Nat) x =>
              (if self.get_pixel ⟨x, y⟩ then st.1.set st.2 ascii_renderer.on_character
                else st.1.set st.2 ascii_renderer.off_character, st.2 + 1)) st).2 '\n',
          ((iota 0 Resolution.width).foldl
            (fun (st : List Char × Nat) x =>
              (if self.get_pixel ⟨x, y⟩ then st.1.set st.2 ascii_renderer.on_character
                else st.1.set st.2 ascii_renderer.off_character, st.2 + 1)) st).2 + 1) =
        ((iota 0 Resolution.width).map
            (fun x => ascii_renderer.pixel_char (self.get_pixel ⟨x, y⟩)) ++ ['\n']).foldl
          (fun (st : List Char × Nat) v => (st.1.set st.2 v, st.2 + 1)) st := by
      intro st
      rw [List.foldl_append, ← build_chars_row]
      rfl
    simp only [hrow]
    have h2 : ((iota 0 Resolution.width).map
        (fun x => ascii_renderer.pixel_char (self.get_pixel ⟨x, y⟩)) ++ ['\n']).length +
        (ys.flatMap (fun y => (iota 0 Resolution.width).map
          (fun x => ascii_renderer.pixel_char (self.get_pixel ⟨x, y⟩)) ++ ['\n'])).length
        ≤ rest.length := by
      simpa only [List.length_append] using h
    generalize (iota 0 Resolution.width).map
        (fun x => ascii_renderer.pixel_char (self.get_pixel ⟨x, y⟩)) ++ ['\n'] = row at h2 ⊢
    rw [write_chars row pre rest (by omega)]
    have e : pre.length + row.length = (pre ++ row).length := by simp
    have h3 : (ys.flatMap (fun y => (iota 0 Resolution.width).map
          (fun x => ascii_renderer.pixel_char (self.get_pixel ⟨x, y⟩)) ++ ['\n'])).length
        ≤ (rest.drop row.length).length := by
      rw [List.length_drop]
      omega
    rw [e, ih _ _ h3]
    generalize (ys.flatMap (fun y => (iota 0 Resolution.width).map
          (fun x => ascii_renderer.pixel_char (self.get_pixel ⟨x, y⟩)) ++ ['\n'])) = tl
    simp only [List.length_append, List.drop_drop, List.append_assoc, Prod.mk.injEq]
    exact ⟨trivial, by omega⟩

theorem length_rows {Resolution : resolution} (f : Int → Int → Char) (ys : List Int) :
    (ys.flatMap (fun y => (iota 0 Resolution.width).map (fun x => f x y) ++ ['\n'])).length =
      ys.length * (Resolution.width.toNat + 1) := by
  induction ys with
  | nil => simp
  | cons y ys ih =>
    simp only [List.flatMap_cons, List.length_append, ih, List.length_map, length_iota,
      List.length_cons, List.length_nil]
    simp only [sub_zero]
    ring

theorem build_chars_eq {Resolution : resolution} (self : ascii_renderer S Resolution)
    (hw : 0 ≤ Resolution.width) (hh : 0 ≤ Resolution.height) :
    self.build_chars =
      (iota 0 Resolution.height).flatMap (fun y => (iota 0 Resolution.width).map
        (fun x => ascii_renderer.pixel_char (self.get_pixel ⟨x, y⟩)) ++ ['\n']) := by
  unfold ascii_renderer.build_chars
  simp only []
  have hlen : ((iota 0 Resolution.height).flatMap (fun y => (iota 0 Resolution.width).map
        (fun x => ascii_renderer.pixel_char (self.get_pixel ⟨x, y⟩)) ++ ['\n'])).length =
      (Resolution.area + Resolution.height).toNat := by
    rw [length_rows (fun x y => ascii_renderer.pixel_char (self.get_pixel ⟨x, y⟩)),
      length_iota]
    unfold resolution.area
    simp only [sub_zero]
    have h1 : ((Resolution.height.toNat * (Resolution.width.toNat + 1) : Nat) : Int) =
        Resolution.width * Resolution.height + Resolution.height := by
      push_cast
      rw [Int.toNat_of_nonneg hw, Int.toNat_of_nonneg hh]
      ring
    omega
  have h := build_chars_rows self (iota 0 Resolution.height) []
    (List.replicate (Resolution.area + Resolution.height).toNat (Char.ofNat 0))
    (by rw [hlen]; simp)
  simp only [List.nil_append, List.length_nil] at h
  rw [h]
  simp only []
  rw [hlen, List.drop_of_length_le (by simp), List.append_nil]

theorem state_fold_set_pixel {Resolution : resolution} (g : coords → Bool)
    (region : List coords) : ∀ self : ascii_renderer S Resolution,
    (region.foldl (fun r c => r.set_pixel c (g c)) self).state =
      region.foldl (fun r c => r.set_pixel c (g c)) self.state := by
  induction region with
  | nil => intro self; rfl
  | cons a l ih => intro self; rw [List.foldl_cons, List.foldl_cons, ih]; rfl

theorem state_render_by_iteration [Add S] [Mul S] [IntCast S] {Resolution : resolution}
    (max_iterations : Nat) (self : ascii_renderer S Resolution) (set : iterative_set S) :
    (self.render_by_iteration max_iterations set).state =
      render_by_iteration (ascii_renderer.statics max_iterations) self.state set :=
  state_fold_set_pixel _ _ self

theorem ascii_get_render_by_iteration [Add S] [Mul S] [IntCast S] {Resolution : resolution}
    (max_iterations : Nat) (self : ascii_renderer S Resolution) (set : iterative_set S)
    (hw : 0 ≤ Resolution.width) (hh : 0 ≤ Resolution.height)
    (hlen : (self._pixels.length : Int) = Resolution.area) (c : coords)
    (hc : Resolution.in_bounds c) :
    (self.render_by_iteration max_iterations set).get_pixel c =
      (set.iterations_before_escape max_iterations
        (self.frame.number_at_screen_coords Resolution c) == max_iterations) := by
  have h := get_render_by_iteration (ascii_renderer.statics max_iterations) self.state set
    ⟨hw, hh, hlen⟩ c hc
  rw [← state_render_by_iteration] at h
  exact h

theorem ascii_chars_after_render [Add S] [Mul S] [IntCast S] (Resolution : resolution)
    (hw : 0 ≤ Resolution.width) (hh : 0 ≤ Resolution.height) (max_iterations : Nat)
    (renderer : ascii_renderer S Resolution)
    (hlen : (renderer._pixels.length : Int) = Resolution.area) (set : iterative_set S) :
    (renderer.render_by_iteration max_iterations set).build_chars =
      (iota 0 Resolution.height).flatMap (fun y =>
        (iota 0 Resolution.width).map (fun x =>
          if set.iterations_before_escape max_iterations
              (renderer.frame.number_at_screen_coords renderer.resolution ⟨x, y⟩) =
                max_iterations
          then '#' else '.') ++ ['\n']) := by
  rw [build_chars_eq _ hw hh]
  refine List.flatMap_congr ?_
  intro y hy
  congr 1
  refine List.map_congr_left ?_
  intro x hx
  rw [ascii_get_render_by_iteration max_iterations renderer set hw hh hlen ⟨x, y⟩
    ⟨(mem_iota.mp hx).1, (mem_iota.mp hx).2, (mem_iota.mp hy).1, (mem_iota.mp hy).2⟩]
  unfold ascii_renderer.pixel_char ascii_renderer.on_character
    ascii_renderer.off_character ascii_renderer.resolution
  by_cases e : set.iterations_before_escape max_iterations
      (renderer.frame.number_at_screen_coords Resolution ⟨x, y⟩) = max_iterations
  · simp [e]
  · simp [e]

/-- C28. For an `ascii_renderer` of a resolution `w × h` with sides that are not negative, with
any frame and any pixels in its array of `w * h` pixels, and for every set: after
`render_by_iteration` the characters of `build_chars()` are `w * h + h` in number and are the
rows `y = 0, …, h - 1` in this order, each row the characters of the pixels `x = 0, …, w - 1`
in this order followed by a newline, where the character of the pixel `(x, y)` is `#` if
`set.iterations_before_escape<max_iterations>(frame.number_at_screen_coords(resolution, (x, y)))`
equals `max_iterations` and `.` otherwise. -/
theorem build_chars_after_render [Add S] [Mul S] [IntCast S] (Resolution : resolution)
    (hw : 0 ≤ Resolution.width) (hh : 0 ≤ Resolution.height) (max_iterations : Nat)
    (renderer : ascii_renderer S Resolution)
    (hlen : (renderer._pixels.length : Int) = Resolution.area) (set : iterative_set S) :
    (((renderer.render_by_iteration max_iterations set).build_chars.length : Nat) : Int) =
      Resolution.width * Resolution.height + Resolution.height ∧
    (renderer.render_by_iteration max_iterations set).build_chars =
      (iota 0 Resolution.height).flatMap (fun y =>
        (iota 0 Resolution.width).map (fun x =>
          if set.iterations_before_escape max_iterations
              (renderer.frame.number_at_screen_coords renderer.resolution ⟨x, y⟩) =
                max_iterations
          then '#' else '.') ++ ['\n']) := by
  refine ⟨?_, ascii_chars_after_render Resolution hw hh max_iterations renderer hlen set⟩
  rw [ascii_chars_after_render Resolution hw hh max_iterations renderer hlen set, length_rows,
    length_iota]
  push_cast
  simp only [sub_zero]
  rw [Int.toNat_of_nonneg hw, Int.toNat_of_nonneg hh]
  ring

end ascii

/-- C28 at resolution 3×2 over the integers with `max_iterations = 5`, for the Mandelbrot set
and the frame with centre `0` and one plane unit per pixel. -/
theorem build_chars_after_render_witness :
    ((((ascii_renderer.make ⟨⟨0, 0⟩, 1⟩ : ascii_renderer Int ⟨3, 2⟩).render_by_iteration 5
        mandelbrot_set).build_chars.length : Nat) : Int) = 3 * 2 + 2 :=
  (build_chars_after_render ⟨3, 2⟩ (by decide) (by decide) 5
    (ascii_renderer.make ⟨⟨0, 0⟩, 1⟩) (by decide) mandelbrot_set).1

/-! ## Claim on the test of the ascii renderer -/

set_option maxRecDepth 1000000 in
/-- The iteration counts of the 625 plane values of the test's frame, computed in binary64:
the count is `max_iterations = 55` at the positions of `golden_pixel` and at no other. -/
theorem test_iterations_golden :
    (iota 0 25).map (fun y => (iota 0 25).map (fun x =>
      decide ((mandelbrot_set : iterative_set binary64).iterations_before_escape 55
        ((frame.complete ⟨25, 25⟩ : frame binary64).number_at_screen_coords ⟨25, 25⟩
          ⟨x, y⟩) = 55))) =
    (iota 0 25).map (fun y => (iota 0 25).map (fun x => decide (test.golden_pixel ⟨x, y⟩))) := by
  decide!

theorem test_iterations_at (x y : Int) (hx : x ∈ iota 0 25) (hy : y ∈ iota 0 25) :
    (mandelbrot_set : iterative_set binary64).iterations_before_escape 55
        ((frame.complete ⟨25, 25⟩ : frame binary64).number_at_screen_coords ⟨25, 25⟩
          ⟨x, y⟩) = 55 ↔ test.golden_pixel ⟨x, y⟩ := by
  have h := List.map_inj_left.mp (List.map_inj_left.mp test_iterations_golden y hy) x hx
  simpa using h

set_option maxRecDepth 1000000 in
/-- C29. The test of `ascii_renderer.hpp`: rendering the Mandelbrot set on the 25×25
`ascii_renderer` with the default complete frame and `max_iterations = 55`, in binary64
arithmetic, gives the characters of the string that `ascii_test` compares with, so
`ascii_test()` is true; and a pixel is set exactly at these positions: column 11 of the rows
7, 8, 16 and 17, columns 9–13 of the rows 9 and 15, columns 8–14 of the rows 10 and 14, columns
5–6 and 8–14 of the rows 11 and 13, and columns 0–13 of row 12. -/
theorem ascii_test_golden_bitmap :
    test.rendered.build_chars = test.golden_chars.toList ∧
    test.ascii_test = true ∧
    ∀ c : coords, resolution.in_bounds ⟨25, 25⟩ c →
      (test.rendered.get_pixel c = true ↔ test.golden_pixel c) := by
  have hchars : test.rendered.build_chars = test.golden_chars.toList := by
    unfold test.rendered
    rw [ascii_chars_after_render ⟨25, 25⟩ (by decide) (by decide) _ _ (by decide)]
    have e : ∀ y ∈ iota 0 25, ((iota 0 25).map (fun x =>
        if (mandelbrot_set : iterative_set binary64).iterations_before_escape
            test.test_ascii_renderer.max_iterations
            ((ascii_renderer.make_default : ascii_renderer binary64 ⟨25, 25⟩).frame.number_at_screen_coords
              (ascii_renderer.make_default : ascii_renderer binary64 ⟨25, 25⟩).resolution ⟨x, y⟩) =
              test.test_ascii_renderer.max_iterations
        then '#' else '.') ++ ['\n']) =
        ((iota 0 25).map (fun x => if test.golden_pixel ⟨x, y⟩ then '#' else '.') ++ ['\n']) := by
      intro y hy
      congr 1
      refine List.map_congr_left ?_
      intro x hx
      have h := test_iterations_at x y hx hy
      by_cases g : test.golden_pixel ⟨x, y⟩
      · rw [if_pos g]
        exact if_pos (h.mpr g)
      · rw [if_neg g]
        exact if_neg (fun k => g (h.mp k))
    show (iota 0 25).flatMap _ = _
    rw [List.flatMap_congr e]
    decide
  refine ⟨hchars, ?_, ?_⟩
  · unfold test.ascii_test
    rw [hchars]
    exact beq_self_eq_true _
  · intro c hc
    unfold test.rendered
    rw [ascii_get_render_by_iteration _ _ _ (by decide) (by decide) (by decide) c hc]
    have h := test_iterations_at c.x c.y (mem_iota.mpr ⟨hc.1, hc.2.1⟩)
      (mem_iota.mpr ⟨hc.2.2.1, hc.2.2.2⟩)
    rw [beq_iff_eq]
    exact h

/-! ## Claims on the colour table -/

section color_table
variable {F D : Type}

/-- Assigning the elements of an array one after the other, as the loop that fills `Colors`
does, gives the array of the assigned values. -/
theorem fill_table {β : Type} (f : Nat → β) (d : β) (n : Nat) :
    ∀ k, k ≤ n →
      (List.range k).foldl (fun colors i => colors.set i (f i)) (List.replicate n d) =
        (List.range k).map f ++ List.replicate (n - k) d := by
  intro k
  induction k with
  | zero => intro _; simp
  | succ k ih =>
    intro hk
    rw [List.range_succ, List.foldl_append, ih (by omega)]
    simp only [List.foldl_cons, List.foldl_nil, List.map_append, List.map_cons, List.map_nil]
    have h1 : n - k = (n - (k + 1)) + 1 := by omega
    rw [h1, List.replicate_succ]
    have h2 : ((List.range k).map f).length = k := by simp
    rw [List.set_append_right _ _ (by omega)]
    simp [h2]

/-- The filled table of `n` elements is the list of the values. -/
theorem fill_table_full {β : Type} (f : Nat → β) (d : β) (n : Nat) :
    (List.range n).foldl (fun colors i => colors.set i (f i)) (List.replicate n d) =
      (List.range n).map f := by
  rw [fill_table f d n n (le_refl n)]
  simp

variable [Add F] [Sub F] [Mul F] [Div F] [IntCast F] [LT F] [LE F]
  [DecidableRel (fun a b : F => a < b)] [DecidableRel (fun a b : F => a ≤ b)]
  [Sub D] [Mul D] [IntCast D]

/-- The array `Colors` of the RGB renderer holds the colour of every iteration count. -/
theorem rgb_colors_eq (bits : bit_cast F) (fns : cmath F D) (M : Nat) :
    rgb_renderer.Colors bits fns M =
      (List.range (M + 1)).map
        (fun i => (lch_color_for_iterations fns M i).rgb bits fns) := by
  unfold rgb_renderer.Colors
  exact fill_table_full _ _ _

/-- The array `Colors` of the RGBA renderer holds the colour of every iteration count. -/
theorem rgba_colors_eq (bits : bit_cast F) (fns : cmath F D) (M : Nat) :
    rgba_renderer.Colors bits fns M =
      (List.range (M + 1)).map
        (fun i => ((lch_color_for_iterations fns M i).rgb bits fns).rgba) := by
  unfold rgba_renderer.Colors
  exact fill_table_full _ _ _

/-- Claim C25: for every bound `M`, `lch_color_for_iterations<M>(M)` is LCH black, the colour
with `L = 0`, `C = 0` and `H = 0`; this includes the bound `M = 0`. -/
theorem lch_color_for_max_iterations_black {F D : Type} [Add F] [Mul F] [Div F] [IntCast F]
    [Sub D] [Mul D] [IntCast D] (fns : cmath F D) (M : Nat) :
    lch_color_for_iterations fns M M = color.lch.black ∧
    lch_color_for_iterations fns 0 0 = color.lch.black ∧
    (color.lch.black : color.lch F) = ⟨((0 : Int) : F), ((0 : Int) : F), ((0 : Int) : F)⟩ := by
  refine ⟨?_, ?_, rfl⟩
  · unfold lch_color_for_iterations
    simp
  · unfold lch_color_for_iterations
    simp

/-- Claim C26: for every bound `M` and every iteration count `i ≤ M`, the table lookup
`color_for_iterations<M>(i)` of the RGB renderer is `lch_color_for_iterations<M>(i).rgb()`,
the table has `M + 1` entries, and the lookup of the RGBA renderer is the same colour with
alpha `0xFF`. -/
theorem color_for_iterations_table (bits : bit_cast F) (fns : cmath F D) (M i : Nat)
    (hi : i ≤ M) :
    rgb_renderer.color_for_iterations bits fns M i =
      (lch_color_for_iterations fns M i).rgb bits fns ∧
    (rgb_renderer.Colors bits fns M).length = M + 1 ∧
    (rgba_renderer.Colors bits fns M).length = M + 1 ∧
    rgba_renderer.color_for_iterations bits fns M i =
      ⟨((lch_color_for_iterations fns M i).rgb bits fns).red,
        ((lch_color_for_iterations fns M i).rgb bits fns).green,
        ((lch_color_for_iterations fns M i).rgb bits fns).blue, 0xFF⟩ ∧
    (rgba_renderer.color_for_iterations bits fns M i).alpha = 0xFF := by
  have h1 : rgb_renderer.color_for_iterations bits fns M i =
      (lch_color_for_iterations fns M i).rgb bits fns := by
    unfold rgb_renderer.color_for_iterations
    rw [rgb_colors_eq, List.getD_eq_getElem _ _ (by simp; omega)]
    simp
  have h2 : rgba_renderer.color_for_iterations bits fns M i =
      ((lch_color_for_iterations fns M i).rgb bits fns).rgba := by
    unfold rgba_renderer.color_for_iterations
    rw [rgba_colors_eq, List.getD_eq_getElem _ _ (by simp; omega)]
    simp
  refine ⟨h1, ?_, ?_, ?_, ?_⟩
  · rw [rgb_colors_eq]; simp
  · rw [rgba_colors_eq]; simp
  · rw [h2]; rfl
  · rw [h2]; rfl

/-- Claim C26 at the bound 3 and the iteration count 1, over binary32. -/
theorem color_for_iterations_table_witness :
    (1 : Nat) ≤ 3 ∧
    rgb_renderer.color_for_iterations binary32.bit_cast first_argument_cmath 3 1 =
      (lch_color_for_iterations first_argument_cmath 3 1).rgb binary32.bit_cast
        first_argument_cmath :=
  ⟨by decide,
    (color_for_iterations_table binary32.bit_cast first_argument_cmath 3 1 (by decide)).1⟩

end color_table

/-! ## Chroma zero, and the loop for two bounds -/

section lch_lab

/-- In binary32 the product of zero with a finite value is zero. -/
theorem binary32_zero_mul (x : binary32) :
    ((0 : Int) : binary32) * x = ((0 : Int) : binary32) := by
  show binary32.round (Int.mul 0 x.mantissa) _ = _
  have h : Int.mul 0 x.mantissa = 0 := Int.zero_mul _
  rw [h]
  rfl

/-- Claim C27: for every luminance `L` and hue `H`, `lch::lab()` of the colour with chroma
`C = 0` is Lab `(L, 0, 0)`, for scalars on which the product of zero with a value is zero; the
colour LCH white `(100, 0, 0)` goes to Lab `(100, 0, 0)`. -/
theorem lch_lab_of_zero_chroma {F D : Type} [Mul F] [Div F] [IntCast F] (fns : cmath F D)
    (hzero : ∀ x : F, ((0 : Int) : F) * x = ((0 : Int) : F)) (L H : F) :
    color.lch.lab fns ⟨L, ((0 : Int) : F), H⟩ = ⟨L, ((0 : Int) : F), ((0 : Int) : F)⟩ ∧
    color.lch.lab fns (color.lch.white : color.lch F) =
      ⟨((100 : Int) : F), ((0 : Int) : F), ((0 : Int) : F)⟩ := by
  constructor
  · unfold color.lch.lab
    simp only [hzero]
  · unfold color.lch.lab color.lch.white
    simp only [hzero]

/-- Claim C27 over binary32, for any functions in the place of `std::cos` and `std::sin`, at
luminance 100 and hue 0. -/
theorem lch_lab_of_zero_chroma_witness :
    (∀ x : binary32, ((0 : Int) : binary32) * x = ((0 : Int) : binary32)) ∧
    color.lch.lab first_argument_cmath
        (⟨((100 : Int) : binary32), ((0 : Int) : binary32), ((0 : Int) : binary32)⟩ :
          color.lch binary32) =
      ⟨((100 : Int) : binary32), ((0 : Int) : binary32), ((0 : Int) : binary32)⟩ :=
  ⟨binary32_zero_mul,
    (lch_lab_of_zero_chroma first_argument_cmath binary32_zero_mul ((100 : Int) : binary32)
      ((0 : Int) : binary32)).1⟩

end lch_lab

section bounds
variable {S : Type} [Add S] [Sub S] [Mul S] [IntCast S] [LT S]
  [DecidableRel (fun a b : S => a < b)]

/-- The loop never returns less than the index at which it is entered. -/
theorem escape_loop_ge (M : Nat) (num : complex S) :
    ∀ (remaining i : Nat) (z : complex S) (rs is : S), i + remaining = M →
      i ≤ escape_loop M num remaining i z rs is := by
  intro remaining
  induction remaining with
  | zero => intro i z rs is h; simp only [escape_loop]; omega
  | succ n ih =>
    intro i z rs is h
    simp only [escape_loop]
    split
    · exact le_refl i
    · exact le_trans (Nat.le_succ i) (ih (i + 1) _ _ _ (by omega))

/-- The loop with the bound `M` returns the smaller of `M` and what the loop with a bound
`M' ≥ M` returns, when both are entered at the same index with the same values. -/
theorem escape_loop_min (M M' : Nat) (num : complex S) (hM : M ≤ M') :
    ∀ (remaining remaining' i : Nat) (z : complex S) (rs is : S), i + remaining = M →
      i + remaining' = M' →
      escape_loop M num remaining i z rs is =
        min M (escape_loop M' num remaining' i z rs is) := by
  intro remaining
  induction remaining with
  | zero =>
    intro remaining' i z rs is h h'
    have := escape_loop_ge M' num remaining' i z rs is h'
    simp only [escape_loop]
    omega
  | succ n ih =>
    intro remaining' i z rs is h h'
    cases remaining' with
    | zero => omega
    | succ n' =>
      simp only [escape_loop]
      split
      · omega
      · exact ih n' (i + 1) _ _ _ (by omega) (by omega)

end bounds

/-! ## Claims on the bound of the evaluators -/

section evaluators
variable {S : Type} [Add S] [Sub S] [Mul S] [IntCast S] [LT S]
  [DecidableRel (fun a b : S => a < b)]

/-- A count of at most `M` is an index into both colour tables, and the lookup returns the
element at that index. -/
theorem lookup_in_bounds {F D : Type} [Add F] [Sub F] [Mul F] [Div F] [IntCast F] [LT F]
    [LE F] [DecidableRel (fun a b : F => a < b)] [DecidableRel (fun a b : F => a ≤ b)]
    [Sub D] [Mul D] [IntCast D] (bits : bit_cast F) (fns : cmath F D) (M n : Nat)
    (hle : n ≤ M) :
    n < (rgb_renderer.Colors bits fns M).length ∧
    n < (rgba_renderer.Colors bits fns M).length ∧
    (rgb_renderer.Colors bits fns M)[n]? =
      some (rgb_renderer.color_for_iterations bits fns M n) ∧
    (rgba_renderer.Colors bits fns M)[n]? =
      some (rgba_renderer.color_for_iterations bits fns M n) := by
  have h1 : (rgb_renderer.Colors bits fns M).length = M + 1 := by
    unfold rgb_renderer.Colors
    rw [fill_table_full]
    simp
  have h2 : (rgba_renderer.Colors bits fns M).length = M + 1 := by
    unfold rgba_renderer.Colors
    rw [fill_table_full]
    simp
  refine ⟨by omega, by omega, ?_, ?_⟩
  · show _ = some ((rgb_renderer.Colors bits fns M).getD n default)
    rw [List.getD_eq_getElem _ _ (by omega), List.getElem?_eq_getElem]
  · show _ = some ((rgba_renderer.Colors bits fns M).getD n default)
    rw [List.getD_eq_getElem _ _ (by omega), List.getElem?_eq_getElem]

/-- Claim C34: for the RGB and RGBA renderers with any bound `M`, any frame, any coordinates
and either set, `render_by_iteration_at` passes to `color_for_iterations<M>` the count of the
evaluator for the bound `M`, this count is at most `M`, and the lookup `Colors[iterations]` is
inside the table of `M + 1` entries. -/
theorem color_lookup_in_bounds {F D : Type} [Add F] [Sub F] [Mul F] [Div F] [IntCast F] [LT F]
    [LE F] [DecidableRel (fun a b : F => a < b)] [DecidableRel (fun a b : F => a ≤ b)]
    [Sub D] [Mul D] [IntCast D] (bits : bit_cast F) (fns : cmath F D) (M : Nat)
    (r : rgb_based_renderer S color.rgb) (ra : rgb_based_renderer S color.rgba) (c : coords)
    (constant num : complex S) :
    (∀ set : iterative_set S,
      render_by_iteration_at (rgb_renderer.statics bits fns M) r c set =
        r.set_pixel c (rgb_renderer.color_for_iterations bits fns M
          (set.iterations_before_escape M (r.frame.number_at_screen_coords r.resolution c))) ∧
      render_by_iteration_at (rgba_renderer.statics bits fns M) ra c set =
        ra.set_pixel c (rgba_renderer.color_for_iterations bits fns M
          (set.iterations_before_escape M
            (ra.frame.number_at_screen_coords ra.resolution c)))) ∧
    mandelbrot_set.iterations_before_escape M num ≤ M ∧
    (quadratic_julia_set constant).iterations_before_escape M num ≤ M ∧
    (rgb_renderer.Colors bits fns M).length = M + 1 ∧
    (rgba_renderer.Colors bits fns M).length = M + 1 ∧
    mandelbrot_set.iterations_before_escape M num < (rgb_renderer.Colors bits fns M).length ∧
    mandelbrot_set.iterations_before_escape M num < (rgba_renderer.Colors bits fns M).length ∧
    (quadratic_julia_set constant).iterations_before_escape M num <
      (rgb_renderer.Colors bits fns M).length ∧
    (quadratic_julia_set constant).iterations_before_escape M num <
      (rgba_renderer.Colors bits fns M).length ∧
    (rgb_renderer.Colors bits fns M)[mandelbrot_set.iterations_before_escape M num]? =
      some (rgb_renderer.color_for_iterations bits fns M
        (mandelbrot_set.iterations_before_escape M num)) ∧
    (rgba_renderer.Colors bits fns M)[mandelbrot_set.iterations_before_escape M num]? =
      some (rgba_renderer.color_for_iterations bits fns M
        (mandelbrot_set.iterations_before_escape M num)) ∧
    (rgb_renderer.Colors bits fns M)[(quadratic_julia_set
        constant).iterations_before_escape M num]? =
      some (rgb_renderer.color_for_iterations bits fns M
        ((quadratic_julia_set constant).iterations_before_escape M num)) ∧
    (rgba_renderer.Colors bits fns M)[(quadratic_julia_set
        constant).iterations_before_escape M num]? =
      some (rgba_renderer.color_for_iterations bits fns M
        ((quadratic_julia_set constant).iterations_before_escape M num)) := by
  have hm : mandelbrot_set.iterations_before_escape M num ≤ M :=
    escape_loop_le M _ M 0 _ _ _ (by omega)
  have hj : (quadratic_julia_set constant).iterations_before_escape M num ≤ M :=
    escape_loop_le M _ M 0 _ _ _ (by omega)
  obtain ⟨m1, m2, m3, m4⟩ := lookup_in_bounds bits fns M _ hm
  obtain ⟨j1, j2, j3, j4⟩ := lookup_in_bounds bits fns M _ hj
  have h1 : (rgb_renderer.Colors bits fns M).length = M + 1 := by
    unfold rgb_renderer.Colors
    rw [fill_table_full]
    simp
  have h2 : (rgba_renderer.Colors bits fns M).length = M + 1 := by
    unfold rgba_renderer.Colors
    rw [fill_table_full]
    simp
  exact ⟨fun _ => ⟨rfl, rfl⟩, hm, hj, h1, h2, m1, m2, j1, j2, m3, m4, j3, j4⟩

/-- Claim C35: for every bound `M` and every complex `c`, the Mandelbrot evaluator at `c`
returns what the quadratic Julia evaluator with the constant `c` returns at the origin, for
scalars on which `0 * 0 = 0`. -/
theorem mandelbrot_eq_julia_at_origin (M : Nat) (c : complex S)
    (h0 : ((0 : Int) : S) * ((0 : Int) : S) = ((0 : Int) : S)) :
    mandelbrot_set.iterations_before_escape M c =
      (quadratic_julia_set c).iterations_before_escape M complex.zero := by
  show escape_loop M c M 0 complex.zero ((0 : Int) : S) ((0 : Int) : S) =
    escape_loop M c M 0 complex.zero
      ((complex.zero : complex S).real * (complex.zero : complex S).real)
      ((complex.zero : complex S).imag * (complex.zero : complex S).imag)
  simp only [complex.zero, h0]

/-- Claim C35 over binary64, at `c = 1 + 0i` and the bound 5. -/
theorem mandelbrot_eq_julia_at_origin_witness :
    ((0 : Int) : binary64) * ((0 : Int) : binary64) = ((0 : Int) : binary64) ∧
    (mandelbrot_set : iterative_set binary64).iterations_before_escape 5 ⟨⟨1, 0⟩, ⟨0, 0⟩⟩ =
      (quadratic_julia_set (⟨⟨1, 0⟩, ⟨0, 0⟩⟩ : complex binary64)).iterations_before_escape 5
        complex.zero :=
  ⟨rfl, mandelbrot_eq_julia_at_origin 5 (⟨⟨1, 0⟩, ⟨0, 0⟩⟩ : complex binary64) rfl⟩

/-- Claim C36: for bounds `M ≤ M'`, every point and either set,
`iterations_before_escape<M>(p) = min(M, iterations_before_escape<M'>(p))`; a count below `M`
is the count for `M'` too, and a point that is interior for `M'` is interior for `M`. -/
theorem iterations_before_escape_min (M M' : Nat) (hM : M ≤ M') (p constant : complex S) :
    mandelbrot_set.iterations_before_escape M p =
      min M (mandelbrot_set.iterations_before_escape M' p) ∧
    (quadratic_julia_set constant).iterations_before_escape M p =
      min M ((quadratic_julia_set constant).iterations_before_escape M' p) ∧
    (mandelbrot_set.iterations_before_escape M p < M →
      mandelbrot_set.iterations_before_escape M' p =
        mandelbrot_set.iterations_before_escape M p) ∧
    ((quadratic_julia_set constant).iterations_before_escape M p < M →
      (quadratic_julia_set constant).iterations_before_escape M' p =
        (quadratic_julia_set constant).iterations_before_escape M p) ∧
    (mandelbrot_set.iterations_before_escape M' p = M' →
      mandelbrot_set.iterations_before_escape M p = M) ∧
    ((quadratic_julia_set constant).iterations_before_escape M' p = M' →
      (quadratic_julia_set constant).iterations_before_escape M p = M) := by
  have hm : mandelbrot_set.iterations_before_escape M p =
      min M (mandelbrot_set.iterations_before_escape M' p) :=
    escape_loop_min M M' _ hM M M' 0 _ _ _ (by omega) (by omega)
  have hj : (quadratic_julia_set constant).iterations_before_escape M p =
      min M ((quadratic_julia_set constant).iterations_before_escape M' p) :=
    escape_loop_min M M' _ hM M M' 0 _ _ _ (by omega) (by omega)
  refine ⟨hm, hj, ?_, ?_, ?_, ?_⟩
  · intro h; omega
  · intro h; omega
  · intro h; omega
  · intro h; omega

/-- Claim C36 over the integers, at the bounds 2 and 5 and the point `2 + 0i`. -/
theorem iterations_before_escape_min_witness :
    (2 : Nat) ≤ 5 ∧
    (mandelbrot_set : iterative_set Int).iterations_before_escape 2 ⟨2, 0⟩ =
      min 2 ((mandelbrot_set : iterative_set Int).iterations_before_escape 5 ⟨2, 0⟩) :=
  ⟨by decide,
    (iterations_before_escape_min 2 5 (by decide) (⟨2, 0⟩ : complex Int) ⟨0, 0⟩).1⟩

end evaluators

/-! ## Claim on the order of the chunks -/

section order
variable {S α : Type}

variable [Add S] [Mul S] [IntCast S]

end order

/-! ## Claim on the plane values of the translated frame -/

section translated_frame
variable {S α : Type}

/-- Claim C33: over exact arithmetic, after `translate_frame_by_coords(ox, oy)` the plane value
of a pixel `p` is the plane value that the pixel `p + (ox, oy)` had before the call; so after
the call of the viewer with `(-dx, -dy)` the plane value of `p` is the one that `p - (dx, dy)`
had, and `p - (dx, dy)` is the pixel whose colour `translate_pixels_by_coords(dx, dy)` moves
to `p`. -/
theorem translated_frame_plane_value [Ring S] [Inhabited α] (r : rgb_based_renderer S α)
    (ox oy dx dy : Int) (p : coords) :
    (r.translate_frame_by_coords ox oy).frame.number_at_screen_coords
        (r.translate_frame_by_coords ox oy).resolution p =
      r.frame.number_at_screen_coords r.resolution ⟨p.x + ox, p.y + oy⟩ ∧
    (viewer_translate_frame r dx dy).frame.number_at_screen_coords
        (viewer_translate_frame r dx dy).resolution p =
      r.frame.number_at_screen_coords r.resolution ⟨p.x - dx, p.y - dy⟩ ∧
    (r.valid → coord_abs dx < r.resolution.width → coord_abs dy < r.resolution.height →
      r.resolution.in_bounds p → r.resolution.in_bounds ⟨p.x - dx, p.y - dy⟩ →
      (r.translate_pixels_by_coords dx dy).get_pixel p = r.get_pixel ⟨p.x - dx, p.y - dy⟩) := by
  refine ⟨number_at_translate_frame r ox oy r._resolution p, ?_, ?_⟩
  · have h := number_at_translate_frame r (-dx) (-dy) r._resolution p
    rw [← Int.sub_eq_add_neg, ← Int.sub_eq_add_neg] at h
    exact h
  · intro hv hx hy hp hq
    have h := translate_pixels_get r dx dy hv hx hy p hp
    rw [h]
    exact if_pos hq

/-- Claim C33 for the renderer of resolution 3×2 over the integers, the offset `(1, 0)` and
the pixel `(1, 0)`. -/
theorem translated_frame_plane_value_witness :
    small_renderer.valid ∧ coord_abs 1 < small_renderer.resolution.width ∧
    coord_abs 0 < small_renderer.resolution.height ∧
    small_renderer.resolution.in_bounds ⟨1, 0⟩ ∧
    small_renderer.resolution.in_bounds ⟨1 - 1, 0 - 0⟩ ∧
    (small_renderer.translate_pixels_by_coords 1 0).get_pixel ⟨1, 0⟩ =
      small_renderer.get_pixel ⟨1 - 1, 0 - 0⟩ :=
  ⟨by decide, by decide, by decide, by decide, by decide,
    (translated_frame_plane_value small_renderer 0 0 1 0 ⟨1, 0⟩).2.2 (by decide) (by decide)
      (by decide) (by decide) (by decide)⟩

end translated_frame

/-! ## Claim on the real segment of the Mandelbrot set -/

section real_segment
variable {S : Type} [LinearOrderedField S]

/-- For a real constant `c` in `[-2, 1/4]` every value of the orbit of `0` is real and its
square is at most `4`. -/
theorem orbit_real_segment (c : complex S) (hlo : -2 ≤ c.real) (hhi : c.real ≤ 1 / 4)
    (him : c.imag = 0) :
    ∀ n, (orbit c complex.zero n).imag = 0 ∧
      (orbit c complex.zero n).real * (orbit c complex.zero n).real ≤ 4 := by
  have key : ∀ n, (orbit c complex.zero n).imag = 0 ∧
      ((c.real ≤ 0 → c.real ≤ (orbit c complex.zero n).real ∧
          (orbit c complex.zero n).real ≤ -c.real) ∧
        (0 ≤ c.real → 0 ≤ (orbit c complex.zero n).real ∧
          (orbit c complex.zero n).real ≤ 1 / 2)) := by
    intro n
    induction n with
    | zero =>
      simp only [orbit, complex.zero, Int.cast_zero]
      refine ⟨trivial, ?_, ?_⟩
      · intro h; constructor <;> linarith
      · intro _; constructor <;> norm_num
    | succ n ih =>
      obtain ⟨hi, h1, h2⟩ := ih
      simp only [orbit, complex.sq, complex.add]
      generalize orbit c complex.zero n = z at hi h1 h2
      refine ⟨?_, ?_, ?_⟩
      · rw [hi, him]; simp
      · intro hc
        obtain ⟨a, b⟩ := h1 hc
        rw [hi]
        constructor
        · nlinarith [mul_self_nonneg z.real]
        · nlinarith [mul_self_nonneg z.real]
      · intro hc
        obtain ⟨a, b⟩ := h2 hc
        rw [hi]
        constructor
        · nlinarith [mul_self_nonneg z.real]
        · nlinarith [mul_self_nonneg z.real]
  intro n
  obtain ⟨hi, h1, h2⟩ := key n
  refine ⟨hi, ?_⟩
  rcases le_total c.real 0 with hc | hc
  · obtain ⟨a, b⟩ := h1 hc
    nlinarith
  · obtain ⟨a, b⟩ := h2 hc
    nlinarith

/-- The evaluator returns the bound for a real constant in `[-2, 1/4]`. -/
theorem mandelbrot_real_segment (M : Nat) (c : complex S) (hlo : -2 ≤ c.real)
    (hhi : c.real ≤ 1 / 4) (him : c.imag = 0) :
    mandelbrot_set_t.iterations_before_escape M c = M := by
  obtain ⟨a1, _, a3⟩ := mandelbrot_spec_aux M c (by simp)
  by_contra hne
  have hlt : mandelbrot_set_t.iterations_before_escape M c < M := lt_of_le_of_ne a1 hne
  have hesc := a3 hlt
  obtain ⟨hi, hr⟩ := orbit_real_segment c hlo hhi him
    (mandelbrot_set_t.iterations_before_escape M c + 1)
  unfold escaped EscapeMagnitudeSquared complex.norm_sq at hesc
  rw [hi] at hesc
  have : ((2 : Int) : S) * ((2 : Int) : S) = 4 := by push_cast; norm_num
  rw [this] at hesc
  simp only [mul_zero, add_zero] at hesc
  exact absurd hesc (not_lt.mpr hr)

/-- Claim C38: over exact arithmetic (a linearly ordered field of scalars), for every bound `M`
and every real point `c` with `-2 ≤ c ≤ 1/4` the Mandelbrot evaluator returns `M`; the plane
values of the columns 0 to 13 of the middle row of the 25×25 picture with the default frame,
`(x - 12) · 4/25`, are such points. -/
theorem mandelbrot_real_segment_interior (M : Nat) (c : complex S) (hlo : -2 ≤ c.real)
    (hhi : c.real ≤ 1 / 4) (him : c.imag = 0) :
    mandelbrot_set.iterations_before_escape M c = M ∧
    (∀ x : Int, 0 ≤ x → x ≤ 13 →
      (frame.complete ⟨25, 25⟩ : frame S).number_at_screen_coords ⟨25, 25⟩ ⟨x, 12⟩ =
        ⟨((x : S) - 12) * (4 / 25), 0⟩ ∧
      mandelbrot_set.iterations_before_escape M
        ((frame.complete ⟨25, 25⟩ : frame S).number_at_screen_coords ⟨25, 25⟩ ⟨x, 12⟩) = M) := by
  refine ⟨mandelbrot_real_segment M c hlo hhi him, ?_⟩
  intro x hx0 hx13
  have e : (frame.complete ⟨25, 25⟩ : frame S).number_at_screen_coords ⟨25, 25⟩ ⟨x, 12⟩ =
      ⟨((x : S) - 12) * (4 / 25), 0⟩ := by
    unfold frame.complete frame.number_at_screen_coords resolution.to_graphwise_coord
      resolution.min_length complex.add complex.scale complex.zero
    have h1 : Int.tdiv 25 2 = 12 := by decide
    have h2 : min (25 : Int) 25 = 25 := by decide
    simp only [h1, h2]
    refine congrArg₂ complex.mk ?_ ?_
    · push_cast
      ring
    · push_cast
      ring
  refine ⟨e, ?_⟩
  rw [e]
  have a : (0 : S) ≤ (x : S) := by exact_mod_cast hx0
  have b : (x : S) ≤ 13 := by exact_mod_cast hx13
  refine mandelbrot_real_segment M _ ?_ ?_ rfl
  · show (-2 : S) ≤ ((x : S) - 12) * (4 / 25)
    linarith
  · show ((x : S) - 12) * (4 / 25) ≤ 1 / 4
    linarith

/-- Claim C38 over the rational numbers, at `c = -1` and the bound 10. -/
theorem mandelbrot_real_segment_interior_witness :
    (-2 : ℚ) ≤ (⟨-1, 0⟩ : complex ℚ).real ∧ (⟨-1, 0⟩ : complex ℚ).real ≤ 1 / 4 ∧
    (⟨-1, 0⟩ : complex ℚ).imag = 0 ∧
    mandelbrot_set.iterations_before_escape 10 (⟨-1, 0⟩ : complex ℚ) = 10 :=
  ⟨by norm_num, by norm_num, rfl,
    (mandelbrot_real_segment_interior 10 (⟨-1, 0⟩ : complex ℚ) (by norm_num) (by norm_num)
      rfl).1⟩

end real_segment

/-! ## The matrices over a field -/

section matrices
variable {F : Type} [Field F]

theorem range_two : List.range 2 = [0, 1] := rfl

theorem range_three : List.range 3 = [0, 1, 2] := rfl

/-- The product of a `matrix<2, 2>` with a vector, element by element. -/
theorem multiply_vector_2_2 (a b c d v0 v1 : F) :
    (⟨[a, b, c, d]⟩ : color.impl.matrix_2_2 F).multiply_vector [v0, v1] =
      [v0 * a + v1 * b, v0 * c + v1 * d] := by
  simp [color.impl.matrix_2_2.multiply_vector, color.impl.matrix_2_2.get, range_two]

/-- The product of a `matrix<3, 3>` with a vector, element by element. -/
theorem multiply_vector_3_3 (a b c d e f g h i v0 v1 v2 : F) :
    (⟨[a, b, c, d, e, f, g, h, i]⟩ : color.impl.matrix_3_3 F).multiply_vector [v0, v1, v2] =
      [v0 * a + v1 * b + v2 * c, v0 * d + v1 * e + v2 * f, v0 * g + v1 * h + v2 * i] := by
  simp [color.impl.matrix_3_3.multiply_vector, color.impl.matrix_3_3.get, range_three]

theorem determinant_2_2 (a b c d : F) :
    (⟨[a, b, c, d]⟩ : color.impl.matrix_2_2 F).determinant = a * d - c * b := by
  simp [color.impl.matrix_2_2.determinant, color.impl.matrix_2_2.get]

theorem determinant_3_3 (a b c d e f g h i : F) :
    (⟨[a, b, c, d, e, f, g, h, i]⟩ : color.impl.matrix_3_3 F).determinant =
      a * (e * i - h * f) - b * (d * i - g * f) + c * (d * h - g * e) := by
  simp [color.impl.matrix_3_3.determinant, color.impl.matrix_3_3.get, determinant_2_2]

theorem inverse_2_2 (a b c d : F) :
    (⟨[a, b, c, d]⟩ : color.impl.matrix_2_2 F).inverse =
      ⟨[1 / (a * d - c * b) * d, 1 / (a * d - c * b) * -b, 1 / (a * d - c * b) * -c,
        1 / (a * d - c * b) * a]⟩ := by
  simp [color.impl.matrix_2_2.inverse, color.impl.matrix_2_2.scale, color.impl.matrix_2_2.get,
    determinant_2_2]

theorem inverse_3_3 (a b c d e f g h i : F) :
    (⟨[a, b, c, d, e, f, g, h, i]⟩ : color.impl.matrix_3_3 F).inverse =
      ⟨[1 / (a * (e * i - h * f) - b * (d * i - g * f) + c * (d * h - g * e)) * (e * i - h * f),
        1 / (a * (e * i - h * f) - b * (d * i - g * f) + c * (d * h - g * e)) * (c * h - i * b),
        1 / (a * (e * i - h * f) - b * (d * i - g * f) + c * (d * h - g * e)) * (b * f - e * c),
        1 / (a * (e * i - h * f) - b * (d * i - g * f) + c * (d * h - g * e)) * (f * g - i * d),
        1 / (a * (e * i - h * f) - b * (d * i - g * f) + c * (d * h - g * e)) * (a * i - g * c),
        1 / (a * (e * i - h * f) - b * (d * i - g * f) + c * (d * h - g * e)) * (c * d - f * a),
        1 / (a * (e * i - h * f) - b * (d * i - g * f) + c * (d * h - g * e)) * (d * h - g * e),
        1 / (a * (e * i - h * f) - b * (d * i - g * f) + c * (d * h - g * e)) * (b * g - h * a),
        1 / (a * (e * i - h * f) - b * (d * i - g * f) + c * (d * h - g * e)) *
          (a * e - d * b)]⟩ := by
  simp [color.impl.matrix_3_3.inverse, color.impl.matrix_3_3.scale, color.impl.matrix_3_3.get,
    determinant_2_2, determinant_3_3]

theorem list_of_length_two {β : Type} (l : List β) (h : l.length = 2) :
    ∃ a b, l = [a, b] := by
  match l, h with
  | [a, b], _ => exact ⟨a, b, rfl⟩

theorem list_of_length_three {β : Type} (l : List β) (h : l.length = 3) :
    ∃ a b c, l = [a, b, c] := by
  match l, h with
  | [a, b, c], _ => exact ⟨a, b, c, rfl⟩

theorem list_of_length_four {β : Type} (l : List β) (h : l.length = 4) :
    ∃ a b c d, l = [a, b, c, d] := by
  match l, h with
  | [a, b, c, d], _ => exact ⟨a, b, c, d, rfl⟩

theorem list_of_length_nine {β : Type} (l : List β) (h : l.length = 9) :
    ∃ a b c d e f g h i, l = [a, b, c, d, e, f, g, h, i] := by
  match l, h with
  | [a, b, c, d, e, f, g, h, i], _ => exact ⟨a, b, c, d, e, f, g, h, i, rfl⟩

/-- The inverse of a `matrix<2, 2>` with a determinant other than zero undoes the product with
the matrix. -/
theorem inverse_multiply_2_2 (a b c d v0 v1 : F) (hdet : a * d - c * b ≠ 0) :
    (⟨[a, b, c, d]⟩ : color.impl.matrix_2_2 F).inverse.multiply_vector
        ((⟨[a, b, c, d]⟩ : color.impl.matrix_2_2 F).multiply_vector [v0, v1]) = [v0, v1] := by
  rw [multiply_vector_2_2, inverse_2_2, multiply_vector_2_2]
  congr 1
  · field_simp
    ring
  · congr 1
    field_simp
    ring

/-- The inverse of a `matrix<3, 3>` with a determinant other than zero undoes the product with
the matrix. -/
theorem inverse_multiply_3_3 (a b c d e f g h i v0 v1 v2 : F)
    (hdet : a * (e * i - h * f) - b * (d * i - g * f) + c * (d * h - g * e) ≠ 0) :
    (⟨[a, b, c, d, e, f, g, h, i]⟩ : color.impl.matrix_3_3 F).inverse.multiply_vector
        ((⟨[a, b, c, d, e, f, g, h, i]⟩ : color.impl.matrix_3_3 F).multiply_vector
          [v0, v1, v2]) = [v0, v1, v2] := by
  rw [multiply_vector_3_3, inverse_3_3, multiply_vector_3_3]
  congr 1
  · field_simp
    ring
  · congr 1
    · field_simp
      ring
    · congr 1
      field_simp
      ring

end matrices

/-! ## Claim on the inverse of a matrix -/

section matrix_claim
variable {F : Type} [Field F]

/-- Claim C40: over exact arithmetic (a field of scalars), for a `matrix<2, 2>` and a
`matrix<3, 3>` whose determinant is not zero, `inverse().multiply_vector` undoes
`multiply_vector` on every vector; `determinant()` is the cofactor expansion along the first
row, and the elements of `inverse()` are those of the adjugate divided by the determinant. -/
theorem matrix_inverse_multiply_vector (A : color.impl.matrix_2_2 F)
    (B : color.impl.matrix_3_3 F) (v w : List F) (hA : A._elements.length = 4)
    (hB : B._elements.length = 9) (hv : v.length = 2) (hw : w.length = 3) :
    (A.determinant ≠ 0 → A.inverse.multiply_vector (A.multiply_vector v) = v) ∧
    (B.determinant ≠ 0 → B.inverse.multiply_vector (B.multiply_vector w) = w) ∧
    A.determinant = A.get 0 0 * A.get 1 1 - A.get 1 0 * A.get 0 1 ∧
    B.determinant =
      B.get 0 0 * (B.get 1 1 * B.get 2 2 - B.get 2 1 * B.get 1 2) -
        B.get 0 1 * (B.get 1 0 * B.get 2 2 - B.get 2 0 * B.get 1 2) +
        B.get 0 2 * (B.get 1 0 * B.get 2 1 - B.get 2 0 * B.get 1 1) ∧
    A.inverse._elements =
      [A.get 1 1 / A.determinant, -A.get 0 1 / A.determinant,
        -A.get 1 0 / A.determinant, A.get 0 0 / A.determinant] ∧
    B.inverse._elements =
      [(B.get 1 1 * B.get 2 2 - B.get 2 1 * B.get 1 2) / B.determinant,
        -(B.get 0 1 * B.get 2 2 - B.get 2 1 * B.get 0 2) / B.determinant,
        (B.get 0 1 * B.get 1 2 - B.get 1 1 * B.get 0 2) / B.determinant,
        -(B.get 1 0 * B.get 2 2 - B.get 2 0 * B.get 1 2) / B.determinant,
        (B.get 0 0 * B.get 2 2 - B.get 2 0 * B.get 0 2) / B.determinant,
        -(B.get 0 0 * B.get 1 2 - B.get 1 0 * B.get 0 2) / B.determinant,
        (B.get 1 0 * B.get 2 1 - B.get 2 0 * B.get 1 1) / B.determinant,
        -(B.get 0 0 * B.get 2 1 - B.get 2 0 * B.get 0 1) / B.determinant,
        (B.get 0 0 * B.get 1 1 - B.get 1 0 * B.get 0 1) / B.determinant] := by
  obtain ⟨A⟩ := A
  obtain ⟨B⟩ := B
  obtain ⟨a, b, c, d, rfl⟩ := list_of_length_four A hA
  obtain ⟨a', b', c', d', e', f', g', h', i', rfl⟩ := list_of_length_nine B hB
  obtain ⟨v0, v1, rfl⟩ := list_of_length_two v hv
  obtain ⟨w0, w1, w2, rfl⟩ := list_of_length_three w hw
  refine ⟨?_, ?_, ?_, ?_, ?_, ?_⟩
  · intro hdet
    rw [determinant_2_2] at hdet
    exact inverse_multiply_2_2 a b c d v0 v1 hdet
  · intro hdet
    rw [determinant_3_3] at hdet
    exact inverse_multiply_3_3 a' b' c' d' e' f' g' h' i' w0 w1 w2 hdet
  · rfl
  · rw [determinant_3_3]
    rfl
  · rw [inverse_2_2, determinant_2_2]
    show _ = [d / (a * d - c * b), -b / (a * d - c * b), -c / (a * d - c * b),
      a / (a * d - c * b)]
    simp only [List.cons.injEq, and_true]
    refine ⟨?_, ?_, ?_, ?_⟩ <;> ring
  · rw [inverse_3_3, determinant_3_3]
    have e00 : (⟨[a', b', c', d', e', f', g', h', i']⟩ : color.impl.matrix_3_3 F).get 0 0 = a' :=
      rfl
    have e01 : (⟨[a', b', c', d', e', f', g', h', i']⟩ : color.impl.matrix_3_3 F).get 0 1 = b' :=
      rfl
    have e02 : (⟨[a', b', c', d', e', f', g', h', i']⟩ : color.impl.matrix_3_3 F).get 0 2 = c' :=
      rfl
    have e10 : (⟨[a', b', c', d', e', f', g', h', i']⟩ : color.impl.matrix_3_3 F).get 1 0 = d' :=
      rfl
    have e11 : (⟨[a', b', c', d', e', f', g', h', i']⟩ : color.impl.matrix_3_3 F).get 1 1 = e' :=
      rfl
    have e12 : (⟨[a', b', c', d', e', f', g', h', i']⟩ : color.impl.matrix_3_3 F).get 1 2 = f' :=
      rfl
    have e20 : (⟨[a', b', c', d', e', f', g', h', i']⟩ : color.impl.matrix_3_3 F).get 2 0 = g' :=
      rfl
    have e21 : (⟨[a', b', c', d', e', f', g', h', i']⟩ : color.impl.matrix_3_3 F).get 2 1 = h' :=
      rfl
    have e22 : (⟨[a', b', c', d', e', f', g', h', i']⟩ : color.impl.matrix_3_3 F).get 2 2 = i' :=
      rfl
    simp only [e00, e01, e02, e10, e11, e12, e20, e21, e22, List.cons.injEq, and_true]
    refine ⟨?_, ?_, ?_, ?_, ?_, ?_, ?_, ?_, ?_⟩ <;> ring

/-- Claim C40 over the rational numbers, at the matrices `[1, 2; 3, 4]` and
`[2, 0, 1; 1, 3, 0; 0, 1, 4]` and the vectors `(5, 6)` and `(7, 8, 9)`. -/
theorem matrix_inverse_multiply_vector_witness :
    ([1, 2, 3, 4] : List ℚ).length = 4 ∧ ([2, 0, 1, 1, 3, 0, 0, 1, 4] : List ℚ).length = 9 ∧
    ([5, 6] : List ℚ).length = 2 ∧ ([7, 8, 9] : List ℚ).length = 3 ∧
    (⟨[1, 2, 3, 4]⟩ : color.impl.matrix_2_2 ℚ).determinant ≠ 0 ∧
    (⟨[2, 0, 1, 1, 3, 0, 0, 1, 4]⟩ : color.impl.matrix_3_3 ℚ).determinant ≠ 0 ∧
    (⟨[1, 2, 3, 4]⟩ : color.impl.matrix_2_2 ℚ).inverse.multiply_vector
        ((⟨[1, 2, 3, 4]⟩ : color.impl.matrix_2_2 ℚ).multiply_vector [5, 6]) = [5, 6] ∧
    (⟨[2, 0, 1, 1, 3, 0, 0, 1, 4]⟩ : color.impl.matrix_3_3 ℚ).inverse.multiply_vector
        ((⟨[2, 0, 1, 1, 3, 0, 0, 1, 4]⟩ : color.impl.matrix_3_3 ℚ).multiply_vector
          [7, 8, 9]) = [7, 8, 9] :=
  ⟨rfl, rfl, rfl, rfl, by rw [determinant_2_2]; norm_num, by rw [determinant_3_3]; norm_num,
    (matrix_inverse_multiply_vector ⟨[1, 2, 3, 4]⟩ ⟨[2, 0, 1, 1, 3, 0, 0, 1, 4]⟩ [5, 6]
      [7, 8, 9] rfl rfl rfl rfl).1 (by rw [determinant_2_2]; norm_num),
    (matrix_inverse_multiply_vector ⟨[1, 2, 3, 4]⟩ ⟨[2, 0, 1, 1, 3, 0, 0, 1, 4]⟩ [5, 6]
      [7, 8, 9] rfl rfl rfl rfl).2.1 (by rw [determinant_3_3]; norm_num)⟩

end matrix_claim

/-! ## Claim on the symmetry under conjugation -/

section binary64_signs

/-- Rounding is symmetric under negation. -/
theorem binary64_round_neg (m e : Int) :
    binary64.round (Int.neg m) e = -(binary64.round m e) := by
  cases m with
  | ofNat n =>
    cases n with
    | zero => rfl
    | succ n => rfl
  | negSucc n =>
    show (⟨Int.ofNat (round_digits 53 (Nat.succ n)).1, _⟩ : binary64) =
      ⟨Int.neg (Int.negOfNat (round_digits 53 (Nat.succ n)).1), _⟩
    cases (round_digits 53 (Nat.succ n)).1 with
    | zero => rfl
    | succ k => rfl

theorem binary64_align_neg (a b : binary64) :
    binary64.align (-a) (-b) =
      (Int.neg (binary64.align a b).1, Int.neg (binary64.align a b).2.1,
        (binary64.align a b).2.2) := by
  show (match Int.sub a.exponent b.exponent with
    | Int.ofNat d => (Int.mul (Int.neg a.mantissa) (Int.ofNat (Nat.pow 2 d)),
        Int.neg b.mantissa, b.exponent)
    | Int.negSucc d => (Int.neg a.mantissa,
        Int.mul (Int.neg b.mantissa) (Int.ofNat (Nat.pow 2 (Nat.succ d))), a.exponent)) =
    (Int.neg (binary64.align a b).1, Int.neg (binary64.align a b).2.1,
      (binary64.align a b).2.2)
  unfold binary64.align
  cases Int.sub a.exponent b.exponent with
  | ofNat d =>
    simp only
    rw [show Int.mul (Int.neg a.mantissa) (Int.ofNat (Nat.pow 2 d)) =
      Int.neg (Int.mul a.mantissa (Int.ofNat (Nat.pow 2 d))) from Int.neg_mul _ _]
  | negSucc d =>
    simp only
    rw [show Int.mul (Int.neg b.mantissa) (Int.ofNat (Nat.pow 2 (Nat.succ d))) =
      Int.neg (Int.mul b.mantissa (Int.ofNat (Nat.pow 2 (Nat.succ d)))) from Int.neg_mul _ _]

/-- In binary64 the product with a negated value is the negated product. -/
theorem binary64_mul_neg (a b : binary64) : a * -b = -(a * b) := by
  show binary64.round (Int.mul a.mantissa (Int.neg b.mantissa)) _ =
    -(binary64.round (Int.mul a.mantissa b.mantissa) _)
  rw [show Int.mul a.mantissa (Int.neg b.mantissa) = Int.neg (Int.mul a.mantissa b.mantissa)
    from Int.mul_neg _ _]
  exact binary64_round_neg _ _

/-- In binary64 the sum of two negated values is the negated sum. -/
theorem binary64_neg_add_neg (a b : binary64) : -a + -b = -(a + b) := by
  show binary64.round (Int.add (binary64.align (-a) (-b)).1 (binary64.align (-a) (-b)).2.1)
      (binary64.align (-a) (-b)).2.2 =
    -(binary64.round (Int.add (binary64.align a b).1 (binary64.align a b).2.1)
      (binary64.align a b).2.2)
  rw [binary64_align_neg]
  simp only
  rw [show Int.add (Int.neg (binary64.align a b).1) (Int.neg (binary64.align a b).2.1) =
    Int.neg (Int.add (binary64.align a b).1 (binary64.align a b).2.1) from
      (Int.neg_add).symm]
  exact binary64_round_neg _ _

/-- In binary64 the square of a negated value is the square of the value. -/
theorem binary64_neg_mul_neg (a : binary64) : -a * -a = a * a := by
  show binary64.round (Int.mul (Int.neg a.mantissa) (Int.neg a.mantissa)) _ =
    binary64.round (Int.mul a.mantissa a.mantissa) _
  rw [show Int.mul (Int.neg a.mantissa) (Int.neg a.mantissa) = Int.mul a.mantissa a.mantissa
    from Int.neg_mul_neg _ _]
  rfl

/-- In binary64 the conversion of a negated integer is the negated conversion. -/
theorem binary64_cast_neg (k : Int) : ((-k : Int) : binary64) = -((k : Int) : binary64) :=
  binary64_round_neg k 0

end binary64_signs

section mirror_rows

/-- The plane values of the rows `⌊h/2⌋ - k` and `⌊h/2⌋ + k` of a frame with a real centre are
conjugates. -/
theorem number_at_mirror_row {S : Type} [Add S] [Mul S] [Neg S] [IntCast S] (f : frame S) (res : resolution) (x k : Int)
    (hmul : ∀ a b : S, a * -b = -(a * b)) (hadd : ∀ a b : S, -a + -b = -(a + b))
    (hzero : -((0 : Int) : S) = ((0 : Int) : S))
    (hcast : ∀ k : Int, ((-k : Int) : S) = -((k : Int) : S))
    (hcenter : f.center.imag = ((0 : Int) : S)) :
    f.number_at_screen_coords res ⟨x, Int.tdiv res.height 2 - k⟩ =
      (f.number_at_screen_coords res ⟨x, Int.tdiv res.height 2 + k⟩).conj := by
  unfold frame.number_at_screen_coords resolution.to_graphwise_coord complex.add complex.scale
    complex.conj
  simp only
  have h1 : Int.tdiv res.height 2 - k - Int.tdiv res.height 2 = -k := by omega
  have h2 : Int.tdiv res.height 2 + k - Int.tdiv res.height 2 = k := by omega
  rw [h1, h2, hcenter, hcast, hmul]
  congr 1
  rw [← hadd, hzero]

end mirror_rows

section conjugation
variable {S α : Type} [Add S] [Sub S] [Mul S] [Neg S] [IntCast S] [LT S]
  [DecidableRel (fun a b : S => a < b)]

/-- The loop on the conjugates returns what the loop returns, for scalars with the sign laws
of the hypotheses. -/
theorem escape_loop_conj (M : Nat) (num : complex S)
    (hmul : ∀ a b : S, a * -b = -(a * b)) (hadd : ∀ a b : S, -a + -b = -(a + b))
    (hsq : ∀ a : S, -a * -a = a * a) :
    ∀ (remaining i : Nat) (z : complex S) (rs is : S),
      escape_loop M num.conj remaining i z.conj rs is =
        escape_loop M num remaining i z rs is := by
  intro remaining
  induction remaining with
  | zero => intro i z rs is; rfl
  | succ n ih =>
    intro i z rs is
    simp only [escape_loop, complex.conj]
    rw [hmul, hadd, hsq]
    split
    · rfl
    · exact ih (i + 1) ⟨rs - is + num.real, ((2 : Int) : S) * z.real * z.imag + num.imag⟩ _ _

/-- Claim C37: for every bound `M` and every complex `c` the Mandelbrot evaluator returns for
the conjugate of `c` what it returns for `c`; so for a frame whose centre has the imaginary
part 0 the rendered pixels of the rows `⌊h/2⌋ + k` and `⌊h/2⌋ - k` are equal in every column
in which both lie in bounds.  The scalars are any with the sign laws of the hypotheses, which
binary64 has. -/
theorem mandelbrot_conjugate_symmetric [Inhabited α] (M : Nat) (c : complex S)
    (hmul : ∀ a b : S, a * -b = -(a * b)) (hadd : ∀ a b : S, -a + -b = -(a + b))
    (hsq : ∀ a : S, -a * -a = a * a) (hzero : -((0 : Int) : S) = ((0 : Int) : S))
    (hcast : ∀ k : Int, ((-k : Int) : S) = -((k : Int) : S)) :
    mandelbrot_set.iterations_before_escape M c.conj =
      mandelbrot_set.iterations_before_escape M c ∧
    (∀ (K : renderer_statics α) (r : rgb_based_renderer S α) (x k : Int), r.valid →
      r.frame.center.imag = ((0 : Int) : S) →
      r.resolution.in_bounds ⟨x, Int.tdiv r.resolution.height 2 + k⟩ →
      r.resolution.in_bounds ⟨x, Int.tdiv r.resolution.height 2 - k⟩ →
      (render_by_iteration K r mandelbrot_set).get_pixel
          ⟨x, Int.tdiv r.resolution.height 2 + k⟩ =
        (render_by_iteration K r mandelbrot_set).get_pixel
          ⟨x, Int.tdiv r.resolution.height 2 - k⟩) := by
  have hconj : ∀ (N : Nat) (d : complex S), mandelbrot_set.iterations_before_escape N d.conj =
      mandelbrot_set.iterations_before_escape N d := by
    intro N d
    have h := escape_loop_conj N d hmul hadd hsq N 0 complex.zero ((0 : Int) : S)
      ((0 : Int) : S)
    have hz : (complex.zero : complex S).conj = complex.zero := by
      unfold complex.conj complex.zero
      simp only
      rw [hzero]
    rw [hz] at h
    exact h
  refine ⟨hconj M c, ?_⟩
  intro K r x k hv hcenter hp hq
  rw [get_render_by_iteration K r _ hv _ hp, get_render_by_iteration K r _ hv _ hq]
  unfold pixel_color
  have hn := number_at_mirror_row r._frame r._resolution x k hmul hadd hzero hcast hcenter
  show _ = K.color_for_iterations K.max_iterations
    (mandelbrot_set.iterations_before_escape K.max_iterations
      (r._frame.number_at_screen_coords r._resolution
        ⟨x, Int.tdiv r._resolution.height 2 - k⟩))
  rw [hn, hconj]
  rfl

/-- Claim C37 over binary64, at the bound 5 and `c = 1 + 1i`. -/
theorem mandelbrot_conjugate_symmetric_witness :
    (∀ a b : binary64, a * -b = -(a * b)) ∧ (∀ a b : binary64, -a + -b = -(a + b)) ∧
    (∀ a : binary64, -a * -a = a * a) ∧ -((0 : Int) : binary64) = ((0 : Int) : binary64) ∧
    (∀ k : Int, ((-k : Int) : binary64) = -((k : Int) : binary64)) ∧
    (mandelbrot_set : iterative_set binary64).iterations_before_escape 5
        (⟨⟨1, 0⟩, ⟨1, 0⟩⟩ : complex binary64).conj =
      (mandelbrot_set : iterative_set binary64).iterations_before_escape 5
        (⟨⟨1, 0⟩, ⟨1, 0⟩⟩ : complex binary64) :=
  ⟨binary64_mul_neg, binary64_neg_add_neg, binary64_neg_mul_neg, rfl, binary64_cast_neg,
    (@mandelbrot_conjugate_symmetric binary64 Nat _ _ _ _ _ _ _ _ 5
      (⟨⟨1, 0⟩, ⟨1, 0⟩⟩ : complex binary64) binary64_mul_neg binary64_neg_add_neg
      binary64_neg_mul_neg rfl binary64_cast_neg).1⟩

end conjugation

/-! ## Claim on the colours without chroma -/

section gray
variable {F D : Type} [LinearOrderedField F]

/-- The product of the matrix of the primaries of the standard RGB space with the vector
`(sr, sg, sb)` is the white point D65. -/
theorem primaries_times_scale :
    (⟨[64 / 33, 1 / 2, 5 / 2, 1, 1, 1, 1 / 11, 1 / 6, 79 / 6]⟩ :
        color.impl.matrix_3_3 F).multiply_vector
        [2647777 / 12450000, 26710933 / 37350000, 336967 / 4668750] =
      [95047 / 100000, 1, 108883 / 100000] := by
  rw [multiply_vector_3_3]
  norm_num

/-- The vector `(sr, sg, sb)` of `_xyz_to_linear_rgb` for the white point D65 and the standard
RGB space. -/
theorem scale_of_standard :
    (⟨[64 / 33, 1 / 2, 5 / 2, 1, 1, 1, 1 / 11, 1 / 6, 79 / 6]⟩ :
        color.impl.matrix_3_3 F).inverse.multiply_vector
        [95047 / 100000, 1, 108883 / 100000] =
      [2647777 / 12450000, 26710933 / 37350000, 336967 / 4668750] := by
  rw [← primaries_times_scale]
  exact inverse_multiply_3_3 _ _ _ _ _ _ _ _ _ _ _ _ (by norm_num)

/-- The matrix that `_xyz_to_linear_rgb` returns for the white point D65 and the standard RGB
space is the inverse of the matrix of the scaled primaries. -/
theorem xyz_to_linear_rgb_standard :
    (color.xyz._xyz_to_linear_rgb color.white_point.d65 color.rgb_space.standard :
        color.impl.matrix_3_3 F) =
      (⟨[2647777 / 12450000 * (64 / 33), 26710933 / 37350000 * (1 / 2),
        336967 / 4668750 * (5 / 2), 2647777 / 12450000 * 1, 26710933 / 37350000 * 1,
        336967 / 4668750 * 1, 2647777 / 12450000 * (1 / 11), 26710933 / 37350000 * (1 / 6),
        336967 / 4668750 * (79 / 6)]⟩ : color.impl.matrix_3_3 F).inverse := by
  have hxr : (decimal_literal 64 100 : F) / decimal_literal 33 100 = 64 / 33 := by
    norm_num [decimal_literal]
  have hxg : (decimal_literal 30 100 : F) / decimal_literal 60 100 = 1 / 2 := by
    norm_num [decimal_literal]
  have hxb : (decimal_literal 15 100 : F) / decimal_literal 6 100 = 5 / 2 := by
    norm_num [decimal_literal]
  have hzr : ((1 : F) - decimal_literal 64 100 - decimal_literal 33 100) /
      decimal_literal 33 100 = 1 / 11 := by
    norm_num [decimal_literal]
  have hzg : ((1 : F) - decimal_literal 30 100 - decimal_literal 60 100) /
      decimal_literal 60 100 = 1 / 6 := by
    norm_num [decimal_literal]
  have hzb : ((1 : F) - decimal_literal 15 100 - decimal_literal 6 100) /
      decimal_literal 6 100 = 79 / 6 := by
    norm_num [decimal_literal]
  have hwx : (decimal_literal 95047 100000 : F) = 95047 / 100000 := by
    norm_num [decimal_literal]
  have hwz : (decimal_literal 108883 100000 : F) = 108883 / 100000 := by
    norm_num [decimal_literal]
  unfold color.xyz._xyz_to_linear_rgb
  simp only [color.rgb_space.standard, color.white_point.d65, Int.cast_one, Int.cast_zero, hxr,
    hxg, hxb, hzr, hzg, hzb, hwx, hwz, scale_of_standard, List.getD_cons_zero,
    List.getD_cons_succ]

/-- The matrix of `_xyz_to_linear_rgb` maps the multiple `t` of the white point D65 to
`(t, t, t)`. -/
theorem linear_rgb_of_white_multiple (t : F) :
    (color.xyz._xyz_to_linear_rgb color.white_point.d65 color.rgb_space.standard :
        color.impl.matrix_3_3 F).multiply_vector
        [(color.white_point.d65 : color.white_point F).x * t,
          (color.white_point.d65 : color.white_point F).y * t,
          (color.white_point.d65 : color.white_point F).z * t] = [t, t, t] := by
  have h : (⟨[2647777 / 12450000 * (64 / 33), 26710933 / 37350000 * (1 / 2),
        336967 / 4668750 * (5 / 2), 2647777 / 12450000 * 1, 26710933 / 37350000 * 1,
        336967 / 4668750 * 1, 2647777 / 12450000 * (1 / 11), 26710933 / 37350000 * (1 / 6),
        336967 / 4668750 * (79 / 6)]⟩ : color.impl.matrix_3_3 F).multiply_vector [t, t, t] =
      [(color.white_point.d65 : color.white_point F).x * t,
        (color.white_point.d65 : color.white_point F).y * t,
        (color.white_point.d65 : color.white_point F).z * t] := by
    rw [multiply_vector_3_3]
    simp only [color.white_point.d65, decimal_literal, List.cons.injEq, and_true]
    refine ⟨?_, ?_, ?_⟩
    · push_cast
      ring
    · push_cast
      ring
    · push_cast
      ring
  rw [xyz_to_linear_rgb_standard, ← h]
  exact inverse_multiply_3_3 _ _ _ _ _ _ _ _ _ _ _ _ (by norm_num)

/-- Claim C39: over exact arithmetic (a linearly ordered field of scalars), `lch::rgb()` of
every colour with chroma `C = 0` has red = green = blue: the step from Lab to XYZ gives the
multiple `t` of the white point D65, with `t` the processed component `(L + 16) / 116`, and the
matrix from XYZ to linear RGB maps the white point to `(1, 1, 1)`, so the colour is
`rgb::gray` of the octet of the gamma-corrected `t`. -/
theorem zero_chroma_is_gray (bits : bit_cast F) (fns : cmath F D) (L H : F) :
    (color.lch.rgb bits fns ⟨L, 0, H⟩).red = (color.lch.rgb bits fns ⟨L, 0, H⟩).green ∧
    (color.lch.rgb bits fns ⟨L, 0, H⟩).green = (color.lch.rgb bits fns ⟨L, 0, H⟩).blue ∧
    color.lab.xyz color.white_point.d65 fns (color.lch.lab fns ⟨L, 0, H⟩) =
      ⟨(color.white_point.d65 : color.white_point F).x *
          color.lab._process_component fns ((L + 16) / 116),
        (color.white_point.d65 : color.white_point F).y *
          color.lab._process_component fns ((L + 16) / 116),
        (color.white_point.d65 : color.white_point F).z *
          color.lab._process_component fns ((L + 16) / 116)⟩ ∧
    (color.xyz._xyz_to_linear_rgb color.white_point.d65 color.rgb_space.standard :
        color.impl.matrix_3_3 F).multiply_vector
        [(color.white_point.d65 : color.white_point F).x,
          (color.white_point.d65 : color.white_point F).y,
          (color.white_point.d65 : color.white_point F).z] = [1, 1, 1] ∧
    color.lch.rgb bits fns ⟨L, 0, H⟩ =
      color.rgb.gray (color.xyz._to_octet bits (color.xyz._linear_to_gamma fns
        (color.lab._process_component fns ((L + 16) / 116)))) := by
  have hxyz : color.lab.xyz color.white_point.d65 fns (color.lch.lab fns ⟨L, 0, H⟩) =
      ⟨(color.white_point.d65 : color.white_point F).x *
          color.lab._process_component fns ((L + 16) / 116),
        (color.white_point.d65 : color.white_point F).y *
          color.lab._process_component fns ((L + 16) / 116),
        (color.white_point.d65 : color.white_point F).z *
          color.lab._process_component fns ((L + 16) / 116)⟩ := by
    unfold color.lab.xyz color.lch.lab
    simp only [zero_mul, zero_div, add_zero, sub_zero, Int.cast_ofNat]
  have hrgb : color.lch.rgb bits fns ⟨L, 0, H⟩ =
      color.rgb.gray (color.xyz._to_octet bits (color.xyz._linear_to_gamma fns
        (color.lab._process_component fns ((L + 16) / 116)))) := by
    unfold color.lch.rgb color.xyz.rgb
    rw [hxyz]
    simp only [linear_rgb_of_white_multiple, List.getD_cons_zero, List.getD_cons_succ]
    rfl
  refine ⟨?_, ?_, hxyz, ?_, hrgb⟩
  · rw [hrgb]; rfl
  · rw [hrgb]; rfl
  · have h := linear_rgb_of_white_multiple (1 : F)
    simp only [mul_one] at h
    exact h

end gray

/-! ## Claim on the colour of LCH black -/

section black
variable {D : Type}

/-- Below the threshold `Epsilon` the function `_process_component` does not call `std::pow`. -/
theorem process_component_low (fns : cmath binary32 D) (component : binary32)
    (h : ¬ ((6 : Int) : binary32) / ((29 : Int) : binary32) < component) :
    color.lab._process_component fns component =
      ((108 : Int) : binary32) / ((841 : Int) : binary32) *
        (component - ((4 : Int) : binary32) / ((29 : Int) : binary32)) :=
  if_neg h

/-- Up to the threshold `0.0031308` the function `_linear_to_gamma` does not call `std::pow`. -/
theorem linear_to_gamma_low (fns : cmath binary32 D) (component : binary32)
    (h : component ≤ decimal_literal 31308 10000000) :
    color.xyz._linear_to_gamma fns component = decimal_literal 1292 100 * component :=
  if_pos h

set_option maxRecDepth 100000 in
/-- The XYZ colour of Lab `(0, 0, 0)` is `(0, 0, 0)`. -/
theorem lab_black_xyz (fns : cmath binary32 D) :
    color.lab.xyz color.white_point.d65 fns
        ⟨((0 : Int) : binary32), ((0 : Int) : binary32), ((0 : Int) : binary32)⟩ =
      ⟨((0 : Int) : binary32), ((0 : Int) : binary32), ((0 : Int) : binary32)⟩ := by
  unfold color.lab.xyz
  simp only []
  rw [process_component_low fns _ (by decide), process_component_low fns _ (by decide),
    process_component_low fns _ (by decide)]
  simp only [color.xyz.mk.injEq]
  exact ⟨by decide, by decide, by decide⟩

set_option maxRecDepth 100000 in
/-- Claim C23: `lch::rgb()` maps LCH black `(0, 0, 0)` to RGB `(0, 0, 0)`, in binary32 and
for every implementation of the library functions: the Lab colour is `(0, 0, 0)`, every
component of the XYZ colour is `Kappa · (4/29 - 4/29) = 0`, and so are the linear and the
gamma-corrected components and the octets. -/
theorem lch_black_rgb (fns : cmath binary32 D) :
    color.lch.rgb binary32.bit_cast fns color.lch.black = color.rgb.black ∧
    color.lch.lab fns (color.lch.black : color.lch binary32) =
      ⟨((0 : Int) : binary32), ((0 : Int) : binary32), ((0 : Int) : binary32)⟩ ∧
    color.lab.xyz color.white_point.d65 fns
        (color.lch.lab fns (color.lch.black : color.lch binary32)) =
      ⟨((0 : Int) : binary32), ((0 : Int) : binary32), ((0 : Int) : binary32)⟩ ∧
    (((0 : Int) : binary32) + ((16 : Int) : binary32)) / ((116 : Int) : binary32) -
        ((4 : Int) : binary32) / ((29 : Int) : binary32) = ((0 : Int) : binary32) ∧
    (color.xyz._xyz_to_linear_rgb color.white_point.d65 color.rgb_space.standard :
        color.impl.matrix_3_3 binary32).multiply_vector
        [((0 : Int) : binary32), ((0 : Int) : binary32), ((0 : Int) : binary32)] =
      [((0 : Int) : binary32), ((0 : Int) : binary32), ((0 : Int) : binary32)] ∧
    color.xyz._linear_to_gamma fns ((0 : Int) : binary32) = ((0 : Int) : binary32) ∧
    color.xyz._to_octet binary32.bit_cast ((0 : Int) : binary32) = 0 := by
  have hlab : color.lch.lab fns (color.lch.black : color.lch binary32) =
      ⟨((0 : Int) : binary32), ((0 : Int) : binary32), ((0 : Int) : binary32)⟩ := by
    unfold color.lch.lab color.lch.black
    simp only [binary32_zero_mul]
  have hlin : (color.xyz._xyz_to_linear_rgb color.white_point.d65 color.rgb_space.standard :
      color.impl.matrix_3_3 binary32).multiply_vector
        [((0 : Int) : binary32), ((0 : Int) : binary32), ((0 : Int) : binary32)] =
      [((0 : Int) : binary32), ((0 : Int) : binary32), ((0 : Int) : binary32)] := by
    decide
  have hgamma : color.xyz._linear_to_gamma fns ((0 : Int) : binary32) =
      ((0 : Int) : binary32) := by
    rw [linear_to_gamma_low fns _ (by decide)]
    decide
  refine ⟨?_, hlab, ?_, by decide, hlin, hgamma, by decide⟩
  · unfold color.lch.rgb color.xyz.rgb
    rw [hlab, lab_black_xyz]
    simp only []
    rw [hlin]
    simp only [List.getD_cons_zero, List.getD_cons_succ, hgamma]
    decide
  · rw [hlab, lab_black_xyz]

end black

/-! ## The number of binary digits -/

section digits

theorem size_div_pow (a k : Nat) (h : 2 ^ k ≤ a) : Nat.size (a / 2 ^ k) + k = Nat.size a := by
  have hpos : 0 < a / 2 ^ k := Nat.div_pos h (Nat.two_pow_pos k)
  have hs : 0 < Nat.size (a / 2 ^ k) := Nat.size_pos.mpr hpos
  apply Nat.le_antisymm
  · have h1 : 2 ^ (Nat.size (a / 2 ^ k) - 1) ≤ a / 2 ^ k :=
      Nat.lt_size.mp (by omega)
    have h2 : 2 ^ (Nat.size (a / 2 ^ k) - 1 + k) ≤ a := by
      rw [Nat.pow_add]
      exact (Nat.le_div_iff_mul_le (Nat.two_pow_pos k)).mp h1
    have h3 : Nat.size (a / 2 ^ k) - 1 + k < Nat.size a := Nat.lt_size.mpr h2
    omega
  · apply Nat.size_le.mpr
    rw [Nat.pow_add]
    exact (Nat.div_lt_iff_lt_mul (Nat.two_pow_pos k)).mp (Nat.lt_size_self _)

theorem bit_length_level (h : Nat) (Lh Lk : Nat → Nat → Nat)
    (hk : ∀ a n, Lk a n = bif Nat.blt a (2 ^ h) then Lh a n else Lh (a / 2 ^ h) (n + h))
    (ih : ∀ a n, a < 2 ^ h → Lh a n = n + Nat.size a) (a n : Nat) (ha : a < 2 ^ (h + h)) :
    Lk a n = n + Nat.size a := by
  rw [hk]
  by_cases c : a < 2 ^ h
  · have : Nat.blt a (2 ^ h) = true := by simpa [Nat.blt_eq] using c
    rw [this, cond_true]
    exact ih a n c
  · have : Nat.blt a (2 ^ h) = false := by
      rw [Bool.eq_false_iff]
      simpa [Nat.blt_eq] using c
    rw [this, cond_false]
    have hd : a / 2 ^ h < 2 ^ h := by
      rw [Nat.div_lt_iff_lt_mul (Nat.two_pow_pos h), ← Nat.pow_add]
      exact ha
    rw [ih _ _ hd, ← size_div_pow a h (by omega)]
    omega

theorem bit_length_1_eq (a n : Nat) (ha : a < 2 ^ 1) : bit_length_1 a n = n + Nat.size a := by
  unfold bit_length_1
  have h : a = 0 ∨ a = 1 := by omega
  rcases h with h | h <;> subst h <;> simp [Nat.size]

theorem bit_length_2_eq (a n : Nat) (ha : a < 2 ^ 2) : bit_length_2 a n = n + Nat.size a :=
  bit_length_level 1 bit_length_1 bit_length_2 (fun _ _ => rfl) bit_length_1_eq a n ha

theorem bit_length_4_eq (a n : Nat) (ha : a < 2 ^ 4) : bit_length_4 a n = n + Nat.size a :=
  bit_length_level 2 bit_length_2 bit_length_4 (fun _ _ => rfl) bit_length_2_eq a n ha

theorem bit_length_8_eq (a n : Nat) (ha : a < 2 ^ 8) : bit_length_8 a n = n + Nat.size a :=
  bit_length_level 4 bit_length_4 bit_length_8 (fun _ _ => rfl) bit_length_4_eq a n ha

theorem bit_length_16_eq (a n : Nat) (ha : a < 2 ^ 16) : bit_length_16 a n = n + Nat.size a :=
  bit_length_level 8 bit_length_8 bit_length_16 (fun _ _ => rfl) bit_length_8_eq a n ha

theorem bit_length_32_eq (a n : Nat) (ha : a < 2 ^ 32) : bit_length_32 a n = n + Nat.size a :=
  bit_length_level 16 bit_length_16 bit_length_32 (fun _ _ => rfl) bit_length_16_eq a n ha

theorem bit_length_64_eq (a n : Nat) (ha : a < 2 ^ 64) : bit_length_64 a n = n + Nat.size a :=
  bit_length_level 32 bit_length_32 bit_length_64 (fun _ _ => rfl) bit_length_32_eq a n ha

theorem bit_length_128_eq (a n : Nat) (ha : a < 2 ^ 128) :
    bit_length_128 a n = n + Nat.size a :=
  bit_length_level 64 bit_length_64 bit_length_128 (fun _ _ => rfl) bit_length_64_eq a n ha

theorem bit_length_fuel : ∀ (fuel a : Nat), a < 2 ^ (128 * fuel) → 0 < a →
    bit_length fuel a = Nat.size a := by
  intro fuel
  induction fuel with
  | zero => intro a h h0; simp at h; omega
  | succ f ih =>
    intro a h h0
    show (bif Nat.blt a (2 ^ 128) then bit_length_128 a 0
      else bit_length f (a / 2 ^ 128) + 128) = Nat.size a
    by_cases c : a < 2 ^ 128
    · have : Nat.blt a (2 ^ 128) = true := by simpa [Nat.blt_eq] using c
      rw [this, cond_true, bit_length_128_eq a 0 c]
      omega
    · have : Nat.blt a (2 ^ 128) = false := by
        rw [Bool.eq_false_iff]
        simpa [Nat.blt_eq] using c
      rw [this, cond_false]
      have hd : a / 2 ^ 128 < 2 ^ (128 * f) := by
        rw [Nat.div_lt_iff_lt_mul (Nat.two_pow_pos 128), ← Nat.pow_add]
        have : 128 * f + 128 = 128 * (f + 1) := by ring
        rw [this]
        exact h
      rw [ih _ hd (Nat.div_pos (by omega) (Nat.two_pow_pos 128))]
      exact size_div_pow a 128 (by omega)

theorem bit_length_eq_size (a : Nat) : bit_length a a = Nat.size a := by
  by_cases h0 : a = 0
  · subst h0; rw [Nat.size_zero]; rfl
  · apply bit_length_fuel a a _ (Nat.pos_of_ne_zero h0)
    calc a < 2 ^ a := Nat.lt_two_pow a
      _ ≤ 2 ^ (128 * a) := Nat.pow_le_pow_right (by norm_num) (by omega)

theorem bit_length_product_eq_size (p a : Nat) : bit_length_product p a = Nat.size a := by
  unfold bit_length_product
  by_cases c : 2 ^ (2 * p - 2) ≤ a ∧ a < 2 ^ (2 * p)
  · have hc : (Nat.ble (Nat.pow 2 (2 * p - 2)) a && Nat.blt a (Nat.pow 2 (2 * p))) = true := by
      simp only [Nat.pow_eq, Bool.and_eq_true, Nat.ble_eq, Nat.blt_eq]
      exact c
    rw [hc, cond_true]
    have hp : 0 < a := lt_of_lt_of_le (Nat.two_pow_pos _) c.1
    by_cases d : 2 ^ (2 * p - 1) ≤ a
    · have hd : Nat.ble (Nat.pow 2 (2 * p - 1)) a = true := by
        simpa only [Nat.pow_eq, Nat.ble_eq] using d
      rw [hd, cond_true]
      have h1 : 2 * p - 1 < Nat.size a := Nat.lt_size.mpr d
      have h2 : Nat.size a ≤ 2 * p := Nat.size_le.mpr c.2
      have h3 : 0 < 2 * p := by
        by_contra h
        have : 2 * p = 0 := by omega
        rw [this] at c
        simp at c
        omega
      omega
    · have hd : Nat.ble (Nat.pow 2 (2 * p - 1)) a = false := by
        rw [Bool.eq_false_iff]
        simpa only [Nat.pow_eq, Nat.ble_eq, ne_eq] using d
      rw [hd, cond_false]
      have h2 : Nat.size a ≤ 2 * p - 1 := Nat.size_le.mpr (by omega)
      by_cases hp2 : 2 * p - 2 < 2 * p - 1
      · have h1 : 2 * p - 2 < Nat.size a := Nat.lt_size.mpr c.1
        omega
      · have h3 : 2 * p - 1 = 0 := by omega
        rw [h3] at d
        simp at d
        omega
  · have hc : (Nat.ble (Nat.pow 2 (2 * p - 2)) a && Nat.blt a (Nat.pow 2 (2 * p))) = false := by
      rw [Bool.eq_false_iff]
      simp only [Nat.pow_eq, ne_eq, Bool.and_eq_true, Nat.ble_eq, Nat.blt_eq]
      exact c
    rw [hc, cond_false]
    exact bit_length_eq_size a

end digits

/-! ## The digits that rounding keeps -/

section rounding

/-- The digits that `round_digits` keeps of a number below `2 ^ p` are the number. -/
theorem round_digits_small (p a : Nat) (h : a < 2 ^ p) : round_digits p a = (a, 0) := by
  unfold round_digits
  have : Nat.blt a (Nat.pow 2 p) = true := by simpa [Nat.blt_eq] using h
  rw [this, cond_true]

/-- The result of `round_digits` for a number of more than `p` digits, in the usual operations:
`d = size a - p` digits are dropped, and the quotient is raised by one when the dropped digits
are more than half, or half with an odd quotient. -/
theorem round_digits_large (p a : Nat) (h : 2 ^ p ≤ a) :
    round_digits p a =
      (if 2 ^ (Nat.size a - p - 1) < a % 2 ^ (Nat.size a - p) ∨
          (a % 2 ^ (Nat.size a - p) = 2 ^ (Nat.size a - p - 1) ∧
            a / 2 ^ (Nat.size a - p) % 2 = 1) then
        a / 2 ^ (Nat.size a - p) + 1
      else a / 2 ^ (Nat.size a - p), Nat.size a - p) := by
  unfold round_digits
  have hb : Nat.blt a (Nat.pow 2 p) = false := by
    rw [Bool.eq_false_iff]
    simpa [Nat.blt_eq] using h
  rw [hb, cond_false]
  simp only [bit_length_product_eq_size]
  have hsub : Nat.sub (Nat.size a) p = Nat.size a - p := rfl
  rw [hsub]
  generalize Nat.size a - p = d
  have e1 : Nat.shiftRight a d = a / 2 ^ d := Nat.shiftRight_eq_div_pow a d
  have e2 : Nat.shiftLeft (a / 2 ^ d) d = a / 2 ^ d * 2 ^ d := Nat.shiftLeft_eq _ _
  have e3 : Nat.sub a (a / 2 ^ d * 2 ^ d) = a % 2 ^ d := by
    show a - a / 2 ^ d * 2 ^ d = a % 2 ^ d
    have := Nat.div_add_mod a (2 ^ d)
    rw [Nat.mul_comm] at this
    omega
  simp only [e1, e2, e3]
  have e4 : Nat.pow 2 (Nat.sub d 1) = 2 ^ (d - 1) := rfl
  have e5 : Nat.mod (a / 2 ^ d) 2 = a / 2 ^ d % 2 := rfl
  have e6 : Nat.add (a / 2 ^ d) 1 = a / 2 ^ d + 1 := rfl
  rw [e4, e5, e6]
  congr 1
  by_cases c : 2 ^ (d - 1) < a % 2 ^ d ∨ (a % 2 ^ d = 2 ^ (d - 1) ∧ a / 2 ^ d % 2 = 1)
  · rw [if_pos c]
    have : (Nat.blt (2 ^ (d - 1)) (a % 2 ^ d) ||
        (Nat.beq (a % 2 ^ d) (2 ^ (d - 1)) && Nat.beq (a / 2 ^ d % 2) 1)) = true := by
      simp only [Bool.or_eq_true, Nat.blt_eq, Bool.and_eq_true, Nat.beq_eq]
      exact c
    rw [this, cond_true]
  · rw [if_neg c]
    have : (Nat.blt (2 ^ (d - 1)) (a % 2 ^ d) ||
        (Nat.beq (a % 2 ^ d) (2 ^ (d - 1)) && Nat.beq (a / 2 ^ d % 2) 1)) = false := by
      rw [Bool.eq_false_iff]
      simp only [ne_eq, Bool.or_eq_true, Nat.blt_eq, Bool.and_eq_true, Nat.beq_eq]
      exact c
    rw [this, cond_false]

end rounding

/-! ## The value of a rounded number -/

section rounding_value

/-- The number that `round_digits` stands for differs from the rounded number by at most a
half `h` of the last kept digit, which is at most the `2 ^ p`-th part of the number. -/
theorem round_digits_close (p a : Nat) (hp : 1 ≤ p) :
    ∃ h : Nat, (round_digits p a).1 * 2 ^ (round_digits p a).2 ≤ a + h ∧
      a ≤ (round_digits p a).1 * 2 ^ (round_digits p a).2 + h ∧ h * 2 ^ p ≤ a := by
  by_cases c : a < 2 ^ p
  · rw [round_digits_small p a c]
    exact ⟨0, by simp, by simp, by simp⟩
  · have hle : 2 ^ p ≤ a := Nat.le_of_not_lt c
    rw [round_digits_large p a hle]
    have hsize : p < Nat.size a := Nat.lt_size.mpr hle
    obtain ⟨d, hd⟩ : ∃ d, Nat.size a - p = d + 1 := ⟨Nat.size a - p - 1, by omega⟩
    rw [hd]
    simp only [Nat.add_sub_cancel]
    have hdm := Nat.div_add_mod a (2 ^ (d + 1))
    have hlt := Nat.mod_lt a (Nat.two_pow_pos (d + 1))
    have hpow : 2 ^ (d + 1) = 2 * 2 ^ d := by rw [Nat.pow_succ]; ring
    have hhalf : 2 ^ d * 2 ^ p ≤ a := by
      rw [← Nat.pow_add]
      have : d + p = Nat.size a - 1 := by omega
      rw [this]
      exact Nat.lt_size.mp (by omega)
    have hdm' : a / 2 ^ (d + 1) * 2 ^ (d + 1) + a % 2 ^ (d + 1) = a := by
      rw [Nat.mul_comm]
      exact hdm
    refine ⟨2 ^ d, ?_, ?_, hhalf⟩
    · clear hhalf hdm
      split
      · rename_i hc
        have hc' : 2 ^ d ≤ a % 2 ^ (d + 1) := by
          rcases hc with hc | hc
          · exact Nat.le_of_lt hc
          · exact Nat.le_of_eq hc.1.symm
        clear hc
        rw [Nat.add_mul, Nat.one_mul]
        generalize a / 2 ^ (d + 1) * 2 ^ (d + 1) = X at hdm' ⊢
        generalize a % 2 ^ (d + 1) = r at hdm' hlt hc' ⊢
        generalize 2 ^ (d + 1) = P2 at hlt hpow ⊢
        generalize 2 ^ d = P at hpow hc' ⊢
        omega
      · generalize a / 2 ^ (d + 1) * 2 ^ (d + 1) = X at hdm' ⊢
        omega
    · clear hhalf hdm
      split
      · rw [Nat.add_mul, Nat.one_mul]
        generalize a / 2 ^ (d + 1) * 2 ^ (d + 1) = X at hdm' ⊢
        generalize a % 2 ^ (d + 1) = r at hdm' hlt ⊢
        generalize 2 ^ (d + 1) = P2 at hlt hpow ⊢
        generalize 2 ^ d = P at hpow ⊢
        omega
      · rename_i hc
        have h1 : a % 2 ^ (d + 1) ≤ 2 ^ d := by
          by_contra hn
          exact hc (Or.inl (Nat.lt_of_not_le hn))
        clear hc
        generalize a / 2 ^ (d + 1) * 2 ^ (d + 1) = X at hdm' ⊢
        generalize a % 2 ^ (d + 1) = r at hdm' hlt h1 ⊢
        omega

/-- Moving trailing zeros to the exponent keeps the number. -/
theorem strip_zeros_step_value (k : Nat) (r : Nat × Nat) :
    (strip_zeros_step k r).1 * 2 ^ (strip_zeros_step k r).2 = r.1 * 2 ^ r.2 ∧
      r.2 ≤ (strip_zeros_step k r).2 ∧ (0 < r.1 → 0 < (strip_zeros_step k r).1) := by
  unfold strip_zeros_step
  by_cases c : r.1 % 2 ^ k = 0
  · have hc : Nat.beq (Nat.mod r.1 (Nat.pow 2 k)) 0 = true := by
      rw [Nat.beq_eq]
      exact c
    rw [hc, cond_true]
    show r.1 / 2 ^ k * 2 ^ (r.2 + k) = r.1 * 2 ^ r.2 ∧ r.2 ≤ r.2 + k ∧
      (0 < r.1 → 0 < r.1 / 2 ^ k)
    have hdvd : 2 ^ k ∣ r.1 := Nat.dvd_of_mod_eq_zero c
    refine ⟨?_, Nat.le_add_right _ _, ?_⟩
    · rw [Nat.pow_add, Nat.mul_comm (2 ^ r.2), ← Nat.mul_assoc, Nat.div_mul_cancel hdvd]
    · intro h
      exact Nat.div_pos (Nat.le_of_dvd h hdvd) (Nat.two_pow_pos k)
  · have hc : Nat.beq (Nat.mod r.1 (Nat.pow 2 k)) 0 = false := by
      rw [Bool.eq_false_iff, ne_eq, Nat.beq_eq]
      exact c
    rw [hc, cond_false]
    exact ⟨rfl, le_refl _, fun h => h⟩

theorem strip_zeros_value (r : Nat × Nat) :
    (strip_zeros r).1 * 2 ^ (strip_zeros r).2 = r.1 * 2 ^ r.2 ∧ r.2 ≤ (strip_zeros r).2 ∧
      (0 < r.1 → 0 < (strip_zeros r).1) := by
  unfold strip_zeros
  obtain ⟨a1, a2, a3⟩ := strip_zeros_step_value 16 r
  obtain ⟨b1, b2, b3⟩ := strip_zeros_step_value 8 (strip_zeros_step 16 r)
  obtain ⟨c1, c2, c3⟩ := strip_zeros_step_value 4 (strip_zeros_step 8 (strip_zeros_step 16 r))
  obtain ⟨d1, d2, d3⟩ := strip_zeros_step_value 2
    (strip_zeros_step 4 (strip_zeros_step 8 (strip_zeros_step 16 r)))
  obtain ⟨e1, e2, e3⟩ := strip_zeros_step_value 1
    (strip_zeros_step 2 (strip_zeros_step 4 (strip_zeros_step 8 (strip_zeros_step 16 r))))
  exact ⟨by rw [e1, d1, c1, b1, a1], by omega, fun h => e3 (d3 (c3 (b3 (a3 h))))⟩

/-- The value of a power of two with an integer exponent that is a sum with a natural
number. -/
theorem two_zpow_add_nat (e : Int) (t : Nat) :
    (2 : ℚ) ^ (e + (t : Int)) = (2 : ℚ) ^ e * (2 : ℚ) ^ t := by
  rw [zpow_add₀ (by norm_num : (2 : ℚ) ≠ 0), zpow_natCast]

/-- The value of the rounding of a natural number `a` times `2 ^ e`. -/
theorem binary32_round_nat_value (a : Nat) (e : Int) :
    (binary32.round (Int.ofNat a) e).toRat =
      (((round_digits 24 a).1 * 2 ^ (round_digits 24 a).2 : Nat) : ℚ) * (2 : ℚ) ^ e := by
  by_cases h0 : a = 0
  · subst h0
    show ((0 : Int) : ℚ) * (2 : ℚ) ^ (0 : Int) = _
    rw [round_digits_small 24 0 (by norm_num)]
    simp
  · have hb : Nat.beq a 0 = false := by
      rw [Bool.eq_false_iff, ne_eq, Nat.beq_eq]
      exact h0
    unfold binary32.round
    simp only [hb, cond_false]
    unfold binary32.toRat
    simp only
    obtain ⟨h1, _, _⟩ := strip_zeros_value (round_digits 24 a)
    have h1q : (((strip_zeros (round_digits 24 a)).1 : Nat) : ℚ) *
        (2 : ℚ) ^ (strip_zeros (round_digits 24 a)).2 =
        (((round_digits 24 a).1 * 2 ^ (round_digits 24 a).2 : Nat) : ℚ) := by
      rw [← h1]
      push_cast
      ring
    rw [← h1q]
    show (((strip_zeros (round_digits 24 a)).1 : Int) : ℚ) *
      (2 : ℚ) ^ (e + ((strip_zeros (round_digits 24 a)).2 : Int)) = _
    rw [two_zpow_add_nat, Int.cast_natCast]
    ring

/-- The value of the rounding of a negative integer. -/
theorem binary32_round_neg_value (a : Nat) (e : Int) :
    (binary32.round (Int.negSucc a) e).toRat =
      -((((round_digits 24 (a + 1)).1 * 2 ^ (round_digits 24 (a + 1)).2 : Nat) : ℚ) *
        (2 : ℚ) ^ e) := by
  show (⟨Int.negOfNat (strip_zeros (round_digits 24 (Nat.succ a))).1,
    Int.add e (Int.ofNat (strip_zeros (round_digits 24 (Nat.succ a))).2)⟩ : binary32).toRat = _
  unfold binary32.toRat
  simp only
  obtain ⟨h1, _, _⟩ := strip_zeros_value (round_digits 24 (a + 1))
  have h1q : (((strip_zeros (round_digits 24 (a + 1))).1 : Nat) : ℚ) *
      (2 : ℚ) ^ (strip_zeros (round_digits 24 (a + 1))).2 =
      (((round_digits 24 (a + 1)).1 * 2 ^ (round_digits 24 (a + 1)).2 : Nat) : ℚ) := by
    rw [← h1]
    push_cast
    ring
  rw [← h1q]
  show ((Int.negOfNat (strip_zeros (round_digits 24 (a + 1))).1 : Int) : ℚ) *
    (2 : ℚ) ^ (e + ((strip_zeros (round_digits 24 (a + 1))).2 : Int)) = _
  rw [two_zpow_add_nat, Int.negOfNat_eq, Int.cast_neg, Int.ofNat_eq_coe, Int.cast_natCast]
  ring

/-- Rounding changes a value by at most its `2 ^ 24`-th part. -/
theorem binary32_round_close (m e : Int) :
    |(binary32.round m e).toRat - (m : ℚ) * (2 : ℚ) ^ e| ≤
      |(m : ℚ) * (2 : ℚ) ^ e| / 2 ^ 24 := by
  have hpos : (0 : ℚ) < (2 : ℚ) ^ e := zpow_pos (by norm_num) e
  have key : ∀ a : Nat,
      |((((round_digits 24 a).1 * 2 ^ (round_digits 24 a).2 : Nat) : ℚ)) - (a : ℚ)| ≤
        (a : ℚ) / 2 ^ 24 := by
    intro a
    obtain ⟨h, h1, h2, h3⟩ := round_digits_close 24 a (by norm_num)
    have q1 : (((round_digits 24 a).1 * 2 ^ (round_digits 24 a).2 : Nat) : ℚ) ≤ a + h := by
      exact_mod_cast h1
    have q2 : (a : ℚ) ≤ (((round_digits 24 a).1 * 2 ^ (round_digits 24 a).2 : Nat) : ℚ) + h := by
      exact_mod_cast h2
    have q3 : (h : ℚ) * 2 ^ 24 ≤ a := by exact_mod_cast h3
    have q4 : (h : ℚ) ≤ (a : ℚ) / 2 ^ 24 := by
      rw [le_div_iff₀ (by norm_num)]
      exact q3
    rw [abs_le]
    constructor <;> linarith
  cases m with
  | ofNat a =>
    rw [binary32_round_nat_value]
    have hk := key a
    have e1 : (((round_digits 24 a).1 * 2 ^ (round_digits 24 a).2 : Nat) : ℚ) * (2 : ℚ) ^ e -
        ((Int.ofNat a : Int) : ℚ) * (2 : ℚ) ^ e =
        ((((round_digits 24 a).1 * 2 ^ (round_digits 24 a).2 : Nat) : ℚ) - (a : ℚ)) *
          (2 : ℚ) ^ e := by
      simp only [Int.ofNat_eq_coe, Int.cast_natCast]
      ring
    rw [e1, abs_mul, abs_of_pos hpos]
    have e2 : |((Int.ofNat a : Int) : ℚ) * (2 : ℚ) ^ e| = (a : ℚ) * (2 : ℚ) ^ e := by
      simp only [Int.ofNat_eq_coe, Int.cast_natCast]
      rw [abs_mul, abs_of_pos hpos, abs_of_nonneg (Nat.cast_nonneg a)]
    rw [e2, mul_div_right_comm]
    exact mul_le_mul_of_nonneg_right hk (le_of_lt hpos)
  | negSucc a =>
    rw [binary32_round_neg_value]
    have hk := key (a + 1)
    have hc : ((Int.negSucc a : Int) : ℚ) = -((a + 1 : Nat) : ℚ) := by
      rw [Int.negSucc_eq]
      push_cast
      ring
    rw [hc]
    have e1 : -((((round_digits 24 (a + 1)).1 * 2 ^ (round_digits 24 (a + 1)).2 : Nat) : ℚ) *
        (2 : ℚ) ^ e) - -((a + 1 : Nat) : ℚ) * (2 : ℚ) ^ e =
        -(((((round_digits 24 (a + 1)).1 * 2 ^ (round_digits 24 (a + 1)).2 : Nat) : ℚ) -
          ((a + 1 : Nat) : ℚ)) * (2 : ℚ) ^ e) := by
      ring
    rw [e1, abs_neg, abs_mul, abs_of_pos hpos]
    have e2 : |-((a + 1 : Nat) : ℚ) * (2 : ℚ) ^ e| = ((a + 1 : Nat) : ℚ) * (2 : ℚ) ^ e := by
      rw [abs_mul, abs_of_pos hpos, abs_neg, abs_of_nonneg (Nat.cast_nonneg (a + 1))]
    rw [e2, mul_div_right_comm]
    exact mul_le_mul_of_nonneg_right hk (le_of_lt hpos)

end rounding_value

/-! ## The order of binary32 and the rounding to an integer -/

section order_and_bits

/-- The values of two binary32 numbers over the exponent that `align` gives. -/
theorem binary32_align_value (a b : binary32) :
    a.toRat = ((binary32.align a b).1 : ℚ) * (2 : ℚ) ^ (binary32.align a b).2.2 ∧
    b.toRat = ((binary32.align a b).2.1 : ℚ) * (2 : ℚ) ^ (binary32.align a b).2.2 := by
  have h2 : (2 : ℚ) ≠ 0 := by norm_num
  unfold binary32.align binary32.toRat
  split
  · rename_i d hd
    have he : a.exponent = b.exponent + (d : Int) := by
      have : a.exponent - b.exponent = (d : Int) := hd
      omega
    refine ⟨?_, rfl⟩
    show (a.mantissa : ℚ) * (2 : ℚ) ^ a.exponent =
      ((a.mantissa * ((2 ^ d : Nat) : Int) : Int) : ℚ) * (2 : ℚ) ^ b.exponent
    rw [he, two_zpow_add_nat]
    push_cast
    ring
  · rename_i d hd
    have he : b.exponent = a.exponent + ((d + 1 : Nat) : Int) := by
      have : a.exponent - b.exponent = Int.negSucc d := hd
      rw [Int.negSucc_eq] at this
      push_cast
      omega
    refine ⟨rfl, ?_⟩
    show (b.mantissa : ℚ) * (2 : ℚ) ^ b.exponent =
      ((b.mantissa * ((2 ^ (d + 1) : Nat) : Int) : Int) : ℚ) * (2 : ℚ) ^ a.exponent
    rw [he, two_zpow_add_nat]
    push_cast
    ring

/-- The order `<` of binary32 is the order of the values. -/
theorem binary32_lt_iff (a b : binary32) : a < b ↔ a.toRat < b.toRat := by
  obtain ⟨ha, hb⟩ := binary32_align_value a b
  have hpos : (0 : ℚ) < (2 : ℚ) ^ (binary32.align a b).2.2 := zpow_pos (by norm_num) _
  rw [ha, hb, mul_lt_mul_right hpos]
  show (binary32.align a b).1 < (binary32.align a b).2.1 ↔ _
  exact Int.cast_lt.symm

/-- The order `≤` of binary32 is the order of the values. -/
theorem binary32_le_iff (a b : binary32) : a ≤ b ↔ a.toRat ≤ b.toRat := by
  obtain ⟨ha, hb⟩ := binary32_align_value a b
  have hpos : (0 : ℚ) < (2 : ℚ) ^ (binary32.align a b).2.2 := zpow_pos (by norm_num) _
  rw [ha, hb, mul_le_mul_right hpos]
  show (binary32.align a b).1 ≤ (binary32.align a b).2.1 ↔ _
  exact Int.cast_le.symm

/-- The product of binary32 is the rounded product of the values. -/
theorem binary32_mul_close (a b : binary32) :
    |(a * b).toRat - a.toRat * b.toRat| ≤ |a.toRat * b.toRat| / 2 ^ 24 := by
  have h := binary32_round_close (Int.mul a.mantissa b.mantissa)
    (Int.add a.exponent b.exponent)
  have e : ((Int.mul a.mantissa b.mantissa : Int) : ℚ) *
      (2 : ℚ) ^ (Int.add a.exponent b.exponent) = a.toRat * b.toRat := by
    show ((a.mantissa * b.mantissa : Int) : ℚ) * (2 : ℚ) ^ (a.exponent + b.exponent) = _
    unfold binary32.toRat
    rw [zpow_add₀ (by norm_num : (2 : ℚ) ≠ 0)]
    push_cast
    ring
  rw [e] at h
  exact h

/-- The difference of binary32 is the rounded difference of the values. -/
theorem binary32_sub_close (a b : binary32) :
    |(a - b).toRat - (a.toRat - b.toRat)| ≤ |a.toRat - b.toRat| / 2 ^ 24 := by
  obtain ⟨ha, hb⟩ := binary32_align_value a b
  have h := binary32_round_close (Int.sub (binary32.align a b).1 (binary32.align a b).2.1)
    (binary32.align a b).2.2
  have e : ((Int.sub (binary32.align a b).1 (binary32.align a b).2.1 : Int) : ℚ) *
      (2 : ℚ) ^ (binary32.align a b).2.2 = a.toRat - b.toRat := by
    show (((binary32.align a b).1 - (binary32.align a b).2.1 : Int) : ℚ) * _ = _
    rw [ha, hb]
    push_cast
    ring
  rw [e] at h
  exact h

/-- The rounding to the nearest integer of an integer is the integer. -/
theorem nearest_even_int (k : Int) : nearest_even (k : ℚ) = k := by
  unfold nearest_even
  rw [Int.floor_intCast]
  simp

/-- A number less than a half away from an integer rounds to the integer. -/
theorem nearest_even_near (x : ℚ) (k : Int) (h : |x - (k : ℚ)| < 1 / 2) :
    nearest_even x = k := by
  rw [abs_lt] at h
  obtain ⟨h1, h2⟩ := h
  unfold nearest_even
  by_cases c : (k : ℚ) ≤ x
  · have hf : ⌊x⌋ = k := by
      rw [Int.floor_eq_iff]
      constructor
      · exact c
      · linarith
    rw [hf, if_pos (by linarith)]
  · have hf : ⌊x⌋ = k - 1 := by
      rw [Int.floor_eq_iff]
      push_cast
      constructor <;> linarith
    rw [hf]
    push_cast
    rw [if_neg (by linarith), if_pos (by linarith)]
    ring

/-- The rounding to nearest, ties to even, of the quotient of a natural number by a power of
two, in terms of the quotient and the remainder of the division. -/
theorem nearest_even_div (m k : Nat) :
    nearest_even ((m : ℚ) / 2 ^ (k + 1)) =
      ((if 2 ^ k < m % 2 ^ (k + 1) ∨ (m % 2 ^ (k + 1) = 2 ^ k ∧ m / 2 ^ (k + 1) % 2 = 1) then
        m / 2 ^ (k + 1) + 1 else m / 2 ^ (k + 1) : Nat) : Int) := by
  have hpos : (0 : ℚ) < 2 ^ (k + 1) := by positivity
  have hdm := Nat.div_add_mod m (2 ^ (k + 1))
  have hlt := Nat.mod_lt m (Nat.two_pow_pos (k + 1))
  have hpow : (2 : ℚ) ^ (k + 1) = 2 * 2 ^ k := by rw [pow_succ]; ring
  have hpowN : 2 ^ (k + 1) = 2 * 2 ^ k := by rw [Nat.pow_succ]; ring
  have hm : (m : ℚ) = 2 ^ (k + 1) * ((m / 2 ^ (k + 1) : Nat) : ℚ) +
      ((m % 2 ^ (k + 1) : Nat) : ℚ) := by
    exact_mod_cast hdm.symm
  have hx : (m : ℚ) / 2 ^ (k + 1) =
      ((m / 2 ^ (k + 1) : Nat) : ℚ) + ((m % 2 ^ (k + 1) : Nat) : ℚ) / 2 ^ (k + 1) := by
    rw [div_eq_iff (ne_of_gt hpos), add_mul, div_mul_cancel₀ _ (ne_of_gt hpos)]
    linarith
  have hr0 : (0 : ℚ) ≤ ((m % 2 ^ (k + 1) : Nat) : ℚ) / 2 ^ (k + 1) :=
    div_nonneg (Nat.cast_nonneg _) (le_of_lt hpos)
  have hr1 : ((m % 2 ^ (k + 1) : Nat) : ℚ) / 2 ^ (k + 1) < 1 := by
    rw [div_lt_one hpos]
    exact_mod_cast hlt
  have hfloor : ⌊(m : ℚ) / 2 ^ (k + 1)⌋ = ((m / 2 ^ (k + 1) : Nat) : Int) := by
    rw [Int.floor_eq_iff, hx, Int.cast_natCast]
    constructor <;> linarith
  have hfrac : (m : ℚ) / 2 ^ (k + 1) - ((⌊(m : ℚ) / 2 ^ (k + 1)⌋ : Int) : ℚ) =
      ((m % 2 ^ (k + 1) : Nat) : ℚ) / 2 ^ (k + 1) := by
    rw [hfloor, hx, Int.cast_natCast]
    ring
  unfold nearest_even
  rw [hfrac, hfloor]
  have hlt_iff : ((m % 2 ^ (k + 1) : Nat) : ℚ) / 2 ^ (k + 1) < 1 / 2 ↔
      m % 2 ^ (k + 1) < 2 ^ k := by
    rw [div_lt_iff₀ hpos, hpow]
    constructor
    · intro h
      have : ((m % 2 ^ (k + 1) : Nat) : ℚ) < ((2 ^ k : Nat) : ℚ) := by
        push_cast
        linarith
      exact_mod_cast this
    · intro h
      have : ((m % 2 ^ (k + 1) : Nat) : ℚ) < ((2 ^ k : Nat) : ℚ) := by exact_mod_cast h
      push_cast at this
      linarith
  have hgt_iff : 1 / 2 < ((m % 2 ^ (k + 1) : Nat) : ℚ) / 2 ^ (k + 1) ↔
      2 ^ k < m % 2 ^ (k + 1) := by
    rw [lt_div_iff₀ hpos, hpow]
    constructor
    · intro h
      have : ((2 ^ k : Nat) : ℚ) < ((m % 2 ^ (k + 1) : Nat) : ℚ) := by
        push_cast
        linarith
      exact_mod_cast this
    · intro h
      have : ((2 ^ k : Nat) : ℚ) < ((m % 2 ^ (k + 1) : Nat) : ℚ) := by exact_mod_cast h
      push_cast at this
      linarith
  by_cases c1 : m % 2 ^ (k + 1) < 2 ^ k
  · rw [if_pos (hlt_iff.mpr c1), if_neg (by omega)]
  · rw [if_neg (fun h => c1 (hlt_iff.mp h))]
    by_cases c2 : 2 ^ k < m % 2 ^ (k + 1)
    · rw [if_pos (hgt_iff.mpr c2), if_pos (Or.inl c2)]
      push_cast
      rfl
    · rw [if_neg (fun h => c2 (hgt_iff.mp h))]
      have heq : m % 2 ^ (k + 1) = 2 ^ k := by omega
      by_cases c3 : m / 2 ^ (k + 1) % 2 = 1
      · rw [if_neg (by omega), if_pos (Or.inr ⟨heq, c3⟩)]
        push_cast
        rfl
      · rw [if_pos (by omega), if_neg (by omega)]

end order_and_bits

/-! ## The bits of a sum with the constant of the octets -/

section octet_bits

/-- The bits of the binary32 value `q * 2 ^ T` when this is an integer `N` of 24 digits: the
biased exponent is 150 and the fraction is `N - 2 ^ 23`. -/
theorem to_bits_of_integer (q T N : Nat) (hN : q * 2 ^ T = N) (h1 : 2 ^ 23 ≤ N)
    (h2 : N < 2 ^ 24) :
    binary32.to_bits ⟨(q : Int), (T : Int)⟩ = 1258291200 + (N - 8388608) := by
  have hq : 0 < q := by
    rcases Nat.eq_zero_or_pos q with h | h
    · subst h
      simp at hN
      omega
    · exact h
  have hsN : Nat.size N = 24 := by
    apply Nat.le_antisymm
    · exact Nat.size_le.mpr h2
    · exact Nat.lt_size.mpr h1
  have hdiv : N / 2 ^ T = q := by
    rw [← hN]
    exact Nat.mul_div_cancel q (Nat.two_pow_pos T)
  have hle : 2 ^ T ≤ N := by
    rw [← hN]
    exact Nat.le_mul_of_pos_left _ hq
  have hsize : Nat.size q + T = 24 := by
    have := size_div_pow N T hle
    rw [hdiv, hsN] at this
    exact this
  unfold binary32.to_bits
  simp only [Int.natAbs_ofNat, bit_length_eq_size]
  rw [if_neg (by omega), if_neg (by omega)]
  have e1 : ((T : Int) + (Nat.size q : Int) - 1 + 127).toNat = 150 := by omega
  have e2 : 24 - Nat.size q = T := by omega
  rw [e1, e2, hN]
  omega

/-- The bits of the sum of a binary32 value `s` that is not negative and below `2 ^ 22` with
`2 ^ 23`: the bits of `2 ^ 23` plus the integer nearest to `s`, ties to even. -/
theorem add_c23_bits (s : binary32) (h0 : 0 ≤ s.mantissa) (h1 : s.toRat < 2 ^ 22) :
    0 ≤ nearest_even s.toRat ∧
    binary32.to_bits (s + ⟨8388608, 0⟩) = 1258291200 + (nearest_even s.toRat).toNat := by
  obtain ⟨m, e⟩ := s
  simp only at h0
  obtain ⟨a, rfl⟩ := Int.eq_ofNat_of_zero_le h0
  cases e with
  | ofNat d =>
    have hval : (⟨(a : Int), Int.ofNat d⟩ : binary32).toRat = ((a * 2 ^ d : Nat) : ℚ) := by
      unfold binary32.toRat
      simp only [Int.ofNat_eq_coe, Int.cast_natCast, zpow_natCast]
      push_cast
      ring
    rw [hval] at h1 ⊢
    have hlt : a * 2 ^ d < 2 ^ 22 := by exact_mod_cast h1
    have hne : nearest_even ((a * 2 ^ d : Nat) : ℚ) = ((a * 2 ^ d : Nat) : Int) := by
      have := nearest_even_int ((a * 2 ^ d : Nat) : Int)
      rw [Int.cast_natCast] at this
      exact this
    rw [hne]
    refine ⟨Int.natCast_nonneg _, ?_⟩
    rw [Int.toNat_natCast]
    show binary32.to_bits (binary32.round (Int.ofNat (a * 2 ^ d + 8388608)) 0) = _
    have hA0 : Nat.beq (a * 2 ^ d + 8388608) 0 = false := by
      rw [Bool.eq_false_iff, ne_eq, Nat.beq_eq]
      omega
    unfold binary32.round
    simp only [hA0, cond_false]
    rw [round_digits_small 24 _ (by norm_num; omega)]
    obtain ⟨v1, v2, v3⟩ := strip_zeros_value (a * 2 ^ d + 8388608, 0)
    simp only [pow_zero, mul_one] at v1
    have hexp : Int.add 0 (Int.ofNat (strip_zeros (a * 2 ^ d + 8388608, 0)).2) =
        (((strip_zeros (a * 2 ^ d + 8388608, 0)).2 : Nat) : Int) := by
      show (0 : Int) + _ = _
      simp
    rw [hexp]
    have hb := to_bits_of_integer _ _ _ v1 (by omega) (by norm_num; omega)
    rw [Int.ofNat_eq_coe, hb]
    omega
  | negSucc d =>
    have hval : (⟨(a : Int), Int.negSucc d⟩ : binary32).toRat = (a : ℚ) / 2 ^ (d + 1) := by
      unfold binary32.toRat
      simp only [Int.cast_natCast]
      rw [Int.negSucc_eq, zpow_neg, div_eq_mul_inv]
      congr 2
      exact_mod_cast zpow_natCast (2 : ℚ) (d + 1)
    rw [hval] at h1 ⊢
    have hpos : (0 : ℚ) < 2 ^ (d + 1) := by positivity
    have hlt : a < 2 ^ 22 * 2 ^ (d + 1) := by
      rw [div_lt_iff₀ hpos] at h1
      exact_mod_cast h1
    rw [nearest_even_div]
    refine ⟨Int.natCast_nonneg _, ?_⟩
    rw [Int.toNat_natCast]
    show binary32.to_bits (binary32.round
      (Int.ofNat (a + 8388608 * 2 ^ (d + 1))) (Int.negSucc d)) = _
    have hA0 : Nat.beq (a + 8388608 * 2 ^ (d + 1)) 0 = false := by
      rw [Bool.eq_false_iff, ne_eq, Nat.beq_eq]
      have := Nat.two_pow_pos (d + 1)
      omega
    unfold binary32.round
    simp only [hA0, cond_false]
    have hP := Nat.two_pow_pos (d + 1)
    have hp24 : 2 ^ (24 + (d + 1)) = 16777216 * 2 ^ (d + 1) := by
      rw [Nat.pow_add]
    have hp23 : 2 ^ (23 + (d + 1)) = 8388608 * 2 ^ (d + 1) := by
      rw [Nat.pow_add]
    have hsz : Nat.size (a + 8388608 * 2 ^ (d + 1)) = 24 + (d + 1) := by
      apply Nat.le_antisymm
      · apply Nat.size_le.mpr
        rw [hp24]
        omega
      · have : 23 + (d + 1) < Nat.size (a + 8388608 * 2 ^ (d + 1)) := by
          apply Nat.lt_size.mpr
          rw [hp23]
          omega
        omega
    have hbig : 2 ^ 24 ≤ a + 8388608 * 2 ^ (d + 1) := by
      have : 2 ^ 1 ≤ 2 ^ (d + 1) := Nat.pow_le_pow_right (by norm_num) (by omega)
      omega
    rw [round_digits_large 24 _ hbig, hsz]
    have hd1 : 24 + (d + 1) - 24 = d + 1 := by omega
    have hd2 : d + 1 - 1 = d := by omega
    rw [hd1, hd2]
    have hdiv : (a + 8388608 * 2 ^ (d + 1)) / 2 ^ (d + 1) = a / 2 ^ (d + 1) + 8388608 := by
      rw [Nat.add_mul_div_right _ _ hP]
    have hmod : (a + 8388608 * 2 ^ (d + 1)) % 2 ^ (d + 1) = a % 2 ^ (d + 1) := by
      rw [Nat.add_mul_mod_self_right]
    have hpar : (a / 2 ^ (d + 1) + 8388608) % 2 = a / 2 ^ (d + 1) % 2 := by omega
    rw [hdiv, hmod, hpar]
    have hq : a / 2 ^ (d + 1) < 2 ^ 22 := by
      rw [Nat.div_lt_iff_lt_mul hP]
      exact hlt
    generalize hK : (if 2 ^ d < a % 2 ^ (d + 1) ∨
        (a % 2 ^ (d + 1) = 2 ^ d ∧ a / 2 ^ (d + 1) % 2 = 1) then a / 2 ^ (d + 1) + 1
      else a / 2 ^ (d + 1)) = K
    have hKle : K ≤ 2 ^ 22 := by
      rw [← hK]
      split <;> omega
    have hQ : (if 2 ^ d < a % 2 ^ (d + 1) ∨
        (a % 2 ^ (d + 1) = 2 ^ d ∧ a / 2 ^ (d + 1) % 2 = 1) then
          a / 2 ^ (d + 1) + 8388608 + 1
        else a / 2 ^ (d + 1) + 8388608) = K + 8388608 := by
      rw [← hK]
      split <;> omega
    rw [hQ]
    obtain ⟨v1, v2, v3⟩ := strip_zeros_value (K + 8388608, d + 1)
    simp only at v1 v2
    obtain ⟨T, hT⟩ : ∃ T, (strip_zeros (K + 8388608, d + 1)).2 = T + (d + 1) :=
      ⟨(strip_zeros (K + 8388608, d + 1)).2 - (d + 1), by omega⟩
    have hexp : Int.add (Int.negSucc d) (Int.ofNat (strip_zeros (K + 8388608, d + 1)).2) =
        ((T : Nat) : Int) := by
      show Int.negSucc d + ((strip_zeros (K + 8388608, d + 1)).2 : Int) = _
      rw [hT, Int.negSucc_eq]
      push_cast
      ring
    rw [hexp]
    have hv : (strip_zeros (K + 8388608, d + 1)).1 * 2 ^ T = K + 8388608 := by
      rw [hT, Nat.pow_add, ← Nat.mul_assoc] at v1
      exact Nat.eq_of_mul_eq_mul_right hP v1
    have hb := to_bits_of_integer _ _ _ hv (by omega) (by norm_num; omega)
    rw [Int.ofNat_eq_coe, hb]
    omega

end octet_bits

/-! ## Claim on the octet of a component -/

section octets

/-- Rounding an integer that is not negative gives a mantissa that is not negative. -/
theorem binary32_round_mantissa_nonneg (m e : Int) (h : 0 ≤ m) :
    0 ≤ (binary32.round m e).mantissa := by
  obtain ⟨a, rfl⟩ := Int.eq_ofNat_of_zero_le h
  show 0 ≤ (bif Nat.beq a 0 then (⟨0, 0⟩ : binary32)
    else ⟨Int.ofNat (strip_zeros (round_digits 24 a)).1,
      Int.add e (Int.ofNat (strip_zeros (round_digits 24 a)).2)⟩).mantissa
  cases Nat.beq a 0
  · exact Int.natCast_nonneg _
  · exact le_refl _

/-- A value that is not negative has a mantissa that is not negative. -/
theorem binary32_mantissa_nonneg (a : binary32) (h : 0 ≤ a.toRat) : 0 ≤ a.mantissa := by
  unfold binary32.toRat at h
  have hpos : (0 : ℚ) < (2 : ℚ) ^ a.exponent := zpow_pos (by norm_num) _
  have : (0 : ℚ) ≤ (a.mantissa : ℚ) := by
    by_contra hn
    have := mul_neg_of_neg_of_pos (not_le.mp hn) hpos
    linarith
  exact_mod_cast this

theorem binary32_zero_value : (((0 : Int) : binary32)).toRat = 0 := by
  have : ((0 : Int) : binary32) = ⟨0, 0⟩ := by decide
  rw [this]
  norm_num [binary32.toRat]

theorem binary32_one_value : (((1 : Int) : binary32)).toRat = 1 := by
  have : ((1 : Int) : binary32) = ⟨1, 0⟩ := by decide
  rw [this]
  norm_num [binary32.toRat]

theorem binary32_255_value : (((255 : Int) : binary32)).toRat = 255 := by
  have : ((255 : Int) : binary32) = ⟨255, 0⟩ := by decide
  rw [this]
  norm_num [binary32.toRat]

/-- The value of `std::clamp(component, 0, 1)` lies between 0 and 1. -/
theorem clamp_value_range (c : binary32) :
    0 ≤ (clamp c ((0 : Int) : binary32) ((1 : Int) : binary32)).toRat ∧
    (clamp c ((0 : Int) : binary32) ((1 : Int) : binary32)).toRat ≤ 1 := by
  unfold clamp
  split
  · rw [binary32_zero_value]
    exact ⟨le_refl _, by norm_num⟩
  · rename_i h1
    split
    · rw [binary32_one_value]
      exact ⟨by norm_num, le_refl _⟩
    · rename_i h2
      rw [binary32_lt_iff, binary32_zero_value] at h1
      rw [binary32_lt_iff, binary32_one_value] at h2
      exact ⟨not_lt.mp h1, not_lt.mp h2⟩

/-- A number below `n + 1/2` rounds to at most `n`. -/
theorem nearest_even_le (x : ℚ) (n : Int) (h : x < (n : ℚ) + 1 / 2) : nearest_even x ≤ n := by
  have hf : ⌊x⌋ ≤ n := by
    have : ⌊x⌋ < n + 1 := by
      rw [Int.floor_lt]
      push_cast
      linarith
    omega
  have hfl := Int.floor_le x
  have key : ¬ (x - (⌊x⌋ : ℚ) < 1 / 2) → ⌊x⌋ + 1 ≤ n := by
    intro hc
    have h3 : ((⌊x⌋ : Int) : ℚ) < (n : ℚ) := by linarith
    have : ⌊x⌋ < n := by exact_mod_cast h3
    omega
  unfold nearest_even
  split
  · exact hf
  · rename_i hc
    split
    · exact key hc
    · split
      · exact hf
      · exact key hc

/-- The function `_to_octet` on a clamped component: the bits of the sum with `2 ^ 23` are the
bits of `2 ^ 23` plus the octet, and the octet is the binary32 product with 255, rounded to the
nearest integer, ties to even. -/
theorem to_octet_of_product (c : binary32) :
    0 ≤ nearest_even ((((255 : Int) : binary32) *
      clamp c ((0 : Int) : binary32) ((1 : Int) : binary32)).toRat) ∧
    nearest_even ((((255 : Int) : binary32) *
      clamp c ((0 : Int) : binary32) ((1 : Int) : binary32)).toRat) ≤ 255 ∧
    binary32.to_bits (((255 : Int) : binary32) *
        clamp c ((0 : Int) : binary32) ((1 : Int) : binary32) +
        color.xyz.C23_f32 binary32.bit_cast) =
      color.xyz.C23_u32 + (color.xyz._to_octet binary32.bit_cast c) ∧
    ((color.xyz._to_octet binary32.bit_cast c : Nat) : Int) =
      nearest_even ((((255 : Int) : binary32) *
        clamp c ((0 : Int) : binary32) ((1 : Int) : binary32)).toRat) := by
  obtain ⟨r0, r1⟩ := clamp_value_range c
  have hdef : color.xyz._to_octet binary32.bit_cast c =
      sub_sat (binary32.to_bits (((255 : Int) : binary32) *
        clamp c ((0 : Int) : binary32) ((1 : Int) : binary32) +
        color.xyz.C23_f32 binary32.bit_cast)) color.xyz.C23_u32 % 256 := rfl
  rw [hdef]
  generalize clamp c ((0 : Int) : binary32) ((1 : Int) : binary32) = c1 at r0 r1
  have hclose := binary32_mul_close ((255 : Int) : binary32) c1
  rw [binary32_255_value] at hclose
  have habs : |(255 : ℚ) * c1.toRat| = 255 * c1.toRat := abs_of_nonneg (by linarith)
  rw [habs, abs_le] at hclose
  obtain ⟨hc1, hc2⟩ := hclose
  have hm : 0 ≤ (((255 : Int) : binary32) * c1).mantissa := by
    have h255 : (((255 : Int) : binary32)).mantissa = 255 := by decide
    show 0 ≤ (binary32.round (Int.mul (((255 : Int) : binary32)).mantissa c1.mantissa)
      _).mantissa
    apply binary32_round_mantissa_nonneg
    rw [h255]
    exact Int.mul_nonneg (by norm_num) (binary32_mantissa_nonneg c1 r0)
  have hs : (((255 : Int) : binary32) * c1).toRat < 2 ^ 22 := by
    have : (255 : ℚ) * c1.toRat / 2 ^ 24 ≤ 255 / 2 ^ 24 := by
      apply div_le_div_of_nonneg_right _ (by norm_num)
      linarith
    norm_num at this ⊢
    linarith
  have hK := nearest_even_le (((255 : Int) : binary32) * c1).toRat 255 (by
    have : (255 : ℚ) * c1.toRat / 2 ^ 24 ≤ 255 / 2 ^ 24 := by
      apply div_le_div_of_nonneg_right _ (by norm_num)
      linarith
    norm_num at this ⊢
    linarith)
  obtain ⟨k0, kb⟩ := add_c23_bits (((255 : Int) : binary32) * c1) hm hs
  have hC : color.xyz.C23_f32 binary32.bit_cast = ⟨8388608, 0⟩ := by decide
  generalize nearest_even (((255 : Int) : binary32) * c1).toRat = K at k0 kb hK ⊢
  obtain ⟨n, rfl⟩ := Int.eq_ofNat_of_zero_le k0
  have hn : n ≤ 255 := by exact_mod_cast hK
  have hoct : sub_sat (binary32.to_bits (((255 : Int) : binary32) * c1 +
      color.xyz.C23_f32 binary32.bit_cast)) color.xyz.C23_u32 % 256 = n := by
    rw [hC, kb]
    unfold sub_sat color.xyz.C23_u32
    simp only [Int.toNat_natCast]
    rw [if_pos (by omega)]
    omega
  refine ⟨k0, hK, ?_, ?_⟩
  · rw [hoct, hC, kb]
    unfold color.xyz.C23_u32
    simp only [Int.toNat_natCast]
  · rw [hoct]

set_option maxRecDepth 100000 in
/-- Claim C24 fails for the component with the bits `0x3b008081`, which lies between 0 and 1:
the exact product with 255 is `2147483775 / 2 ^ 32`, more than a half, and rounds to 1, but
its binary32 value is a half, and `_to_octet` returns 0. -/
theorem to_octet_double_rounding :
    0 ≤ (binary32.of_bits 0x3b008081).toRat ∧ (binary32.of_bits 0x3b008081).toRat ≤ 1 ∧
    255 * (binary32.of_bits 0x3b008081).toRat = 2147483775 / 2 ^ 32 ∧
    nearest_even (255 * (binary32.of_bits 0x3b008081).toRat) = 1 ∧
    (((255 : Int) : binary32) * binary32.of_bits 0x3b008081).toRat = 1 / 2 ∧
    color.xyz._to_octet binary32.bit_cast (binary32.of_bits 0x3b008081) = 0 := by
  have hc : binary32.of_bits 0x3b008081 = ⟨8421505, -32⟩ := by decide
  have hp : ((255 : Int) : binary32) * binary32.of_bits 0x3b008081 = ⟨1, -1⟩ := by decide
  rw [hp, hc]
  have hv : (⟨8421505, -32⟩ : binary32).toRat = 8421505 / 2 ^ 32 := by
    norm_num [binary32.toRat]
  rw [hv]
  refine ⟨by norm_num, by norm_num, by norm_num, ?_, by norm_num [binary32.toRat], by decide⟩
  apply nearest_even_near
  norm_num [abs_lt]

/-- Claim C24, with the product taken in binary32: for every finite binary32 component,
`xyz::_to_octet(component)` is the binary32 product `255.0f × clamp(component, 0, 1)` rounded
to the nearest integer, ties to even; adding `2 ^ 23` gives the bits `0x4B000000` plus that
integer, which the saturating subtraction leaves; the octet is 0 for every component `≤ 0`
and 255 for every component `≥ 1`. -/
theorem to_octet_rounds_binary32_product (c : binary32) :
    ((color.xyz._to_octet binary32.bit_cast c : Nat) : Int) =
      nearest_even ((((255 : Int) : binary32) *
        clamp c ((0 : Int) : binary32) ((1 : Int) : binary32)).toRat) ∧
    binary32.to_bits (((255 : Int) : binary32) *
        clamp c ((0 : Int) : binary32) ((1 : Int) : binary32) +
        color.xyz.C23_f32 binary32.bit_cast) =
      0x4B000000 + color.xyz._to_octet binary32.bit_cast c ∧
    color.xyz._to_octet binary32.bit_cast c ≤ 255 ∧
    (c ≤ ((0 : Int) : binary32) → color.xyz._to_octet binary32.bit_cast c = 0) ∧
    (((1 : Int) : binary32) ≤ c → color.xyz._to_octet binary32.bit_cast c = 255) := by
  obtain ⟨h0, h255, hbits, hval⟩ := to_octet_of_product c
  have hle : color.xyz._to_octet binary32.bit_cast c ≤ 255 := by
    have : ((color.xyz._to_octet binary32.bit_cast c : Nat) : Int) ≤ 255 := by
      rw [hval]
      exact h255
    exact_mod_cast this
  refine ⟨hval, hbits, hle, ?_, ?_⟩
  · intro hc
    rw [binary32_le_iff, binary32_zero_value] at hc
    obtain ⟨r0, r1⟩ := clamp_value_range c
    have hcl : (clamp c ((0 : Int) : binary32) ((1 : Int) : binary32)).toRat = 0 := by
      unfold clamp
      split
      · exact binary32_zero_value
      · rename_i h1
        rw [binary32_lt_iff, binary32_zero_value] at h1
        split
        · rename_i h2
          rw [binary32_lt_iff, binary32_one_value] at h2
          exfalso
          linarith
        · exact le_antisymm hc (not_lt.mp h1)
    have hclose := binary32_mul_close ((255 : Int) : binary32)
      (clamp c ((0 : Int) : binary32) ((1 : Int) : binary32))
    rw [hcl] at hclose
    simp only [mul_zero, sub_zero, abs_zero, zero_div] at hclose
    have hz : (((255 : Int) : binary32) *
        clamp c ((0 : Int) : binary32) ((1 : Int) : binary32)).toRat = 0 :=
      abs_eq_zero.mp (le_antisymm hclose (abs_nonneg _))
    rw [hz] at hval
    have : nearest_even 0 = 0 := by
      have := nearest_even_int 0
      simpa using this
    rw [this] at hval
    exact_mod_cast hval
  · intro hc
    rw [binary32_le_iff, binary32_one_value] at hc
    obtain ⟨r0, r1⟩ := clamp_value_range c
    have hcl : (clamp c ((0 : Int) : binary32) ((1 : Int) : binary32)).toRat = 1 := by
      unfold clamp
      split
      · rename_i h1
        rw [binary32_lt_iff, binary32_zero_value] at h1
        exfalso
        linarith
      · split
        · exact binary32_one_value
        · rename_i h2
          rw [binary32_lt_iff, binary32_one_value] at h2
          exact le_antisymm (not_lt.mp h2) hc
    have hclose := binary32_mul_close ((255 : Int) : binary32)
      (clamp c ((0 : Int) : binary32) ((1 : Int) : binary32))
    rw [hcl, binary32_255_value] at hclose
    have hn : nearest_even ((((255 : Int) : binary32) *
        clamp c ((0 : Int) : binary32) ((1 : Int) : binary32)).toRat) = 255 := by
      apply nearest_even_near
      norm_num at hclose ⊢
      refine lt_of_le_of_lt hclose ?_
      norm_num
    rw [hn] at hval
    exact_mod_cast hval

end octets

/-! ## Claim on the colour of LCH white -/

section white
variable {D : Type}

/-- Above the threshold `Epsilon` the function `_process_component` is `std::pow` with the
exponent 3. -/
theorem process_component_high (fns : cmath binary32 D) (component : binary32)
    (h : ((6 : Int) : binary32) / ((29 : Int) : binary32) < component) :
    color.lab._process_component fns component = fns.pow component ((3 : Int) : binary32) :=
  if_pos h

/-- Above the threshold `0.0031308` the function `_linear_to_gamma` is
`1.055 * pow(component, 1 / 2.4) - 0.055`. -/
theorem linear_to_gamma_high (fns : cmath binary32 D) (component : binary32)
    (h : ¬ component ≤ decimal_literal 31308 10000000) :
    color.xyz._linear_to_gamma fns component =
      decimal_literal 1055 1000 *
          fns.pow component (((1 : Int) : binary32) / decimal_literal 24 10) -
        decimal_literal 55 1000 :=
  if_neg h

/-- The octet of `1.055 * p - 0.055` is 255 for every binary32 value `p` of at least
`1 - 2 ^ -23`. -/
theorem gamma_octet_of_near_one (p : binary32) (hp : 1 - 1 / 2 ^ 23 ≤ p.toRat) :
    color.xyz._to_octet binary32.bit_cast
      (decimal_literal 1055 1000 * p - decimal_literal 55 1000) = 255 := by
  have hA : (decimal_literal 1055 1000 : binary32).toRat = 8849981 / 2 ^ 23 := by
    have : (decimal_literal 1055 1000 : binary32) = ⟨8849981, -23⟩ := by decide
    rw [this]
    norm_num [binary32.toRat]
  have hB : (decimal_literal 55 1000 : binary32).toRat = 7381975 / 2 ^ 27 := by
    have : (decimal_literal 55 1000 : binary32) = ⟨7381975, -27⟩ := by decide
    rw [this]
    norm_num [binary32.toRat]
  have ht := binary32_mul_close (decimal_literal 1055 1000) p
  rw [hA] at ht
  have hpos : (0 : ℚ) ≤ 8849981 / 2 ^ 23 * p.toRat := by
    have : (0 : ℚ) ≤ p.toRat := by
      norm_num at hp
      linarith
    positivity
  rw [abs_of_nonneg hpos, abs_le] at ht
  obtain ⟨t1, _⟩ := ht
  have hg := binary32_sub_close (decimal_literal 1055 1000 * p) (decimal_literal 55 1000)
  rw [hB] at hg
  have hdiff : (0 : ℚ) ≤ (decimal_literal 1055 1000 * p).toRat - 7381975 / 2 ^ 27 := by
    norm_num at hp t1 ⊢
    linarith
  rw [abs_of_nonneg hdiff, abs_le] at hg
  obtain ⟨g1, _⟩ := hg
  have hglow : (9999996 : ℚ) / 10000000 ≤
      (decimal_literal 1055 1000 * p - decimal_literal 55 1000).toRat := by
    norm_num at hp t1 g1 ⊢
    linarith
  generalize decimal_literal 1055 1000 * p - decimal_literal 55 1000 = g at hglow
  obtain ⟨_, _, _, hval⟩ := to_octet_of_product g
  obtain ⟨_, r1⟩ := clamp_value_range g
  have r0 : (9999996 : ℚ) / 10000000 ≤
      (clamp g ((0 : Int) : binary32) ((1 : Int) : binary32)).toRat := by
    unfold clamp
    split
    · rename_i h1
      rw [binary32_lt_iff, binary32_zero_value] at h1
      exfalso
      linarith
    · split
      · rw [binary32_one_value]
        norm_num
      · exact hglow
  have hs := binary32_mul_close ((255 : Int) : binary32)
    (clamp g ((0 : Int) : binary32) ((1 : Int) : binary32))
  rw [binary32_255_value] at hs
  have hpos2 : (0 : ℚ) ≤
      255 * (clamp g ((0 : Int) : binary32) ((1 : Int) : binary32)).toRat := by
    linarith
  rw [abs_of_nonneg hpos2, abs_le] at hs
  obtain ⟨s1, s2⟩ := hs
  have hn : nearest_even ((((255 : Int) : binary32) *
      clamp g ((0 : Int) : binary32) ((1 : Int) : binary32)).toRat) = 255 := by
    apply nearest_even_near
    rw [abs_lt]
    norm_num at s1 s2 ⊢
    constructor <;> linarith
  rw [hn] at hval
  exact_mod_cast hval

set_option maxRecDepth 100000 in
/-- Claim C22: `lch::rgb()` maps LCH white `(100, 0, 0)` to RGB `(255, 255, 255)`, in binary32,
for every implementation of the library functions for which `pow(1, 3)` is `1` and
`pow(x, 1 / 2.4)` is at least `1 - 2 ^ -23` when `x` is: the Lab colour is `(100, 0, 0)`, the
XYZ colour is the white point, the linear components are `1 + 2 ^ -22`, `1 - 2 ^ -23` and `1`,
and each gamma-corrected component has the octet 255. -/
theorem lch_white_rgb (fns : cmath binary32 D)
    (hone : fns.pow ((1 : Int) : binary32) ((3 : Int) : binary32) = ((1 : Int) : binary32))
    (hpow : ∀ x : binary32, 1 - 1 / 2 ^ 23 ≤ x.toRat →
      1 - 1 / 2 ^ 23 ≤ (fns.pow x (((1 : Int) : binary32) / decimal_literal 24 10)).toRat) :
    color.lch.rgb binary32.bit_cast fns color.lch.white = color.rgb.white ∧
    color.lch.lab fns (color.lch.white : color.lch binary32) =
      ⟨((100 : Int) : binary32), ((0 : Int) : binary32), ((0 : Int) : binary32)⟩ ∧
    color.lab.xyz color.white_point.d65 fns
        (color.lch.lab fns (color.lch.white : color.lch binary32)) =
      ⟨(color.white_point.d65 : color.white_point binary32).x,
        (color.white_point.d65 : color.white_point binary32).y,
        (color.white_point.d65 : color.white_point binary32).z⟩ ∧
    (color.xyz._xyz_to_linear_rgb color.white_point.d65 color.rgb_space.standard :
        color.impl.matrix_3_3 binary32).multiply_vector
        [(color.white_point.d65 : color.white_point binary32).x,
          (color.white_point.d65 : color.white_point binary32).y,
          (color.white_point.d65 : color.white_point binary32).z] =
      [⟨4194305, -22⟩, ⟨8388607, -23⟩, ⟨1, 0⟩] := by
  have hlab : color.lch.lab fns (color.lch.white : color.lch binary32) =
      ⟨((100 : Int) : binary32), ((0 : Int) : binary32), ((0 : Int) : binary32)⟩ := by
    unfold color.lch.lab color.lch.white
    simp only [binary32_zero_mul]
  have hxyz : color.lab.xyz color.white_point.d65 fns
      ⟨((100 : Int) : binary32), ((0 : Int) : binary32), ((0 : Int) : binary32)⟩ =
      ⟨(color.white_point.d65 : color.white_point binary32).x,
        (color.white_point.d65 : color.white_point binary32).y,
        (color.white_point.d65 : color.white_point binary32).z⟩ := by
    unfold color.lab.xyz
    simp only []
    have hy : (((100 : Int) : binary32) + ((16 : Int) : binary32)) / ((116 : Int) : binary32) =
        ((1 : Int) : binary32) := by decide
    have hx : ((1 : Int) : binary32) + ((0 : Int) : binary32) / ((500 : Int) : binary32) =
        ((1 : Int) : binary32) := by decide
    have hz : ((1 : Int) : binary32) - ((0 : Int) : binary32) / ((200 : Int) : binary32) =
        ((1 : Int) : binary32) := by decide
    rw [hy, hx, hz, process_component_high fns _ (by decide), hone]
    simp only [color.xyz.mk.injEq]
    exact ⟨by decide, by decide, by decide⟩
  have hlin : (color.xyz._xyz_to_linear_rgb color.white_point.d65 color.rgb_space.standard :
      color.impl.matrix_3_3 binary32).multiply_vector
        [(color.white_point.d65 : color.white_point binary32).x,
          (color.white_point.d65 : color.white_point binary32).y,
          (color.white_point.d65 : color.white_point binary32).z] =
      [⟨4194305, -22⟩, ⟨8388607, -23⟩, ⟨1, 0⟩] := by
    decide
  refine ⟨?_, hlab, ?_, hlin⟩
  · unfold color.lch.rgb color.xyz.rgb
    rw [hlab, hxyz]
    simp only []
    rw [hlin]
    simp only [List.getD_cons_zero, List.getD_cons_succ]
    rw [linear_to_gamma_high fns _ (by decide), linear_to_gamma_high fns _ (by decide),
      linear_to_gamma_high fns _ (by decide)]
    rw [gamma_octet_of_near_one _ (hpow _ (by norm_num [binary32.toRat])),
      gamma_octet_of_near_one _ (hpow _ (by norm_num [binary32.toRat])),
      gamma_octet_of_near_one _ (hpow _ (by norm_num [binary32.toRat]))]
    rfl
  · rw [hlab, hxyz]

/-- Claim C22 for functions that return their first argument in the place of `std::pow`. -/
theorem lch_white_rgb_witness :
    first_argument_cmath.pow ((1 : Int) : binary32) ((3 : Int) : binary32) =
      ((1 : Int) : binary32) ∧
    color.lch.rgb binary32.bit_cast first_argument_cmath color.lch.white = color.rgb.white :=
  ⟨rfl, (lch_white_rgb first_argument_cmath rfl (fun _ h => h)).1⟩

end white

/-! ## Rounding does not cross a number of the format -/

section rounding_bounds

/-- Rounding to `p` digits does not cross a number `B * 2 ^ j` of at most `p` digits: a number
at most `B * 2 ^ j` is rounded to at most `B * 2 ^ j`, and a number at least `B * 2 ^ j` to at
least `B * 2 ^ j`. -/
theorem round_digits_bounds (p a B j : Nat) (hp : 1 ≤ p) (hB : B < 2 ^ p) :
    (a ≤ B * 2 ^ j → (round_digits p a).1 * 2 ^ (round_digits p a).2 ≤ B * 2 ^ j) ∧
    (B * 2 ^ j ≤ a → B * 2 ^ j ≤ (round_digits p a).1 * 2 ^ (round_digits p a).2) := by
  by_cases c : a < 2 ^ p
  · rw [round_digits_small p a c]
    simp
  · have hle : 2 ^ p ≤ a := Nat.le_of_not_lt c
    rw [round_digits_large p a hle]
    have hsize : p < Nat.size a := Nat.lt_size.mpr hle
    obtain ⟨d, hd⟩ : ∃ d, Nat.size a - p = d + 1 := ⟨Nat.size a - p - 1, by omega⟩
    rw [hd]
    simp only [Nat.add_sub_cancel]
    have hdm : a / 2 ^ (d + 1) * 2 ^ (d + 1) + a % 2 ^ (d + 1) = a := by
      have := Nat.div_add_mod a (2 ^ (d + 1))
      rw [Nat.mul_comm] at this
      exact this
    have hP : 0 < 2 ^ (d + 1) := Nat.two_pow_pos _
    have hPd : 0 < 2 ^ d := Nat.two_pow_pos _
    have hlow : 2 ^ (p + d) ≤ a := by
      apply Nat.lt_size.mp
      omega
    have hq : 2 ^ (p - 1) * 2 ^ (d + 1) ≤ a := by
      rw [← Nat.pow_add]
      have : p - 1 + (d + 1) = p + d := by omega
      rw [this]
      exact hlow
    have hqq : 2 ^ (p - 1) * 2 ^ (d + 1) ≤ a / 2 ^ (d + 1) * 2 ^ (d + 1) :=
      Nat.mul_le_mul_right _ ((Nat.le_div_iff_mul_le hP).mpr hq)
    have hQge : a / 2 ^ (d + 1) * 2 ^ (d + 1) ≤
        (if 2 ^ d < a % 2 ^ (d + 1) ∨
            (a % 2 ^ (d + 1) = 2 ^ d ∧ a / 2 ^ (d + 1) % 2 = 1) then
          a / 2 ^ (d + 1) + 1 else a / 2 ^ (d + 1)) * 2 ^ (d + 1) := by
      apply Nat.mul_le_mul_right
      split <;> omega
    have hsmall : j < d + 1 → B * 2 ^ j < 2 ^ (p - 1) * 2 ^ (d + 1) := by
      intro hj
      have h1 : B * 2 ^ j < 2 ^ p * 2 ^ j := Nat.mul_lt_mul_of_pos_right hB (Nat.two_pow_pos j)
      have h2 : 2 ^ p * 2 ^ j ≤ 2 ^ p * 2 ^ d :=
        Nat.mul_le_mul_left _ (Nat.pow_le_pow_right (by norm_num) (by omega))
      have h3 : 2 ^ p * 2 ^ d = 2 ^ (p - 1) * 2 ^ (d + 1) := by
        rw [← Nat.pow_add, ← Nat.pow_add]
        congr 1
        omega
      omega
    have hbig : d + 1 ≤ j → B * 2 ^ j = B * 2 ^ (j - (d + 1)) * 2 ^ (d + 1) := by
      intro hj
      rw [Nat.mul_assoc, ← Nat.pow_add]
      congr 2
      omega
    constructor
    · intro h
      by_cases hj : d + 1 ≤ j
      · rw [hbig hj] at h ⊢
        apply Nat.mul_le_mul_right
        have hqle : a / 2 ^ (d + 1) ≤ B * 2 ^ (j - (d + 1)) := by
          apply Nat.div_le_of_le_mul
          rw [Nat.mul_comm]
          exact h
        split
        · rename_i hc
          have hr : 0 < a % 2 ^ (d + 1) := by
            rcases hc with hc | hc
            · omega
            · omega
          by_contra hn
          have heq : a / 2 ^ (d + 1) = B * 2 ^ (j - (d + 1)) := by omega
          rw [← heq] at h
          omega
        · exact hqle
      · have := hsmall (by omega)
        omega
    · intro h
      refine le_trans ?_ hQge
      by_cases hj : d + 1 ≤ j
      · rw [hbig hj] at h ⊢
        apply Nat.mul_le_mul_right
        have := (Nat.le_div_iff_mul_le hP).mpr h
        exact this
      · have := hsmall (by omega)
        omega

end rounding_bounds

/-! ## The bounds of the operations of binary32 and binary64 -/

section value_bounds

/-- The bounds of `round_digits_bounds` for values with integer exponents: the rounding of
`a * 2 ^ e` to `p` digits does not cross `B * 2 ^ j` when `B` has at most `p` digits. -/
theorem round_value_bounds (p a : Nat) (e : Int) (B : Nat) (j : Int) (hp : 1 ≤ p)
    (hB : B < 2 ^ p) :
    ((a : ℚ) * (2 : ℚ) ^ e ≤ (B : ℚ) * (2 : ℚ) ^ j →
      (((round_digits p a).1 * 2 ^ (round_digits p a).2 : Nat) : ℚ) * (2 : ℚ) ^ e ≤
        (B : ℚ) * (2 : ℚ) ^ j) ∧
    ((B : ℚ) * (2 : ℚ) ^ j ≤ (a : ℚ) * (2 : ℚ) ^ e →
      (B : ℚ) * (2 : ℚ) ^ j ≤
        (((round_digits p a).1 * 2 ^ (round_digits p a).2 : Nat) : ℚ) * (2 : ℚ) ^ e) := by
  have h2 : (2 : ℚ) ≠ 0 := by norm_num
  by_cases c : e ≤ j
  · obtain ⟨t, ht⟩ : ∃ t : Nat, j = e + (t : Int) := ⟨(j - e).toNat, by omega⟩
    have hpos : (0 : ℚ) < (2 : ℚ) ^ e := zpow_pos (by norm_num) e
    have hb : (B : ℚ) * (2 : ℚ) ^ j = ((B * 2 ^ t : Nat) : ℚ) * (2 : ℚ) ^ e := by
      rw [ht, two_zpow_add_nat]
      push_cast
      ring
    rw [hb]
    obtain ⟨b1, b2⟩ := round_digits_bounds p a B t hp hB
    constructor
    · intro h
      rw [mul_le_mul_right hpos] at h ⊢
      exact_mod_cast b1 (by exact_mod_cast h)
    · intro h
      rw [mul_le_mul_right hpos] at h ⊢
      exact_mod_cast b2 (by exact_mod_cast h)
  · obtain ⟨t, ht⟩ : ∃ t : Nat, e = j + (t : Int) := ⟨(e - j).toNat, by omega⟩
    have hpos : (0 : ℚ) < (2 : ℚ) ^ j := zpow_pos (by norm_num) j
    have hT : 1 ≤ 2 ^ t := Nat.one_le_two_pow
    have ha : ∀ x : Nat, (x : ℚ) * (2 : ℚ) ^ e = ((x * 2 ^ t : Nat) : ℚ) * (2 : ℚ) ^ j := by
      intro x
      rw [ht, two_zpow_add_nat]
      push_cast
      ring
    rw [ha a, ha]
    constructor
    · intro h
      rw [mul_le_mul_right hpos] at h ⊢
      have h' : a * 2 ^ t ≤ B := by exact_mod_cast h
      have hsm : a < 2 ^ p := by
        have : a ≤ a * 2 ^ t := Nat.le_mul_of_pos_right a (by omega)
        omega
      rw [round_digits_small p a hsm]
      simpa using h
    · intro h
      rw [mul_le_mul_right hpos] at h ⊢
      have h' : B ≤ a * 2 ^ t := by exact_mod_cast h
      by_cases hsm : a < 2 ^ p
      · rw [round_digits_small p a hsm]
        simpa using h
      · have hpp : 2 ^ (p - 1) * 2 ^ 1 = 2 ^ p := by
          rw [← Nat.pow_add]
          congr 1
          omega
        have hR := (round_digits_bounds p a (2 ^ (p - 1)) 1 hp
          (Nat.pow_lt_pow_right (by norm_num) (by omega))).2 (by rw [hpp]; omega)
        rw [hpp] at hR
        have : B ≤ (round_digits p a).1 * 2 ^ (round_digits p a).2 * 2 ^ t := by
          have : (round_digits p a).1 * 2 ^ (round_digits p a).2 ≤
              (round_digits p a).1 * 2 ^ (round_digits p a).2 * 2 ^ t :=
            Nat.le_mul_of_pos_right _ (by omega)
          omega
        exact_mod_cast this

/-- The rounding of binary32 does not cross a value `B * 2 ^ j` with `B` of at most 24
digits. -/
theorem binary32_round_bounds (m e : Int) (B : Nat) (j : Int) (hB : B < 2 ^ 24) :
    ((m : ℚ) * (2 : ℚ) ^ e ≤ (B : ℚ) * (2 : ℚ) ^ j →
      (binary32.round m e).toRat ≤ (B : ℚ) * (2 : ℚ) ^ j) ∧
    ((B : ℚ) * (2 : ℚ) ^ j ≤ (m : ℚ) * (2 : ℚ) ^ e →
      (B : ℚ) * (2 : ℚ) ^ j ≤ (binary32.round m e).toRat) := by
  have hpe : (0 : ℚ) < (2 : ℚ) ^ e := zpow_pos (by norm_num) e
  have hpj : (0 : ℚ) < (2 : ℚ) ^ j := zpow_pos (by norm_num) j
  have hBj : (0 : ℚ) ≤ (B : ℚ) * (2 : ℚ) ^ j := mul_nonneg (Nat.cast_nonneg B) (le_of_lt hpj)
  cases m with
  | ofNat a =>
    rw [binary32_round_nat_value]
    have := round_value_bounds 24 a e B j (by norm_num) hB
    simpa using this
  | negSucc a =>
    rw [binary32_round_neg_value]
    have hR : (0 : ℚ) ≤ (((round_digits 24 (a + 1)).1 * 2 ^ (round_digits 24 (a + 1)).2 : Nat) :
        ℚ) * (2 : ℚ) ^ e := mul_nonneg (Nat.cast_nonneg _) (le_of_lt hpe)
    have hneg : ((Int.negSucc a : Int) : ℚ) * (2 : ℚ) ^ e < 0 := by
      apply mul_neg_of_neg_of_pos _ hpe
      exact_mod_cast Int.negSucc_lt_zero a
    constructor
    · intro _
      linarith
    · intro h
      linarith

/-- The value of the binary64 rounding of a natural number `a` times `2 ^ e`. -/
theorem binary64_round_nat_value (a : Nat) (e : Int) :
    (binary64.round (Int.ofNat a) e).toRat =
      (((round_digits 53 a).1 * 2 ^ (round_digits 53 a).2 : Nat) : ℚ) * (2 : ℚ) ^ e := by
  by_cases h0 : a = 0
  · subst h0
    show ((0 : Int) : ℚ) * (2 : ℚ) ^ (0 : Int) = _
    rw [round_digits_small 53 0 (by norm_num)]
    simp
  · have hb : Nat.beq a 0 = false := by
      rw [Bool.eq_false_iff, ne_eq, Nat.beq_eq]
      exact h0
    unfold binary64.round
    simp only [hb, cond_false]
    unfold binary64.toRat
    simp only
    show (((round_digits 53 a).1 : Int) : ℚ) *
      (2 : ℚ) ^ (e + ((round_digits 53 a).2 : Int)) = _
    rw [two_zpow_add_nat, Int.cast_natCast]
    push_cast
    ring

/-- The value of the binary64 rounding of a negative integer. -/
theorem binary64_round_neg_value (a : Nat) (e : Int) :
    (binary64.round (Int.negSucc a) e).toRat =
      -((((round_digits 53 (a + 1)).1 * 2 ^ (round_digits 53 (a + 1)).2 : Nat) : ℚ) *
        (2 : ℚ) ^ e) := by
  show (⟨Int.negOfNat (round_digits 53 (Nat.succ a)).1,
    Int.add e (Int.ofNat (round_digits 53 (Nat.succ a)).2)⟩ : binary64).toRat = _
  unfold binary64.toRat
  simp only
  show ((Int.negOfNat (round_digits 53 (a + 1)).1 : Int) : ℚ) *
    (2 : ℚ) ^ (e + ((round_digits 53 (a + 1)).2 : Int)) = _
  rw [two_zpow_add_nat, Int.negOfNat_eq, Int.cast_neg, Int.ofNat_eq_coe, Int.cast_natCast]
  push_cast
  ring

/-- The rounding of binary64 does not cross a value `B * 2 ^ j` with `B` of at most 53
digits. -/
theorem binary64_round_bounds (m e : Int) (B : Nat) (j : Int) (hB : B < 2 ^ 53) :
    ((m : ℚ) * (2 : ℚ) ^ e ≤ (B : ℚ) * (2 : ℚ) ^ j →
      (binary64.round m e).toRat ≤ (B : ℚ) * (2 : ℚ) ^ j) ∧
    ((B : ℚ) * (2 : ℚ) ^ j ≤ (m : ℚ) * (2 : ℚ) ^ e →
      (B : ℚ) * (2 : ℚ) ^ j ≤ (binary64.round m e).toRat) := by
  have hpe : (0 : ℚ) < (2 : ℚ) ^ e := zpow_pos (by norm_num) e
  have hpj : (0 : ℚ) < (2 : ℚ) ^ j := zpow_pos (by norm_num) j
  have hBj : (0 : ℚ) ≤ (B : ℚ) * (2 : ℚ) ^ j := mul_nonneg (Nat.cast_nonneg B) (le_of_lt hpj)
  cases m with
  | ofNat a =>
    rw [binary64_round_nat_value]
    have := round_value_bounds 53 a e B j (by norm_num) hB
    simpa using this
  | negSucc a =>
    rw [binary64_round_neg_value]
    have hR : (0 : ℚ) ≤ (((round_digits 53 (a + 1)).1 * 2 ^ (round_digits 53 (a + 1)).2 : Nat) :
        ℚ) * (2 : ℚ) ^ e := mul_nonneg (Nat.cast_nonneg _) (le_of_lt hpe)
    have hneg : ((Int.negSucc a : Int) : ℚ) * (2 : ℚ) ^ e < 0 := by
      apply mul_neg_of_neg_of_pos _ hpe
      exact_mod_cast Int.negSucc_lt_zero a
    constructor
    · intro _
      linarith
    · intro h
      linarith

/-- The values of two binary64 numbers over the exponent that `align` gives. -/
theorem binary64_align_value (a b : binary64) :
    a.toRat = ((binary64.align a b).1 : ℚ) * (2 : ℚ) ^ (binary64.align a b).2.2 ∧
    b.toRat = ((binary64.align a b).2.1 : ℚ) * (2 : ℚ) ^ (binary64.align a b).2.2 := by
  unfold binary64.align binary64.toRat
  split
  · rename_i d hd
    have he : a.exponent = b.exponent + (d : Int) := by
      have : a.exponent - b.exponent = (d : Int) := hd
      omega
    refine ⟨?_, rfl⟩
    show (a.mantissa : ℚ) * (2 : ℚ) ^ a.exponent =
      ((a.mantissa * ((2 ^ d : Nat) : Int) : Int) : ℚ) * (2 : ℚ) ^ b.exponent
    rw [he, two_zpow_add_nat]
    push_cast
    ring
  · rename_i d hd
    have he : b.exponent = a.exponent + ((d + 1 : Nat) : Int) := by
      have : a.exponent - b.exponent = Int.negSucc d := hd
      rw [Int.negSucc_eq] at this
      push_cast
      omega
    refine ⟨rfl, ?_⟩
    show (b.mantissa : ℚ) * (2 : ℚ) ^ b.exponent =
      ((b.mantissa * ((2 ^ (d + 1) : Nat) : Int) : Int) : ℚ) * (2 : ℚ) ^ a.exponent
    rw [he, two_zpow_add_nat]
    push_cast
    ring

/-- The difference of binary64 does not cross a value `B * 2 ^ j` with `B` of at most 53
digits. -/
theorem binary64_sub_bounds (a b : binary64) (B : Nat) (j : Int) (hB : B < 2 ^ 53) :
    (a.toRat - b.toRat ≤ (B : ℚ) * (2 : ℚ) ^ j → (a - b).toRat ≤ (B : ℚ) * (2 : ℚ) ^ j) ∧
    ((B : ℚ) * (2 : ℚ) ^ j ≤ a.toRat - b.toRat → (B : ℚ) * (2 : ℚ) ^ j ≤ (a - b).toRat) := by
  obtain ⟨ha, hb⟩ := binary64_align_value a b
  have h := binary64_round_bounds (Int.sub (binary64.align a b).1 (binary64.align a b).2.1)
    (binary64.align a b).2.2 B j hB
  have e : ((Int.sub (binary64.align a b).1 (binary64.align a b).2.1 : Int) : ℚ) *
      (2 : ℚ) ^ (binary64.align a b).2.2 = a.toRat - b.toRat := by
    show (((binary64.align a b).1 - (binary64.align a b).2.1 : Int) : ℚ) * _ = _
    rw [ha, hb]
    push_cast
    ring
  rw [e] at h
  exact h

/-- The product of binary64 does not cross a value `B * 2 ^ j` with `B` of at most 53
digits. -/
theorem binary64_mul_bounds (a b : binary64) (B : Nat) (j : Int) (hB : B < 2 ^ 53) :
    (a.toRat * b.toRat ≤ (B : ℚ) * (2 : ℚ) ^ j → (a * b).toRat ≤ (B : ℚ) * (2 : ℚ) ^ j) ∧
    ((B : ℚ) * (2 : ℚ) ^ j ≤ a.toRat * b.toRat → (B : ℚ) * (2 : ℚ) ^ j ≤ (a * b).toRat) := by
  have h := binary64_round_bounds (Int.mul a.mantissa b.mantissa)
    (Int.add a.exponent b.exponent) B j hB
  have e : ((Int.mul a.mantissa b.mantissa : Int) : ℚ) *
      (2 : ℚ) ^ (Int.add a.exponent b.exponent) = a.toRat * b.toRat := by
    show ((a.mantissa * b.mantissa : Int) : ℚ) * (2 : ℚ) ^ (a.exponent + b.exponent) = _
    unfold binary64.toRat
    rw [zpow_add₀ (by norm_num : (2 : ℚ) ≠ 0)]
    push_cast
    ring
  rw [e] at h
  exact h

/-- The sum of binary32 does not cross a value `B * 2 ^ j` with `B` of at most 24 digits. -/
theorem binary32_add_bounds (a b : binary32) (B : Nat) (j : Int) (hB : B < 2 ^ 24) :
    (a.toRat + b.toRat ≤ (B : ℚ) * (2 : ℚ) ^ j → (a + b).toRat ≤ (B : ℚ) * (2 : ℚ) ^ j) ∧
    ((B : ℚ) * (2 : ℚ) ^ j ≤ a.toRat + b.toRat → (B : ℚ) * (2 : ℚ) ^ j ≤ (a + b).toRat) := by
  obtain ⟨ha, hb⟩ := binary32_align_value a b
  have h := binary32_round_bounds (Int.add (binary32.align a b).1 (binary32.align a b).2.1)
    (binary32.align a b).2.2 B j hB
  have e : ((Int.add (binary32.align a b).1 (binary32.align a b).2.1 : Int) : ℚ) *
      (2 : ℚ) ^ (binary32.align a b).2.2 = a.toRat + b.toRat := by
    show (((binary32.align a b).1 + (binary32.align a b).2.1 : Int) : ℚ) * _ = _
    rw [ha, hb]
    push_cast
    ring
  rw [e] at h
  exact h

/-- The product of binary32 does not cross a value `B * 2 ^ j` with `B` of at most 24
digits. -/
theorem binary32_mul_bounds (a b : binary32) (B : Nat) (j : Int) (hB : B < 2 ^ 24) :
    (a.toRat * b.toRat ≤ (B : ℚ) * (2 : ℚ) ^ j → (a * b).toRat ≤ (B : ℚ) * (2 : ℚ) ^ j) ∧
    ((B : ℚ) * (2 : ℚ) ^ j ≤ a.toRat * b.toRat → (B : ℚ) * (2 : ℚ) ^ j ≤ (a * b).toRat) := by
  have h := binary32_round_bounds (Int.mul a.mantissa b.mantissa)
    (Int.add a.exponent b.exponent) B j hB
  have e : ((Int.mul a.mantissa b.mantissa : Int) : ℚ) *
      (2 : ℚ) ^ (Int.add a.exponent b.exponent) = a.toRat * b.toRat := by
    show ((a.mantissa * b.mantissa : Int) : ℚ) * (2 : ℚ) ^ (a.exponent + b.exponent) = _
    unfold binary32.toRat
    rw [zpow_add₀ (by norm_num : (2 : ℚ) ≠ 0)]
    push_cast
    ring
  rw [e] at h
  exact h

/-- The conversion of a `double` to `std::float32_t` does not cross a value `B * 2 ^ j` with
`B` of at most 24 digits. -/
theorem to_binary32_bounds (d : binary64) (B : Nat) (j : Int) (hB : B < 2 ^ 24) :
    (d.toRat ≤ (B : ℚ) * (2 : ℚ) ^ j → (binary64.to_binary32 d).toRat ≤ (B : ℚ) * (2 : ℚ) ^ j) ∧
    ((B : ℚ) * (2 : ℚ) ^ j ≤ d.toRat → (B : ℚ) * (2 : ℚ) ^ j ≤ (binary64.to_binary32 d).toRat) :=
  binary32_round_bounds d.mantissa d.exponent B j hB

/-- The conversion of a `std::float32_t` to `double` keeps the value. -/
theorem to_binary64_value (x : binary32) : (binary32.to_binary64 x).toRat = x.toRat := rfl

/-- The quotient of two binary32 values with mantissas that are not negative is not
negative. -/
theorem binary32_div_nonneg (a b : binary32) (ha : 0 ≤ a.mantissa) (hb : 0 ≤ b.mantissa) :
    0 ≤ (a / b).toRat := by
  show 0 ≤ (binary32.div a b).toRat
  unfold binary32.div
  split
  · norm_num [binary32.toRat]
  · simp only
    have hc : (a.mantissa < 0) = (b.mantissa < 0) := by
      simp [not_lt.mpr ha, not_lt.mpr hb]
    rw [if_pos hc]
    have h := (binary32_round_bounds
      ((quotient_digits a.mantissa.natAbs b.mantissa.natAbs
        (64 + bit_length b.mantissa.natAbs b.mantissa.natAbs) : Nat) : Int)
      (a.exponent - b.exponent -
        ((64 + bit_length b.mantissa.natAbs b.mantissa.natAbs : Nat) : Int) - 1)
      0 0 (by norm_num)).2
    simp only [Nat.cast_zero, zero_mul] at h
    apply h
    apply mul_nonneg
    · exact_mod_cast Int.natCast_nonneg _
    · exact le_of_lt (zpow_pos (by norm_num) _)

/-- The quotient of zero by a binary32 value is zero. -/
theorem binary32_zero_div (b : binary32) :
    ((0 : Int) : binary32) / b = ((0 : Int) : binary32) := by
  show binary32.div ⟨0, 0⟩ b = ⟨0, 0⟩
  unfold binary32.div
  split
  · rfl
  · simp only [Int.natAbs_zero]
    have hq : ∀ y s, quotient_digits 0 y s = 0 := by
      intro y s
      unfold quotient_digits
      simp
    rw [hq]
    split <;> rfl

end value_bounds

/-! ## Claim on the colours of the escaping counts -/

section escaping_colors

/-- The conversion of a natural number to binary32 is not negative. -/
theorem binary32_nat_cast_nonneg (n : Nat) : 0 ≤ ((((n : Nat) : Int) : binary32)).mantissa :=
  binary32_round_mantissa_nonneg _ 0 (Int.natCast_nonneg n)

/-- A binary32 value with a mantissa that is not negative is not negative. -/
theorem binary32_value_nonneg (a : binary32) (h : 0 ≤ a.mantissa) : 0 ≤ a.toRat := by
  unfold binary32.toRat
  exact mul_nonneg (by exact_mod_cast h) (le_of_lt (zpow_pos (by norm_num) _))

theorem binary32_360_value : (((360 : Int) : binary32)).toRat = 360 := by
  have : ((360 : Int) : binary32) = ⟨45, 3⟩ := by decide
  rw [this]
  norm_num [binary32.toRat]

theorem binary32_28_value : (((28 : Int) : binary32)).toRat = 28 := by
  have : ((28 : Int) : binary32) = ⟨7, 2⟩ := by decide
  rw [this]
  norm_num [binary32.toRat]

theorem binary64_one_value : (((1 : Int) : binary64)).toRat = 1 := by
  have : ((1 : Int) : binary64) = ⟨1, 0⟩ := rfl
  rw [this]
  norm_num [binary64.toRat]

theorem binary64_75_value : (((75 : Int) : binary64)).toRat = 75 := by
  have : ((75 : Int) : binary64) = ⟨75, 0⟩ := rfl
  rw [this]
  norm_num [binary64.toRat]

/-- The luminance `75 - 75 * (1 - q)` in `double`, converted to `std::float32_t`, lies between
0 and 75 when `q` lies between 0 and 1. -/
theorem luminance_range (q : binary64) (h0 : 0 ≤ q.toRat) (h1 : q.toRat ≤ 1) :
    0 ≤ (binary64.to_binary32
      (((75 : Int) : binary64) - ((75 : Int) : binary64) * (((1 : Int) : binary64) - q))).toRat ∧
    (binary64.to_binary32
      (((75 : Int) : binary64) - ((75 : Int) : binary64) * (((1 : Int) : binary64) - q))).toRat ≤
      75 := by
  obtain ⟨v1, v0⟩ := binary64_sub_bounds ((1 : Int) : binary64) q 1 0 (by norm_num)
  obtain ⟨_, v0'⟩ := binary64_sub_bounds ((1 : Int) : binary64) q 0 0 (by norm_num)
  rw [binary64_one_value] at v1 v0'
  simp only [Nat.cast_one, Nat.cast_zero, zpow_zero, mul_one, zero_mul] at v1 v0'
  have hv0 := v0' (by linarith)
  have hv1 := v1 (by linarith)
  generalize ((1 : Int) : binary64) - q = v at hv0 hv1
  obtain ⟨t1, _⟩ := binary64_mul_bounds ((75 : Int) : binary64) v 75 0 (by norm_num)
  obtain ⟨_, t0⟩ := binary64_mul_bounds ((75 : Int) : binary64) v 0 0 (by norm_num)
  rw [binary64_75_value] at t1 t0
  simp only [Nat.cast_ofNat, Nat.cast_zero, zpow_zero, mul_one, zero_mul] at t1 t0
  have ht0 := t0 (by linarith)
  have ht1 := t1 (by linarith)
  generalize ((75 : Int) : binary64) * v = t at ht0 ht1
  obtain ⟨d1, _⟩ := binary64_sub_bounds ((75 : Int) : binary64) t 75 0 (by norm_num)
  obtain ⟨_, d0⟩ := binary64_sub_bounds ((75 : Int) : binary64) t 0 0 (by norm_num)
  rw [binary64_75_value] at d1 d0
  simp only [Nat.cast_ofNat, Nat.cast_zero, zpow_zero, mul_one, zero_mul] at d1 d0
  have hd0 := d0 (by linarith)
  have hd1 := d1 (by linarith)
  generalize ((75 : Int) : binary64) - t = d at hd0 hd1
  obtain ⟨c1, _⟩ := to_binary32_bounds d 75 0 (by norm_num)
  obtain ⟨_, c0⟩ := to_binary32_bounds d 0 0 (by norm_num)
  simp only [Nat.cast_ofNat, Nat.cast_zero, zpow_zero, mul_one, zero_mul] at c1 c0
  exact ⟨c0 hd0, c1 hd1⟩

/-- The chroma `28 + L` lies between 28 and 103 when `L` lies between 0 and 75. -/
theorem chroma_range (L : binary32) (h0 : 0 ≤ L.toRat) (h1 : L.toRat ≤ 75) :
    28 ≤ (((28 : Int) : binary32) + L).toRat ∧ (((28 : Int) : binary32) + L).toRat ≤ 103 := by
  obtain ⟨a1, _⟩ := binary32_add_bounds ((28 : Int) : binary32) L 103 0 (by norm_num)
  obtain ⟨_, a0⟩ := binary32_add_bounds ((28 : Int) : binary32) L 28 0 (by norm_num)
  rw [binary32_28_value] at a1 a0
  simp only [Nat.cast_ofNat, zpow_zero, mul_one] at a1 a0
  exact ⟨a0 (by linarith), a1 (by linarith)⟩

set_option maxRecDepth 100000 in
/-- Claim C32: for every bound `M ≥ 1` and every count `i < M`,
`lch_color_for_iterations<M>(i)` is `(L, C, H)` with `s = (i/M)^0.01`, `v = 1 - cos²(s·π)`,
`L = 75 - 75·v`, `C = 28 + L` and `H = (360·s)^1.5 mod 360`, each operation being that of
`std::float32_t` or `double` as in the code and `π` the constant
`std::numbers::pi_v<std::float32_t>`; so `0 ≤ L ≤ 75`, `28 ≤ C ≤ 103` and `0 ≤ H < 360`, and
`i = 0` gives `(75, 103, 0)`.  The arithmetic is that of binary32 and binary64, and the library
functions are any with the ranges and the values of the hypotheses. -/
theorem lch_color_for_escaping_iterations (fns : cmath binary32 binary64) (M i : Nat)
    (hM : 1 ≤ M) (hi : i < M)
    (hd : ∀ x, fns.to_double x = binary32.to_binary64 x)
    (hf : ∀ d, fns.to_float32 d = binary64.to_binary32 d)
    (hcos : ∀ x, -1 ≤ (fns.cos x).toRat ∧ (fns.cos x).toRat ≤ 1)
    (hsq : ∀ y : binary64, -1 ≤ y.toRat → y.toRat ≤ 1 →
      0 ≤ (fns.pow_double y ((2 : Int) : binary64)).toRat ∧
        (fns.pow_double y ((2 : Int) : binary64)).toRat ≤ 1)
    (hpow : ∀ x y : binary32, 0 ≤ x.toRat → 0 ≤ (fns.pow x y).toRat)
    (hfmod : ∀ x : binary32, 0 ≤ x.toRat →
      0 ≤ (fns.fmod x ((360 : Int) : binary32)).toRat ∧
        (fns.fmod x ((360 : Int) : binary32)).toRat < 360)
    (hpow0 : ∀ y : binary32, 0 < y.toRat →
      fns.pow ((0 : Int) : binary32) y = ((0 : Int) : binary32))
    (hcos0 : fns.cos ((0 : Int) : binary32) = ((1 : Int) : binary32))
    (hsq1 : fns.pow_double ((1 : Int) : binary64) ((2 : Int) : binary64) =
      ((1 : Int) : binary64))
    (hfmod0 : fns.fmod ((0 : Int) : binary32) ((360 : Int) : binary32) =
      ((0 : Int) : binary32)) :
    lch_color_for_iterations fns M i =
      ⟨binary64.to_binary32 (((75 : Int) : binary64) - ((75 : Int) : binary64) *
          (((1 : Int) : binary64) - fns.pow_double (binary32.to_binary64 (fns.cos
            (fns.pow ((((i : Nat) : Int) : binary32) / (((M : Nat) : Int) : binary32))
              (decimal_literal 1 100) * pi_v))) ((2 : Int) : binary64))),
        ((28 : Int) : binary32) +
          binary64.to_binary32 (((75 : Int) : binary64) - ((75 : Int) : binary64) *
            (((1 : Int) : binary64) - fns.pow_double (binary32.to_binary64 (fns.cos
              (fns.pow ((((i : Nat) : Int) : binary32) / (((M : Nat) : Int) : binary32))
                (decimal_literal 1 100) * pi_v))) ((2 : Int) : binary64))),
        fns.fmod (fns.pow (((360 : Int) : binary32) *
            fns.pow ((((i : Nat) : Int) : binary32) / (((M : Nat) : Int) : binary32))
              (decimal_literal 1 100)) (decimal_literal 15 10)) ((360 : Int) : binary32)⟩ ∧
    0 ≤ (lch_color_for_iterations fns M i).l.toRat ∧
    (lch_color_for_iterations fns M i).l.toRat ≤ 75 ∧
    28 ≤ (lch_color_for_iterations fns M i).c.toRat ∧
    (lch_color_for_iterations fns M i).c.toRat ≤ 103 ∧
    0 ≤ (lch_color_for_iterations fns M i).h.toRat ∧
    (lch_color_for_iterations fns M i).h.toRat < 360 ∧
    lch_color_for_iterations fns M 0 =
      ⟨((75 : Int) : binary32), ((103 : Int) : binary32), ((0 : Int) : binary32)⟩ := by
  have hformula : ∀ j : Nat, j < M → lch_color_for_iterations fns M j =
      ⟨binary64.to_binary32 (((75 : Int) : binary64) - ((75 : Int) : binary64) *
          (((1 : Int) : binary64) - fns.pow_double (binary32.to_binary64 (fns.cos
            (fns.pow ((((j : Nat) : Int) : binary32) / (((M : Nat) : Int) : binary32))
              (decimal_literal 1 100) * pi_v))) ((2 : Int) : binary64))),
        ((28 : Int) : binary32) +
          binary64.to_binary32 (((75 : Int) : binary64) - ((75 : Int) : binary64) *
            (((1 : Int) : binary64) - fns.pow_double (binary32.to_binary64 (fns.cos
              (fns.pow ((((j : Nat) : Int) : binary32) / (((M : Nat) : Int) : binary32))
                (decimal_literal 1 100) * pi_v))) ((2 : Int) : binary64))),
        fns.fmod (fns.pow (((360 : Int) : binary32) *
            fns.pow ((((j : Nat) : Int) : binary32) / (((M : Nat) : Int) : binary32))
              (decimal_literal 1 100)) (decimal_literal 15 10)) ((360 : Int) : binary32)⟩ := by
    intro j hj
    unfold lch_color_for_iterations
    rw [if_neg (by omega)]
    simp only [hd, hf]
  have hs : 0 ≤ (fns.pow ((((i : Nat) : Int) : binary32) / (((M : Nat) : Int) : binary32))
      (decimal_literal 1 100)).toRat :=
    hpow _ _ (binary32_div_nonneg _ _ (binary32_nat_cast_nonneg i) (binary32_nat_cast_nonneg M))
  obtain ⟨c0, c1⟩ := hcos (fns.pow ((((i : Nat) : Int) : binary32) /
    (((M : Nat) : Int) : binary32)) (decimal_literal 1 100) * pi_v)
  obtain ⟨q0, q1⟩ := hsq (binary32.to_binary64 (fns.cos (fns.pow ((((i : Nat) : Int) :
    binary32) / (((M : Nat) : Int) : binary32)) (decimal_literal 1 100) * pi_v)))
    (by rw [to_binary64_value]; exact c0) (by rw [to_binary64_value]; exact c1)
  obtain ⟨l0, l1⟩ := luminance_range _ q0 q1
  obtain ⟨k0, k1⟩ := chroma_range _ l0 l1
  have h360 : 0 ≤ (((360 : Int) : binary32) *
      fns.pow ((((i : Nat) : Int) : binary32) / (((M : Nat) : Int) : binary32))
        (decimal_literal 1 100)).toRat := by
    have h := (binary32_mul_bounds ((360 : Int) : binary32)
      (fns.pow ((((i : Nat) : Int) : binary32) / (((M : Nat) : Int) : binary32))
        (decimal_literal 1 100)) 0 0 (by norm_num)).2
    simp only [Nat.cast_zero, zero_mul] at h
    apply h
    rw [binary32_360_value]
    linarith
  obtain ⟨f0, f1⟩ := hfmod _ (hpow _ (decimal_literal 15 10) h360)
  refine ⟨hformula i hi, ?_, ?_, ?_, ?_, ?_, ?_, ?_⟩
  · rw [hformula i hi]; exact l0
  · rw [hformula i hi]; exact l1
  · rw [hformula i hi]; exact k0
  · rw [hformula i hi]; exact k1
  · rw [hformula i hi]; exact f0
  · rw [hformula i hi]; exact f1
  · rw [hformula 0 (by omega)]
    have e1 : (0 : ℚ) < (decimal_literal 1 100 : binary32).toRat := by
      have : ((0 : Int) : binary32) < decimal_literal 1 100 := by decide
      rw [binary32_lt_iff, binary32_zero_value] at this
      exact this
    have e2 : (0 : ℚ) < (decimal_literal 15 10 : binary32).toRat := by
      have : ((0 : Int) : binary32) < decimal_literal 15 10 := by decide
      rw [binary32_lt_iff, binary32_zero_value] at this
      exact this
    have z1 : ((((0 : Nat) : Int)) : binary32) = ((0 : Int) : binary32) := rfl
    have z2 : binary32.to_binary64 ((1 : Int) : binary32) = ((1 : Int) : binary64) := rfl
    have z3 : ((360 : Int) : binary32) * ((0 : Int) : binary32) = ((0 : Int) : binary32) := by
      decide
    have z4 : binary64.to_binary32 (((75 : Int) : binary64) - ((75 : Int) : binary64) *
        (((1 : Int) : binary64) - ((1 : Int) : binary64))) = ((75 : Int) : binary32) := by
      decide
    have z5 : ((28 : Int) : binary32) + ((75 : Int) : binary32) = ((103 : Int) : binary32) := by
      decide
    rw [z1, binary32_zero_div, hpow0 _ e1, binary32_zero_mul, hcos0, z2, hsq1, z4, z5, z3,
      hpow0 _ e2, hfmod0]

/-- Claim C32 at the bound 2 and the count 1, for functions that have the ranges of the library
functions. -/
theorem lch_color_for_escaping_iterations_witness :
    (1 : Nat) ≤ 2 ∧ (1 : Nat) < 2 ∧
    lch_color_for_iterations ranged_cmath 2 0 =
      ⟨((75 : Int) : binary32), ((103 : Int) : binary32), ((0 : Int) : binary32)⟩ ∧
    (lch_color_for_iterations ranged_cmath 2 1).c.toRat ≤ 103 :=
  ⟨by decide, by decide,
    (lch_color_for_escaping_iterations ranged_cmath 2 1 (by decide) (by decide)
      (fun _ => rfl) (fun _ => rfl)
      (fun _ => by
        show -1 ≤ (((1 : Int) : binary32)).toRat ∧ (((1 : Int) : binary32)).toRat ≤ 1
        rw [binary32_one_value]
        norm_num)
      (fun y h0 h1 => by
        show 0 ≤ (y * y).toRat ∧ (y * y).toRat ≤ 1
        have a := (binary64_mul_bounds y y 0 0 (by norm_num)).2
        have b := (binary64_mul_bounds y y 1 0 (by norm_num)).1
        simp only [Nat.cast_zero, zero_mul, Nat.cast_one, zpow_zero, mul_one] at a b
        exact ⟨a (mul_self_nonneg _), b (by nlinarith)⟩)
      (fun _ _ h => h)
      (fun x h => by
        show 0 ≤ (if x < ((360 : Int) : binary32) then x else ((0 : Int) : binary32)).toRat ∧
          (if x < ((360 : Int) : binary32) then x else ((0 : Int) : binary32)).toRat < 360
        split
        · rename_i hx
          rw [binary32_lt_iff, binary32_360_value] at hx
          exact ⟨h, hx⟩
        · rw [binary32_zero_value]
          norm_num)
      (fun _ _ => rfl) rfl rfl (by decide)).2.2.2.2.2.2.2,
    (lch_color_for_escaping_iterations ranged_cmath 2 1 (by decide) (by decide)
      (fun _ => rfl) (fun _ => rfl)
      (fun _ => by
        show -1 ≤ (((1 : Int) : binary32)).toRat ∧ (((1 : Int) : binary32)).toRat ≤ 1
        rw [binary32_one_value]
        norm_num)
      (fun y h0 h1 => by
        show 0 ≤ (y * y).toRat ∧ (y * y).toRat ≤ 1
        have a := (binary64_mul_bounds y y 0 0 (by norm_num)).2
        have b := (binary64_mul_bounds y y 1 0 (by norm_num)).1
        simp only [Nat.cast_zero, zero_mul, Nat.cast_one, zpow_zero, mul_one] at a b
        exact ⟨a (mul_self_nonneg _), b (by nlinarith)⟩)
      (fun _ _ h => h)
      (fun x h => by
        show 0 ≤ (if x < ((360 : Int) : binary32) then x else ((0 : Int) : binary32)).toRat ∧
          (if x < ((360 : Int) : binary32) then x else ((0 : Int) : binary32)).toRat < 360
        split
        · rename_i hx
          rw [binary32_lt_iff, binary32_360_value] at hx
          exact ⟨h, hx⟩
        · rw [binary32_zero_value]
          norm_num)
      (fun _ _ => rfl) rfl rfl (by decide)).2.2.2.2.1⟩

end escaping_colors

end juliet
